import Mathlib

/-!
# cppcodec: the stream codec engine and the radix-85 (Z85) codec

A shallow embedding of

* `cppcodec/detail/stream_codec.hpp` (`stream_codec::encode`, `stream_codec::decode`,
  `encoded_size`, `decoded_max_size`, the lookup table generator),
* `cppcodec/detail/base85.hpp` (`base85_block_encoder`, `base85_block_decoder`, `base85`),
* `cppcodec/base85_z85.hpp` (the Z85 alphabet and variant),

followed by theorems about them.

Conventions of the embedding.

* `uint8_t` and `char` values are `Fin 256` (a `char` is identified with its byte value).
  Whether the plain `char` is a signed type is implementation-defined; it matters where
  a `char` is used as an array subscript, and is the parameter `char_signed` there.
* A pointer into a buffer is the list of the elements from the pointer to the end of the
  buffer; `p + n` is `List.drop n`, and `src_end - src` is `List.length`.
* `data::put(result, state, x)` appends `x` to the result: `result ++ [x]`.
* A thrown exception, `abort()`, and a read outside an array are values of `Failure`.
* Unsigned machine arithmetic is arithmetic on `Nat` reduced modulo `2 ^ w`.
-/

namespace cppcodec

/-- The type `uint8_t`. -/
abbrev Byte := Fin 256

/-- The type `char`, identified with its byte value `0 .. 255`. -/
abbrev CChar := Fin 256

/-- The ways a call can end other than by returning: the exceptions of `parse_error.hpp`
(`symbol_error`, `padding_error`, `invalid_input_length`), `std::domain_error`, `abort()`,
a read or write outside an array, and a loop that never ends. -/
inductive Failure where
  | symbol_error (c : CChar)
  | padding_error
  | invalid_input_length
  | domain_error
  | aborted
  | out_of_bounds
  | no_return
  deriving DecidableEq, Repr

/-- Equality of `Except` values is decidable when it is for both components. -/
instance instDecidableEqExcept {ε α : Type} [DecidableEq ε] [DecidableEq α] :
    DecidableEq (Except ε α)
  | .ok a, .ok b => if h : a = b then isTrue (by rw [h]) else isFalse (by intro h2; cases h2; exact h rfl)
  | .error a, .error b =>
      if h : a = b then isTrue (by rw [h]) else isFalse (by intro h2; cases h2; exact h rfl)
  | .ok _, .error _ => isFalse (by intro h; cases h)
  | .error _, .ok _ => isFalse (by intro h; cases h)

/-- The `CodecVariant` template parameter: the static members the engine calls.
`symbol` fails with `out_of_bounds` where the variant would read outside its alphabet. -/
structure CodecVariant where
  alphabet_size : Nat
  symbol : Nat → Except Failure CChar
  generates_padding : Bool
  requires_padding : Bool
  padding_symbol : CChar
  is_padding_symbol : CChar → Bool
  is_eof_symbol : CChar → Bool
  should_ignore : CChar → Bool
  normalized_symbol : CChar → CChar

/-- The `Codec` template parameter: block geometry and the block transcoders.
The sink is passed in and returned. The decoders return the sink together with the
exception they threw, if any, because what was put before a throw stays in the sink. -/
structure Codec where
  binary_block_size : Nat
  encoded_block_size : Nat
  num_encoded_tail_symbols : Nat → Except Failure Nat
  encode_block : List CChar → List Byte → Except Failure (List CChar)
  encode_tail : List CChar → List Byte → Nat → Except Failure (List CChar)
  decode_block : List Byte → List Nat → List Byte × Option Failure
  decode_tail : List Byte → List Nat → Nat → List Byte × Option Failure

/-! ## stream_codec.hpp: padder -/

/-- The loop of `padder<true>::operator()`: put `padding_symbol()` `n` times. -/
def padder_true (V : CodecVariant) (encoded : List CChar) : Nat → List CChar
  | 0 => encoded
  | n + 1 => padder_true V (encoded ++ [V.padding_symbol]) n

/-- The struct `padder<CodecVariant::generates_padding()>`: nothing for `false`, the loop
for `true`. -/
def padder (V : CodecVariant) (encoded : List CChar) (num_padding_characters : Nat) :
    List CChar :=
  if V.generates_padding then padder_true V encoded num_padding_characters else encoded

/-! ## stream_codec.hpp: encode -/

/-- The `for (; src <= src_end; src += binary_block_size())` loop of `stream_codec::encode`
together with its guard `src_size >= binary_block_size()`: while at least one binary block
remains, encode it and advance. Returns the sink and the remaining input. The first
argument bounds the number of iterations; with a block size of zero the source loop never
ends, which is `no_return`. -/
def encode_blocks (C : Codec) : Nat → List CChar → List Byte →
    Except Failure (List CChar × List Byte)
  | 0, encoded, src =>
      if C.binary_block_size ≤ src.length then .error .no_return else .ok (encoded, src)
  | fuel + 1, encoded, src =>
      if C.binary_block_size ≤ src.length then
        match C.encode_block encoded src with
        | .error f => .error f
        | .ok encoded => encode_blocks C fuel encoded (src.drop C.binary_block_size)
      else .ok (encoded, src)

/-- The function `stream_codec::encode`: full blocks, then one tail when
`src_end > src`. -/
def stream_codec.encode (C : Codec) (encoded_result : List CChar) (src : List Byte) :
    Except Failure (List CChar) :=
  match encode_blocks C src.length encoded_result src with
  | .error f => .error f
  | .ok (encoded, src) =>
      if 0 < src.length then
        let remaining_src_len := src.length
        if remaining_src_len = 0 ∨ C.binary_block_size ≤ remaining_src_len then
          .error .aborted
        else
          match C.num_encoded_tail_symbols (remaining_src_len % 256) with
          | .error f => .error f
          | .ok num_symbols => C.encode_tail encoded src num_symbols
      else .ok encoded

/-! ## stream_codec.hpp: lookup table -/

/-- The constant `alphabet_index_info::padding_idx`. -/
def padding_idx : Nat := 1 <<< 8

/-- The constant `alphabet_index_info::invalid_idx`. -/
def invalid_idx : Nat := 1 <<< 9

/-- The constant `alphabet_index_info::eof_idx`. -/
def eof_idx : Nat := 1 <<< 10

/-- The recursion `index_if_in_alphabet<CodecVariant, InvalidIdx, I>::for_symbol`. -/
def index_if_in_alphabet (V : CodecVariant) (InvalidIdx : Nat) : Nat → CChar → Nat
  | 0, _ => InvalidIdx
  | I + 1, symbol =>
      if V.symbol (V.alphabet_size - (I + 1)) = .ok symbol then V.alphabet_size - (I + 1)
      else index_if_in_alphabet V InvalidIdx I symbol

/-- The recursion `padding_searcher<CodecVariant, I>::exists_padding_symbol`. -/
def exists_padding_symbol (V : CodecVariant) : Nat → Bool
  | 0 => false
  | I + 1 =>
      V.is_padding_symbol (V.normalized_symbol (Fin.ofNat (256 - (I + 1))))
        || exists_padding_symbol V I

/-- The constant `alphabet_index_info::padding_allowed`. -/
def padding_allowed (V : CodecVariant) : Bool := exists_padding_symbol V (256 - 1)

/-- The predicate `alphabet_index_info::is_padding`. -/
def is_padding (V : CodecVariant) (idx : Nat) : Bool :=
  if padding_allowed V then idx == padding_idx else false

/-- The predicate `alphabet_index_info::is_invalid`. -/
def is_invalid (idx : Nat) : Bool := idx == invalid_idx

/-- The predicate `alphabet_index_info::is_eof`. -/
def is_eof (idx : Nat) : Bool := idx == eof_idx

/-- The predicate `alphabet_index_info::is_stop_character`: `idx & ~0xFF` is nonzero.
Clearing the low eight bits of `idx` is `idx - idx % 256`. -/
def is_stop_character (idx : Nat) : Bool := idx - idx % 256 != 0

/-- The function `alphabet_index_info::valid_index_or`. -/
def valid_index_or (a b : Nat) : Nat := if a = invalid_idx then b else a

/-- The function `alphabet_index_info::index_of`. -/
def index_of (V : CodecVariant) (symbol : CChar) : Nat :=
  valid_index_or (index_if_in_alphabet V invalid_idx V.alphabet_size symbol)
    (if V.is_eof_symbol symbol then eof_idx
     else if V.is_padding_symbol symbol then padding_idx
     else invalid_idx)

/-- The table `lookup_table_generator<CodecVariant>::make()`: entry `Sym` is
`index_of(normalized_symbol(static_cast<char>(Sym)))`, for `Sym` from 0 to 255. -/
def make_lookup_table (V : CodecVariant) : List Nat :=
  List.ofFn (fun Sym : Fin 256 => index_of V (V.normalized_symbol Sym))

/-- The entry of a 256-entry table for the character with byte value `c`. The read
`alphabet_index_for_symbol[*src]` yields it when the subscript `*src` is in bounds, which
it is where `char` is unsigned or `c` is below `0x80`; `table_read` is the read for
either signedness of `char`. -/
def table_at (table : List Nat) (c : CChar) : Nat := table.getD c.val invalid_idx

/-! ## stream_codec.hpp: decode -/

/-- The local variables of `stream_codec::decode` when the first `while` loop is left:
`src` (as the rest of the input), `alphabet_indexes`, `current_alphabet_index`,
`current_block_index`, the sink, and the exception thrown inside the loop, if any. -/
structure ScanState where
  src : List CChar
  alphabet_indexes : List Nat
  current_alphabet_index : Nat
  current_block_index : Nat
  binary_result : List Byte
  thrown : Option Failure
  deriving DecidableEq, Repr

/-- The first `while (src < src_end)` loop of `stream_codec::decode`, with every table read
in bounds (`table_at`); `decode_scan_plain` has the subscript of the source. -/
def decode_scan (V : CodecVariant) (C : Codec) (table : List Nat) :
    List CChar → List Nat → Nat → Nat → List Byte → ScanState
  | [], alphabet_indexes, current_alphabet_index, current_block_index, binary_result =>
      ⟨[], alphabet_indexes, current_alphabet_index, current_block_index, binary_result, none⟩
  | c :: rest, alphabet_indexes, current_alphabet_index, current_block_index,
      binary_result =>
      if V.should_ignore c then
        decode_scan V C table rest alphabet_indexes current_alphabet_index
          current_block_index binary_result
      else
        let current_alphabet_index := table_at table c
        if is_stop_character current_alphabet_index then
          ⟨c :: rest, alphabet_indexes, current_alphabet_index, current_block_index,
            binary_result, none⟩
        else if alphabet_indexes.length ≤ current_block_index then
          ⟨rest, alphabet_indexes, current_alphabet_index, current_block_index,
            binary_result, some .out_of_bounds⟩
        else
          let alphabet_indexes := alphabet_indexes.set current_block_index
            current_alphabet_index
          let current_block_index := current_block_index + 1
          if current_block_index = C.encoded_block_size then
            match C.decode_block binary_result alphabet_indexes with
            | (binary_result, some f) =>
                ⟨rest, alphabet_indexes, current_alphabet_index, current_block_index,
                  binary_result, some f⟩
            | (binary_result, none) =>
                decode_scan V C table rest alphabet_indexes current_alphabet_index 0
                  binary_result
          else
            decode_scan V C table rest alphabet_indexes current_alphabet_index
              current_block_index binary_result

/-- The second `while (src < src_end)` loop of `stream_codec::decode`, which reads the
padding characters after the first one, with every table read in bounds (`table_at`).
Returns `last_block_index`. -/
def decode_padding (V : CodecVariant) (C : Codec) (table : List Nat) :
    List CChar → Nat → Except Failure Nat
  | [], last_block_index => .ok last_block_index
  | c :: rest, last_block_index =>
      let last_alphabet_index := table_at table c
      if is_eof last_alphabet_index then .ok last_block_index
      else if !is_padding V last_alphabet_index then .error .padding_error
      else
        let last_block_index := last_block_index + 1
        if last_block_index > C.encoded_block_size then .error .padding_error
        else decode_padding V C table rest last_block_index

/-- What a `decode` call leaves behind: the sink, and the exception it ended with, if
any. -/
structure DecodeResult where
  binary_result : List Byte
  failure : Option Failure
  deriving DecidableEq, Repr

/-- The last statement of `stream_codec::decode`, `if (last_block_index) { ... }`. -/
def decode_finish (V : CodecVariant) (C : Codec) (st : ScanState)
    (last_block_index : Nat) : DecodeResult :=
  if last_block_index ≠ 0 then
    if (V.requires_padding || is_padding V st.current_alphabet_index)
        && last_block_index != C.encoded_block_size then
      ⟨st.binary_result, some .padding_error⟩
    else if C.encoded_block_size ≤ st.current_block_index then
      ⟨st.binary_result, some .aborted⟩
    else
      match C.decode_tail st.binary_result st.alphabet_indexes st.current_block_index with
      | (binary_result, failure) => ⟨binary_result, failure⟩
  else ⟨st.binary_result, none⟩

/-- The function `stream_codec::decode`, into an empty sink, with every table read in
bounds (`table_at`): the function where `char` is unsigned, and on input bytes below
`0x80` in any case. `stream_codec.decode_plain` has the subscript of the source. -/
def stream_codec.decode (V : CodecVariant) (C : Codec) (src_encoded : List CChar) :
    DecodeResult :=
  let alphabet_index_for_symbol := make_lookup_table V
  let st := decode_scan V C alphabet_index_for_symbol src_encoded
    (List.replicate C.encoded_block_size 0) eof_idx 0 []
  match st.thrown with
  | some f => ⟨st.binary_result, some f⟩
  | none =>
      if is_invalid st.current_alphabet_index then
        match st.src with
        | c :: _ => ⟨st.binary_result, some (.symbol_error c)⟩
        | [] => ⟨st.binary_result, some .out_of_bounds⟩
      else
        let src := st.src.tail
        if is_padding V st.current_alphabet_index then
          if st.current_block_index = 0 then ⟨st.binary_result, some .padding_error⟩
          else
            match decode_padding V C alphabet_index_for_symbol src
                (st.current_block_index + 1) with
            | .error f => ⟨st.binary_result, some f⟩
            | .ok last_block_index => decode_finish V C st last_block_index
        else decode_finish V C st st.current_block_index

/-! ## stream_codec.hpp: decode, the table subscripted by a plain `char` -/

/-- The value of the plain `char` `*src` as it is used for a subscript: the byte value
where `char` is unsigned, and the byte value minus 256 for a byte from `0x80` on where
`char` is signed. -/
def char_subscript (char_signed : Bool) (c : CChar) : Int :=
  if char_signed && decide (128 ≤ c.val) then (c.val : Int) - 256 else (c.val : Int)

/-- The read `alphabet_index_for_symbol[*src]` of the source, the table being a
`std::array` of `table.length` entries. A negative `char` is no subscript of the array
(converted to `size_t` it is beyond every entry): the read is outside the array. -/
def table_read (char_signed : Bool) (table : List Nat) (c : CChar) : Except Failure Nat :=
  if 0 ≤ char_subscript char_signed c ∧ char_subscript char_signed c < table.length then
    .ok (table.getD (char_subscript char_signed c).toNat invalid_idx)
  else .error .out_of_bounds

/-- The first `while (src < src_end)` loop of `stream_codec::decode`, the table subscripted
by the plain `char` `*src`. -/
def decode_scan_plain (char_signed : Bool) (V : CodecVariant) (C : Codec)
    (table : List Nat) : List CChar → List Nat → Nat → Nat → List Byte → ScanState
  | [], alphabet_indexes, current_alphabet_index, current_block_index, binary_result =>
      ⟨[], alphabet_indexes, current_alphabet_index, current_block_index, binary_result, none⟩
  | c :: rest, alphabet_indexes, current_alphabet_index, current_block_index,
      binary_result =>
      if V.should_ignore c then
        decode_scan_plain char_signed V C table rest alphabet_indexes current_alphabet_index
          current_block_index binary_result
      else
        match table_read char_signed table c with
        | .error f =>
            ⟨c :: rest, alphabet_indexes, current_alphabet_index, current_block_index,
              binary_result, some f⟩
        | .ok current_alphabet_index =>
            if is_stop_character current_alphabet_index then
              ⟨c :: rest, alphabet_indexes, current_alphabet_index, current_block_index,
                binary_result, none⟩
            else if alphabet_indexes.length ≤ current_block_index then
              ⟨rest, alphabet_indexes, current_alphabet_index, current_block_index,
                binary_result, some .out_of_bounds⟩
            else
              let alphabet_indexes := alphabet_indexes.set current_block_index
                current_alphabet_index
              let current_block_index := current_block_index + 1
              if current_block_index = C.encoded_block_size then
                match C.decode_block binary_result alphabet_indexes with
                | (binary_result, some f) =>
                    ⟨rest, alphabet_indexes, current_alphabet_index, current_block_index,
                      binary_result, some f⟩
                | (binary_result, none) =>
                    decode_scan_plain char_signed V C table rest alphabet_indexes
                      current_alphabet_index 0 binary_result
              else
                decode_scan_plain char_signed V C table rest alphabet_indexes
                  current_alphabet_index current_block_index binary_result

/-- The second `while (src < src_end)` loop of `stream_codec::decode`, the table
subscripted by the plain `char` `*(src++)`. Returns `last_block_index`. -/
def decode_padding_plain (char_signed : Bool) (V : CodecVariant) (C : Codec)
    (table : List Nat) : List CChar → Nat → Except Failure Nat
  | [], last_block_index => .ok last_block_index
  | c :: rest, last_block_index =>
      match table_read char_signed table c with
      | .error f => .error f
      | .ok last_alphabet_index =>
          if is_eof last_alphabet_index then .ok last_block_index
          else if !is_padding V last_alphabet_index then .error .padding_error
          else
            let last_block_index := last_block_index + 1
            if last_block_index > C.encoded_block_size then .error .padding_error
            else decode_padding_plain char_signed V C table rest last_block_index

/-- The function `stream_codec::decode`, into an empty sink, the table subscripted by the
plain `char` as in the source: `char_signed` says whether `char` is a signed type. A read
outside the table ends the call with `out_of_bounds`. -/
def stream_codec.decode_plain (char_signed : Bool) (V : CodecVariant) (C : Codec)
    (src_encoded : List CChar) : DecodeResult :=
  let alphabet_index_for_symbol := make_lookup_table V
  let st := decode_scan_plain char_signed V C alphabet_index_for_symbol src_encoded
    (List.replicate C.encoded_block_size 0) eof_idx 0 []
  match st.thrown with
  | some f => ⟨st.binary_result, some f⟩
  | none =>
      if is_invalid st.current_alphabet_index then
        match st.src with
        | c :: _ => ⟨st.binary_result, some (.symbol_error c)⟩
        | [] => ⟨st.binary_result, some .out_of_bounds⟩
      else
        let src := st.src.tail
        if is_padding V st.current_alphabet_index then
          if st.current_block_index = 0 then ⟨st.binary_result, some .padding_error⟩
          else
            match decode_padding_plain char_signed V C alphabet_index_for_symbol src
                (st.current_block_index + 1) with
            | .error f => ⟨st.binary_result, some f⟩
            | .ok last_block_index => decode_finish V C st last_block_index
        else decode_finish V C st st.current_block_index

/-! ## stream_codec.hpp: encoded_size, decoded_max_size -/

/-- The function `stream_codec::encoded_size`, on a `size_t` of `sz` bits: every sum and
product is reduced modulo `2 ^ sz`. The block sizes are at least 1 (the source divides by
`binary_block_size()`). -/
def stream_codec.encoded_size (sz : Nat) (V : CodecVariant) (C : Codec) (binary_size : Nat) :
    Nat :=
  if V.generates_padding then
    (((binary_size + (C.binary_block_size - 1)) % 2 ^ sz
        - ((binary_size + (C.binary_block_size - 1)) % 2 ^ sz) % C.binary_block_size)
      * C.encoded_block_size) % 2 ^ sz / C.binary_block_size
  else
    ((binary_size * C.encoded_block_size) % 2 ^ sz / C.binary_block_size
      + (if ((binary_size * C.encoded_block_size) % 2 ^ sz) % C.binary_block_size ≠ 0
          then 1 else 0)) % 2 ^ sz

/-- The function `stream_codec::decoded_max_size`, on a `size_t` of `sz` bits. -/
def stream_codec.decoded_max_size (sz : Nat) (V : CodecVariant) (C : Codec)
    (encoded_size : Nat) : Nat :=
  if V.requires_padding then
    (encoded_size / C.encoded_block_size * C.binary_block_size) % 2 ^ sz
  else
    ((encoded_size / C.encoded_block_size * C.binary_block_size) % 2 ^ sz
      + ((encoded_size % C.encoded_block_size) * C.binary_block_size) % 2 ^ sz
          / C.encoded_block_size) % 2 ^ sz

/-! ## base85.hpp -/

/-- The read `src[i]` of a byte buffer. -/
def byte_at (src : List Byte) (i : Nat) : Except Failure Nat :=
  match src.get? i with
  | some b => .ok b.val
  | none => .error .out_of_bounds

/-- The read `idx[i]` through a `const uint8_t*`: the entry as a `uint8_t`. The engine
keeps `encoded_block_size()` entries in the array, so reads below that are in bounds. -/
def idx_at (idx : List Nat) (i : Nat) : Nat := idx.getD i 0 % 256

/-- The cast `(uint8_t)(x)`. -/
def to_uint8 (x : Nat) : Byte := Fin.ofNat x

/-- The function `base85_block_encoder<CodecVariant>::block`. The packed value is below
`2 ^ 32`, so it is the same in `uint32_t` and in `uint_fast32_t`. -/
def base85_block_encoder.block (V : CodecVariant) (encoded : List CChar) (src : List Byte) :
    Except Failure (List CChar) := do
  let value := (← byte_at src 0) <<< 24 ||| (← byte_at src 1) <<< 16
    ||| (← byte_at src 2) <<< 8 ||| (← byte_at src 3)
  let encoded := encoded ++ [← V.symbol ((value / (85*85*85*85)) % 85)]
  let encoded := encoded ++ [← V.symbol ((value / (85*85*85)) % 85)]
  let encoded := encoded ++ [← V.symbol ((value / (85*85)) % 85)]
  let encoded := encoded ++ [← V.symbol ((value / 85) % 85)]
  let encoded := encoded ++ [← V.symbol (value % 85)]
  return encoded

/-- The function `base85_block_encoder<CodecVariant>::tail`. -/
def base85_block_encoder.tail (V : CodecVariant) (encoded : List CChar) (src : List Byte)
    (num_symbols : Nat) : Except Failure (List CChar) := do
  let value := (← byte_at src 0) <<< 24
  let encoded := encoded ++ [← V.symbol ((value / (85*85*85*85)) % 85)]
  let encoded := encoded ++ [← V.symbol ((value / (85*85*85)) % 85)]
  if num_symbols = 2 then return padder V encoded 3
  let value := value ||| (← byte_at src 1) <<< 16
  let encoded := encoded ++ [← V.symbol ((value / (85*85)) % 85)]
  if num_symbols = 3 then return padder V encoded 2
  let value := value ||| (← byte_at src 2) <<< 8
  let encoded := encoded ++ [← V.symbol ((value / 85) % 85)]
  if num_symbols = 4 then return padder V encoded 1
  throw .aborted

/-- The function `base85_block_decoder::block`, in `uint32_t` arithmetic; the bytes are
those of the portable branch, `(value >> 24) & 0xFF` and so on, which the two
`reinterpret_cast` branches read from memory in the same order. -/
def base85_block_decoder.block (decoded : List Byte) (idx : List Nat) :
    List Byte × Option Failure :=
  let value := ((((((idx_at idx 0 * (85*85*85*85)) % 2 ^ 32
      + (idx_at idx 1 * (85*85*85)) % 2 ^ 32) % 2 ^ 32
      + (idx_at idx 2 * (85*85)) % 2 ^ 32) % 2 ^ 32
      + (idx_at idx 3 * 85) % 2 ^ 32) % 2 ^ 32
      + idx_at idx 4) % 2 ^ 32)
  let decoded := decoded ++ [to_uint8 ((value >>> 24) &&& 0xFF)]
  let decoded := decoded ++ [to_uint8 ((value >>> 16) &&& 0xFF)]
  let decoded := decoded ++ [to_uint8 ((value >>> 8) &&& 0xFF)]
  let decoded := decoded ++ [to_uint8 (value &&& 0xFF)]
  (decoded, none)

/-- The function `base85_block_decoder::tail`, with a `uint_fast32_t` of `w` bits. -/
def base85_block_decoder.tail (w : Nat) (decoded : List Byte) (idx : List Nat)
    (idx_len : Nat) : List Byte × Option Failure :=
  if idx_len = 1 then (decoded, some .invalid_input_length)
  else
    let value := ((idx_at idx 0 * (85*85*85*85)) % 2 ^ w
      + (idx_at idx 1 * (85*85*85)) % 2 ^ w) % 2 ^ w
    let decoded := decoded ++ [to_uint8 ((value >>> 24) &&& 0xFF)]
    if idx_len = 2 then (decoded, none)
    else
      let value := (value + (idx_at idx 2 * (85*85)) % 2 ^ w) % 2 ^ w
      let decoded := decoded ++ [to_uint8 ((value >>> 16) &&& 0xFF)]
      if idx_len = 3 then (decoded, none)
      else
        let value := (value + (idx_at idx 3 * 85) % 2 ^ w) % 2 ^ w
        let decoded := decoded ++ [to_uint8 ((value >>> 8) &&& 0xFF)]
        if idx_len = 4 then (decoded, none)
        else (decoded, some .invalid_input_length)

/-- The function `base85::num_encoded_tail_symbols`. -/
def base85.num_encoded_tail_symbols (num_bytes : Nat) : Except Failure Nat :=
  if num_bytes = 1 then .ok 2
  else if num_bytes = 2 then .ok 3
  else if num_bytes = 3 then .ok 4
  else .error .domain_error

/-- Modelled from the spec: the call from `stream_codec::encode` to the block encoder of
the radix-85 codec, which is not in the source (there `encode` calls `enc<N>::block`, which
needs a `Codec::index` that `base85` does not have). Following "for each full chunk call
the block encoder", it is `base85::block_encoder::block`. -/
def base85.encode_block (V : CodecVariant) (encoded : List CChar) (src : List Byte) :
    Except Failure (List CChar) :=
  base85_block_encoder.block V encoded src

/-- Modelled from the spec: the call from `stream_codec::encode` to the tail encoder of the
radix-85 codec, which is not in the source. Following "call the tail encoder once", it is
`base85::block_encoder::tail`. -/
def base85.encode_tail (V : CodecVariant) (encoded : List CChar) (src : List Byte)
    (num_symbols : Nat) : Except Failure (List CChar) :=
  base85_block_encoder.tail V encoded src num_symbols

/-- Modelled from the spec: the body of `base85::decode_block`, which the source declares
and does not define. Following "decode that full block immediately via the Block
Transcoder", it is `base85::block_decoder::block` on the index array. -/
def base85.decode_block (decoded : List Byte) (idx : List Nat) : List Byte × Option Failure :=
  base85_block_decoder.block decoded idx

/-- Modelled from the spec: the body of `base85::decode_tail`, which the source declares
and does not define. Following "call the tail decoder with whatever count of indices is
pending", it is `base85::block_decoder::tail` on the index array and the count. -/
def base85.decode_tail (w : Nat) (decoded : List Byte) (idx : List Nat) (idx_len : Nat) :
    List Byte × Option Failure :=
  base85_block_decoder.tail w decoded idx idx_len

/-- The codec `base85<CodecVariant>`, with a `uint_fast32_t` of `w` bits: block sizes 4
and 5, `num_encoded_tail_symbols`, and the block encoder and decoder. -/
def base85 (w : Nat) (V : CodecVariant) : Codec where
  binary_block_size := 4
  encoded_block_size := 5
  num_encoded_tail_symbols := base85.num_encoded_tail_symbols
  encode_block := base85.encode_block V
  encode_tail := base85.encode_tail V
  decode_block := base85.decode_block
  decode_tail := base85.decode_tail w

/-! ## base85_z85.hpp -/

/-- The array `base85_z85_alphabet`, one string per line of the initializer. -/
def base85_z85_alphabet : List Char :=
  ("0123456789"
    ++ "abcdefghijklm"
    ++ "nopqrstuvwxyz"
    ++ "ABCDEFGHIJKLM"
    ++ "NOPQRSTUVWXYZ"
    ++ ".-:+=^!/*?&<>"
    ++ "()[]\x7b\x7d@%$#").toList

/-- The byte value of a character literal. -/
def char_code (c : Char) : CChar := Fin.ofNat c.toNat

/-- The function `base85_z85::symbol`: `base85_z85_alphabet[index]` for a `uint8_t`
index. -/
def base85_z85.symbol (index : Nat) : Except Failure CChar :=
  match base85_z85_alphabet.get? (index % 256) with
  | some c => .ok (char_code c)
  | none => .error .out_of_bounds

/-- The function `base85_z85::index_of`, with its `throw symbol_error(c)`. -/
def base85_z85.index_of (c : CChar) : Except Failure Nat :=
  if char_code '0' ≤ c ∧ c ≤ char_code '9' then .ok (c.val - ('0').toNat)
  else if char_code 'a' ≤ c ∧ c ≤ char_code 'z' then .ok (c.val - ('a').toNat + 10)
  else if char_code 'A' ≤ c ∧ c ≤ char_code 'Z' then .ok (c.val - ('A').toNat + 36)
  else if c = char_code '.' then .ok 62
  else if c = char_code '-' then .ok 63
  else if c = char_code ':' then .ok 64
  else if c = char_code '+' then .ok 65
  else if c = char_code '=' then .ok 66
  else if c = char_code '^' then .ok 67
  else if c = char_code '!' then .ok 68
  else if c = char_code '/' then .ok 69
  else if c = char_code '*' then .ok 70
  else if c = char_code '?' then .ok 71
  else if c = char_code '&' then .ok 72
  else if c = char_code '<' then .ok 73
  else if c = char_code '>' then .ok 74
  else if c = char_code '(' then .ok 75
  else if c = char_code ')' then .ok 76
  else if c = char_code '[' then .ok 77
  else if c = char_code ']' then .ok 78
  else if c = char_code '\x7b' then .ok 79
  else if c = char_code '\x7d' then .ok 80
  else if c = char_code '@' then .ok 81
  else if c = char_code '%' then .ok 82
  else if c = char_code '$' then .ok 83
  else if c = char_code '#' then .ok 84
  else if c = char_code '\x00' then .ok 255
  else .error (.symbol_error c)

/-- Modelled from the spec: the member `alphabet_size()` of the Z85 variant, which the
engine calls and the source does not define: "alphabet_size matches the literal alphabet
length exactly", which the source asserts to be 85. -/
def base85_z85.alphabet_size : Nat := 85

/-- Modelled from the spec: the member `is_eof_symbol` of the Z85 variant, which the
engine calls and the source does not define: the "explicit stream terminator", which for
Z85 is the end-of-string character that `index_of` maps to the index 255 of `is_eof`. -/
def base85_z85.is_eof_symbol (c : CChar) : Bool := c == char_code '\x00'

/-- Modelled from the spec: the member `normalized_symbol` of the Z85 variant, which the
engine calls and the source does not define: "identity unless case-insensitive". -/
def base85_z85.normalized_symbol (c : CChar) : CChar := c

/-- The function `base85_z85::should_ignore`: it takes a `uint8_t` and compares it with
253; the engine passes it the character. -/
def base85_z85.should_ignore (index : CChar) : Bool := index.val == 253

/-- The variant `detail::base85_z85`. `padding_symbol` is never called for a variant that
generates no padding. -/
def base85_z85 : CodecVariant where
  alphabet_size := base85_z85.alphabet_size
  symbol := base85_z85.symbol
  generates_padding := false
  requires_padding := false
  padding_symbol := 0
  is_padding_symbol := fun _ => false
  is_eof_symbol := base85_z85.is_eof_symbol
  should_ignore := base85_z85.should_ignore
  normalized_symbol := base85_z85.normalized_symbol

/-- The codec `cppcodec::base85_z85`, with a `uint_fast32_t` of `w` bits. -/
def z85 (w : Nat) : Codec := base85 w base85_z85

/-- Not in the source, which has no radix-85 variant with padding: the Z85 variant with
`generates_padding()` true and `~` as `padding_symbol()`, used as an instance of "a
radix-85 variant with `generates_padding()` true". -/
def base85_z85_padded : CodecVariant where
  alphabet_size := base85_z85.alphabet_size
  symbol := base85_z85.symbol
  generates_padding := true
  requires_padding := false
  padding_symbol := char_code '~'
  is_padding_symbol := fun c => c == char_code '~'
  is_eof_symbol := base85_z85.is_eof_symbol
  should_ignore := base85_z85.should_ignore
  normalized_symbol := base85_z85.normalized_symbol

/-- The bytes obtained by block-decoding, one after the other, the complete five-index
blocks of a list of indexes; fewer than five indexes at the end are not decoded. This is
the "blocks decoded before the error" of the spec, stated with
`base85_block_decoder::block`. -/
def decode_complete_blocks : List Nat → List Byte
  | i0 :: i1 :: i2 :: i3 :: i4 :: rest =>
      (base85_block_decoder.block [] [i0, i1, i2, i3, i4]).1 ++ decode_complete_blocks rest
  | _ => []

/-- The characters of a string literal, as `char` values. -/
def c_str (s : String) : List CChar := s.toList.map char_code

/-! ## Arithmetic of the packed value -/

/-- The shift-and-or packing of four bytes is their big-endian value. -/
theorem pack_eq (a b c d : Nat) (hb : b < 256) (hc : c < 256) (hd : d < 256) :
    a <<< 24 ||| b <<< 16 ||| c <<< 8 ||| d = a * 2 ^ 24 + b * 2 ^ 16 + c * 2 ^ 8 + d := by
  have h1 : 2 ^ 8 * c ||| d = 2 ^ 8 * c + d := (Nat.mul_add_lt_is_or (i := 8) hd c).symm
  have h2 : 2 ^ 16 * b ||| (2 ^ 8 * c + d) = 2 ^ 16 * b + (2 ^ 8 * c + d) :=
    (Nat.mul_add_lt_is_or (i := 16) (by omega) b).symm
  have h3 : 2 ^ 24 * a ||| (2 ^ 16 * b + (2 ^ 8 * c + d))
      = 2 ^ 24 * a + (2 ^ 16 * b + (2 ^ 8 * c + d)) :=
    (Nat.mul_add_lt_is_or (i := 24) (by omega) a).symm
  rw [Nat.or_assoc, Nat.or_assoc, Nat.shiftLeft_eq, Nat.shiftLeft_eq, Nat.shiftLeft_eq,
    Nat.mul_comm c, Nat.mul_comm b, Nat.mul_comm a, h1, h2, h3]
  omega

/-- Masking with `0xFF` keeps the low byte. -/
theorem and_0xFF (x : Nat) : x &&& 0xFF = x % 256 := Nat.and_pow_two_sub_one_eq_mod x 8

/-- The cast to `uint8_t` of a byte value is that byte. -/
theorem to_uint8_val (b : Byte) : to_uint8 b.val = b := by
  apply Fin.ext
  simp [to_uint8, Fin.ofNat, Nat.mod_eq_of_lt b.isLt]

/-- Reading the first four bytes of a buffer. -/
theorem byte_at_cons4 (b0 b1 b2 b3 : Byte) (rest : List Byte) :
    byte_at (b0 :: b1 :: b2 :: b3 :: rest) 0 = .ok b0.val
    ∧ byte_at (b0 :: b1 :: b2 :: b3 :: rest) 1 = .ok b1.val
    ∧ byte_at (b0 :: b1 :: b2 :: b3 :: rest) 2 = .ok b2.val
    ∧ byte_at (b0 :: b1 :: b2 :: b3 :: rest) 3 = .ok b3.val := by
  simp [byte_at]

/-! ## The radix-85 block encoder -/

/-- The block encoder puts the symbols of the five radix-85 digits of the packed value,
most significant first, and fails where `symbol` fails. -/
theorem block_spec (V : CodecVariant) (encoded : List CChar)
    (b0 b1 b2 b3 : Byte) (rest : List Byte) :
    base85_block_encoder.block V encoded (b0 :: b1 :: b2 :: b3 :: rest)
      = (fun s => encoded ++ s) <$> List.mapM V.symbol
          [(b0.val * 2 ^ 24 + b1.val * 2 ^ 16 + b2.val * 2 ^ 8 + b3.val) / 85 ^ 4 % 85,
           (b0.val * 2 ^ 24 + b1.val * 2 ^ 16 + b2.val * 2 ^ 8 + b3.val) / 85 ^ 3 % 85,
           (b0.val * 2 ^ 24 + b1.val * 2 ^ 16 + b2.val * 2 ^ 8 + b3.val) / 85 ^ 2 % 85,
           (b0.val * 2 ^ 24 + b1.val * 2 ^ 16 + b2.val * 2 ^ 8 + b3.val) / 85 ^ 1 % 85,
           (b0.val * 2 ^ 24 + b1.val * 2 ^ 16 + b2.val * 2 ^ 8 + b3.val) / 85 ^ 0 % 85] := by
  obtain ⟨h0, h1, h2, h3⟩ := byte_at_cons4 b0 b1 b2 b3 rest
  simp only [base85_block_encoder.block, h0, h1, h2, h3, bind, Except.bind, pure, Except.pure,
    pack_eq b0.val b1.val b2.val b3.val b1.isLt b2.isLt b3.isLt]
  generalize (b0.val * 2 ^ 24 + b1.val * 2 ^ 16 + b2.val * 2 ^ 8 + b3.val) = v
  have e4 : (85*85*85*85 : Nat) = 85 ^ 4 := by norm_num
  have e3 : (85*85*85 : Nat) = 85 ^ 3 := by norm_num
  have e2 : (85*85 : Nat) = 85 ^ 2 := by norm_num
  simp only [e4, e3, e2, pow_one, pow_zero, Nat.div_one, List.mapM_cons, List.mapM_nil, bind,
    Except.bind, pure, Except.pure, Functor.map, Except.map]
  cases V.symbol (v / 85 ^ 4 % 85) <;> simp
  cases V.symbol (v / 85 ^ 3 % 85) <;> simp
  cases V.symbol (v / 85 ^ 2 % 85) <;> simp
  cases V.symbol (v / 85 % 85) <;> simp
  cases V.symbol (v % 85) <;> simp

/-- The five radix-85 digits of a value below `2 ^ 32` give the value back. -/
theorem digits_sum (v : Nat) (hv : v < 2 ^ 32) :
    (v / 85 ^ 4 % 85) * 85 ^ 4 + (v / 85 ^ 3 % 85) * 85 ^ 3 + (v / 85 ^ 2 % 85) * 85 ^ 2
      + (v / 85 ^ 1 % 85) * 85 + v / 85 ^ 0 % 85 = v := by
  norm_num at hv ⊢
  omega

/-- Four bytes pack to a value below `2 ^ 32`. -/
theorem pack_lt (b0 b1 b2 b3 : Byte) :
    b0.val * 2 ^ 24 + b1.val * 2 ^ 16 + b2.val * 2 ^ 8 + b3.val < 2 ^ 32 := by
  have h0 := b0.isLt
  have h1 := b1.isLt
  have h2 := b2.isLt
  have h3 := b3.isLt
  omega

/-- Claim C3. For every four bytes `b0 .. b3`, with `v = b0*2^24 + b1*2^16 + b2*2^8 + b3`,
the block encoder puts exactly the five symbols `symbol(d0) .. symbol(d4)` with
`d_i = (v / 85^(4-i)) mod 85` (and fails exactly where `symbol` does); every `d_i` is
below 85; and `d0*85^4 + d1*85^3 + d2*85^2 + d3*85 + d4 = v`. With the Z85 alphabet the
block `86 4F D2 6F` has the digits 43, 14, 21, 21, 24 and encodes to `Hello`. -/
theorem base85_block_encode_digits (V : CodecVariant) (encoded : List CChar)
    (b0 b1 b2 b3 : Byte) (rest : List Byte) :
    let v := b0.val * 2 ^ 24 + b1.val * 2 ^ 16 + b2.val * 2 ^ 8 + b3.val
    base85_block_encoder.block V encoded (b0 :: b1 :: b2 :: b3 :: rest)
        = (fun s => encoded ++ s) <$> List.mapM V.symbol
            [v / 85 ^ 4 % 85, v / 85 ^ 3 % 85, v / 85 ^ 2 % 85, v / 85 ^ 1 % 85,
             v / 85 ^ 0 % 85]
      ∧ (∀ i, i ≤ 4 → v / 85 ^ (4 - i) % 85 < 85)
      ∧ (v / 85 ^ 4 % 85) * 85 ^ 4 + (v / 85 ^ 3 % 85) * 85 ^ 3 + (v / 85 ^ 2 % 85) * 85 ^ 2
          + (v / 85 ^ 1 % 85) * 85 + v / 85 ^ 0 % 85 = v
      ∧ base85_block_encoder.block base85_z85 [] [0x86, 0x4F, 0xD2, 0x6F]
          = .ok (c_str "Hello")
      ∧ [(0x86 * 2 ^ 24 + 0x4F * 2 ^ 16 + 0xD2 * 2 ^ 8 + 0x6F) / 85 ^ 4 % 85,
         (0x86 * 2 ^ 24 + 0x4F * 2 ^ 16 + 0xD2 * 2 ^ 8 + 0x6F) / 85 ^ 3 % 85,
         (0x86 * 2 ^ 24 + 0x4F * 2 ^ 16 + 0xD2 * 2 ^ 8 + 0x6F) / 85 ^ 2 % 85,
         (0x86 * 2 ^ 24 + 0x4F * 2 ^ 16 + 0xD2 * 2 ^ 8 + 0x6F) / 85 ^ 1 % 85,
         (0x86 * 2 ^ 24 + 0x4F * 2 ^ 16 + 0xD2 * 2 ^ 8 + 0x6F) / 85 ^ 0 % 85]
          = [43, 14, 21, 21, 24] := by
  intro v
  refine ⟨block_spec V encoded b0 b1 b2 b3 rest, ?_, digits_sum v (pack_lt b0 b1 b2 b3),
    by decide, by decide⟩
  intro i _
  exact Nat.mod_lt _ (by norm_num)

/-! ## The lookup table -/

/-- Entry `c` of the generated table is `index_of(normalized_symbol(c))`. -/
theorem table_at_make (V : CodecVariant) (c : CChar) :
    table_at (make_lookup_table V) c = index_of V (V.normalized_symbol c) := by
  unfold table_at make_lookup_table
  rw [List.getD_eq_getElem?_getD, List.getElem?_ofFn]
  simp only [List.ofFnNthVal, dif_pos c.isLt, Option.getD_some, Fin.eta]

/-- A variant whose `is_padding_symbol` is constantly false has no padding symbol. -/
theorem exists_padding_symbol_false (V : CodecVariant)
    (h : ∀ c, V.is_padding_symbol c = false) (n : Nat) : exists_padding_symbol V n = false := by
  induction n with
  | zero => rfl
  | succ n ih => simp [exists_padding_symbol, h, ih]

/-- The Z85 variant never classifies an index as padding. -/
theorem z85_is_padding (idx : Nat) : is_padding base85_z85 idx = false := by
  have h : padding_allowed base85_z85 = false :=
    exists_padding_symbol_false base85_z85 (fun _ => rfl) _
  simp [is_padding, h]

/-- The character of the Z85 alphabet at position `d`. -/
theorem z85_symbol_facts : ∀ d : Fin 85, ∃ c : CChar,
    base85_z85.symbol d.val = .ok c ∧ base85_z85.should_ignore c = false
      ∧ index_of base85_z85 c = d.val := by
  intro d
  refine ⟨char_code (base85_z85_alphabet.getD d.val '0'), ?_⟩
  revert d
  set_option maxRecDepth 100000 in decide

/-! ## The radix-85 block decoder -/

/-- The block decoder puts the four big-endian bytes of the radix-85 value of the five
indexes, reduced modulo `2 ^ 32`, and never throws. -/
theorem block_decode_spec (decoded : List Byte) (i0 i1 i2 i3 i4 : Nat) (rest : List Nat)
    (h0 : i0 < 256) (h1 : i1 < 256) (h2 : i2 < 256) (h3 : i3 < 256) (h4 : i4 < 256) :
    base85_block_decoder.block decoded (i0 :: i1 :: i2 :: i3 :: i4 :: rest)
      = (decoded ++
          [to_uint8 ((i0 * 85 ^ 4 + i1 * 85 ^ 3 + i2 * 85 ^ 2 + i3 * 85 + i4) % 2 ^ 32
              / 2 ^ 24 % 256),
           to_uint8 ((i0 * 85 ^ 4 + i1 * 85 ^ 3 + i2 * 85 ^ 2 + i3 * 85 + i4) % 2 ^ 32
              / 2 ^ 16 % 256),
           to_uint8 ((i0 * 85 ^ 4 + i1 * 85 ^ 3 + i2 * 85 ^ 2 + i3 * 85 + i4) % 2 ^ 32
              / 2 ^ 8 % 256),
           to_uint8 ((i0 * 85 ^ 4 + i1 * 85 ^ 3 + i2 * 85 ^ 2 + i3 * 85 + i4) % 2 ^ 32
              % 256)], none) := by
  have e : ((((((i0 * (85*85*85*85)) % 2 ^ 32 + (i1 * (85*85*85)) % 2 ^ 32) % 2 ^ 32
      + (i2 * (85*85)) % 2 ^ 32) % 2 ^ 32 + (i3 * 85) % 2 ^ 32) % 2 ^ 32 + i4) % 2 ^ 32)
      = (i0 * 85 ^ 4 + i1 * 85 ^ 3 + i2 * 85 ^ 2 + i3 * 85 + i4) % 2 ^ 32 := by
    norm_num
  simp only [base85_block_decoder.block, idx_at, List.getD_cons_zero, List.getD_cons_succ,
    Nat.mod_eq_of_lt h0, Nat.mod_eq_of_lt h1, Nat.mod_eq_of_lt h2, Nat.mod_eq_of_lt h3,
    Nat.mod_eq_of_lt h4, e, and_0xFF, Nat.shiftRight_eq_div_pow, List.append_assoc,
    List.singleton_append, List.cons_append, List.nil_append]

/-- The block decoder adds four bytes to the sink and does not throw, whatever the
indexes. -/
theorem block_decode_length (decoded : List Byte) (idx : List Nat) :
    (base85_block_decoder.block decoded idx).1.length = decoded.length + 4
      ∧ (base85_block_decoder.block decoded idx).2 = none := by
  simp [base85_block_decoder.block]

/-- A list of five elements. -/
theorem list_length_five {α : Type} (l : List α) (h : l.length = 5) :
    ∃ a0 a1 a2 a3 a4, l = [a0, a1, a2, a3, a4] := by
  match l, h with
  | [a0, a1, a2, a3, a4], _ => exact ⟨a0, a1, a2, a3, a4, rfl⟩

/-! ## The scan loop of the decoder -/

/-- One iteration of the scan loop on a character that is not ignored and is not a stop
character, for the radix-85 codec. -/
theorem scan_step_base85 (w : Nat) (V V2 : CodecVariant) (table : List Nat) (c : CChar)
    (rest : List CChar) (idxs : List Nat) (cur cbi : Nat) (out : List Byte)
    (hi : V.should_ignore c = false) (hs : is_stop_character (table_at table c) = false)
    (hb : cbi < idxs.length) :
    decode_scan V (base85 w V2) table (c :: rest) idxs cur cbi out
      = if cbi + 1 = 5 then
          decode_scan V (base85 w V2) table rest (idxs.set cbi (table_at table c))
            (table_at table c) 0
            (base85_block_decoder.block out (idxs.set cbi (table_at table c))).1
        else
          decode_scan V (base85 w V2) table rest (idxs.set cbi (table_at table c))
            (table_at table c) (cbi + 1) out := by
  have h2 := (block_decode_length out (idxs.set cbi (table_at table c))).2
  rw [decode_scan]
  simp only [hi, hs, Bool.false_eq_true, if_false, not_le.mpr hb]
  by_cases h5 : cbi + 1 = 5
  · simp only [base85, base85.decode_block, h5, if_true]
    generalize base85_block_decoder.block out (idxs.set cbi (table_at table c)) = r at h2 ⊢
    obtain ⟨r1, r2⟩ := r
    simp only at h2
    subst h2
    rfl
  · simp only [base85, h5, if_false]

/-- An index below 256 is not a stop character and is not invalid. -/
theorem not_stop_of_lt (i : Nat) (h : i < 256) :
    is_stop_character i = false ∧ is_invalid i = false := by
  constructor
  · simp [is_stop_character, Nat.mod_eq_of_lt h]
  · have : i ≠ invalid_idx := by
      have : invalid_idx = 512 := rfl
      omega
    simp [is_invalid, this]

/-- A stop character is at least 256; an index that is not a stop character is below. -/
theorem lt_of_not_stop (i : Nat) (h : is_stop_character i = false) : i < 256 := by
  simp [is_stop_character] at h
  omega

/-! ## Z85: full blocks -/

/-- When `symbol` succeeds on the five digits, the block encoder puts the five symbols. -/
theorem block_ok (V : CodecVariant) (encoded : List CChar) (b0 b1 b2 b3 : Byte)
    (rest : List Byte) (v : Nat)
    (hv : b0.val * 2 ^ 24 + b1.val * 2 ^ 16 + b2.val * 2 ^ 8 + b3.val = v)
    (c0 c1 c2 c3 c4 : CChar)
    (h0 : V.symbol (v / 85 ^ 4 % 85) = .ok c0) (h1 : V.symbol (v / 85 ^ 3 % 85) = .ok c1)
    (h2 : V.symbol (v / 85 ^ 2 % 85) = .ok c2) (h3 : V.symbol (v / 85 ^ 1 % 85) = .ok c3)
    (h4 : V.symbol (v / 85 ^ 0 % 85) = .ok c4) :
    base85_block_encoder.block V encoded (b0 :: b1 :: b2 :: b3 :: rest)
      = .ok (encoded ++ [c0, c1, c2, c3, c4]) := by
  rw [block_spec, hv]
  simp only [List.mapM_cons, List.mapM_nil, h0, h1, h2, h3, h4, bind, Except.bind, pure,
    Except.pure, Functor.map, Except.map]

/-- The lookup table of the Z85 variant. -/
theorem z85_table_at (c : CChar) :
    table_at (make_lookup_table base85_z85) c = index_of base85_z85 c :=
  table_at_make base85_z85 c

/-- Encoding one Z85 block gives five characters which the scan loop, starting at a block
boundary, decodes to the four bytes of the block. -/
theorem z85_block_scan (w : Nat) (b0 b1 b2 b3 : Byte) :
    ∃ c0 c1 c2 c3 c4 : CChar,
      (∀ enc rest, base85_block_encoder.block base85_z85 enc (b0 :: b1 :: b2 :: b3 :: rest)
          = .ok (enc ++ [c0, c1, c2, c3, c4]))
      ∧ ∀ (more : List CChar) (idxs : List Nat) (cur : Nat) (out : List Byte),
          idxs.length = 5 →
          ∃ idxs2 cur2, idxs2.length = 5 ∧ is_invalid cur2 = false
            ∧ decode_scan base85_z85 (z85 w) (make_lookup_table base85_z85)
                (c0 :: c1 :: c2 :: c3 :: c4 :: more) idxs cur 0 out
              = decode_scan base85_z85 (z85 w) (make_lookup_table base85_z85)
                  more idxs2 cur2 0 (out ++ [b0, b1, b2, b3]) := by
  have e0 : (b0.val * 2 ^ 24 + b1.val * 2 ^ 16 + b2.val * 2 ^ 8 + b3.val) / 2 ^ 24 % 256
      = b0.val := by
    have := b0.isLt; have := b1.isLt; have := b2.isLt; have := b3.isLt; omega
  have e1 : (b0.val * 2 ^ 24 + b1.val * 2 ^ 16 + b2.val * 2 ^ 8 + b3.val) / 2 ^ 16 % 256
      = b1.val := by
    have := b0.isLt; have := b1.isLt; have := b2.isLt; have := b3.isLt; omega
  have e2 : (b0.val * 2 ^ 24 + b1.val * 2 ^ 16 + b2.val * 2 ^ 8 + b3.val) / 2 ^ 8 % 256
      = b2.val := by
    have := b0.isLt; have := b1.isLt; have := b2.isLt; have := b3.isLt; omega
  have e3 : (b0.val * 2 ^ 24 + b1.val * 2 ^ 16 + b2.val * 2 ^ 8 + b3.val) % 256
      = b3.val := by
    have := b0.isLt; have := b1.isLt; have := b2.isLt; have := b3.isLt; omega
  have hv := pack_lt b0 b1 b2 b3
  have hsum := digits_sum _ hv
  generalize hvd : b0.val * 2 ^ 24 + b1.val * 2 ^ 16 + b2.val * 2 ^ 8 + b3.val = v
    at hv hsum e0 e1 e2 e3
  have hd : ∀ k, v / 85 ^ k % 85 < 85 := fun k => Nat.mod_lt _ (by norm_num)
  have hd0 := hd 4
  have hd1 := hd 3
  have hd2 := hd 2
  have hd3 := hd 1
  have hd4 := hd 0
  obtain ⟨c0, s0, g0, t0⟩ := z85_symbol_facts ⟨v / 85 ^ 4 % 85, hd 4⟩
  obtain ⟨c1, s1, g1, t1⟩ := z85_symbol_facts ⟨v / 85 ^ 3 % 85, hd 3⟩
  obtain ⟨c2, s2, g2, t2⟩ := z85_symbol_facts ⟨v / 85 ^ 2 % 85, hd 2⟩
  obtain ⟨c3, s3, g3, t3⟩ := z85_symbol_facts ⟨v / 85 ^ 1 % 85, hd 1⟩
  obtain ⟨c4, s4, g4, t4⟩ := z85_symbol_facts ⟨v / 85 ^ 0 % 85, hd 0⟩
  simp only at s0 s1 s2 s3 s4 t0 t1 t2 t3 t4
  refine ⟨c0, c1, c2, c3, c4, ?_, ?_⟩
  · intro enc rest
    exact block_ok base85_z85 enc b0 b1 b2 b3 rest v hvd c0 c1 c2 c3 c4 s0 s1 s2 s3 s4
  · intro more idxs cur out hlen
    obtain ⟨a0, a1, a2, a3, a4, rfl⟩ := list_length_five idxs hlen
    clear s0 s1 s2 s3 s4
    generalize v / 85 ^ 4 % 85 = d0 at hsum hd0 t0
    generalize v / 85 ^ 3 % 85 = d1 at hsum hd1 t1
    generalize v / 85 ^ 2 % 85 = d2 at hsum hd2 t2
    generalize v / 85 ^ 1 % 85 = d3 at hsum hd3 t3
    generalize v / 85 ^ 0 % 85 = d4 at hsum hd4 t4
    have n0 := not_stop_of_lt d0 (by omega)
    have n1 := not_stop_of_lt d1 (by omega)
    have n2 := not_stop_of_lt d2 (by omega)
    have n3 := not_stop_of_lt d3 (by omega)
    have n4 := not_stop_of_lt d4 (by omega)
    refine ⟨[d0, d1, d2, d3, d4], d4, rfl, n4.2, ?_⟩
    unfold z85
    rw [scan_step_base85 w _ _ _ c0 _ _ _ _ _ g0 (by rw [z85_table_at, t0]; exact n0.1)
      (by simp)]
    rw [if_neg (by omega)]
    rw [scan_step_base85 w _ _ _ c1 _ _ _ _ _ g1 (by rw [z85_table_at, t1]; exact n1.1)
      (by simp)]
    rw [if_neg (by omega)]
    rw [scan_step_base85 w _ _ _ c2 _ _ _ _ _ g2 (by rw [z85_table_at, t2]; exact n2.1)
      (by simp)]
    rw [if_neg (by omega)]
    rw [scan_step_base85 w _ _ _ c3 _ _ _ _ _ g3 (by rw [z85_table_at, t3]; exact n3.1)
      (by simp)]
    rw [if_neg (by omega)]
    rw [scan_step_base85 w _ _ _ c4 _ _ _ _ _ g4 (by rw [z85_table_at, t4]; exact n4.1)
      (by simp)]
    rw [if_pos (by omega)]
    simp only [z85_table_at, t0, t1, t2, t3, t4, List.set_cons_zero, List.set_cons_succ]
    rw [block_decode_spec out d0 d1 d2 d3 d4 [] (by omega) (by omega) (by omega) (by omega)
      (by omega)]
    rw [hsum, Nat.mod_eq_of_lt hv, e0, e1, e2, e3, to_uint8_val, to_uint8_val, to_uint8_val,
      to_uint8_val]

/-- The scan state of a Z85 `decode` call when the first loop is left. -/
theorem z85_decode_unfold (w : Nat) (s : List CChar) :
    stream_codec.decode base85_z85 (z85 w) s
      = match (decode_scan base85_z85 (z85 w) (make_lookup_table base85_z85) s
            (List.replicate 5 0) eof_idx 0 []).thrown with
        | some f => ⟨(decode_scan base85_z85 (z85 w) (make_lookup_table base85_z85) s
            (List.replicate 5 0) eof_idx 0 []).binary_result, some f⟩
        | none =>
          if is_invalid (decode_scan base85_z85 (z85 w) (make_lookup_table base85_z85) s
              (List.replicate 5 0) eof_idx 0 []).current_alphabet_index then
            match (decode_scan base85_z85 (z85 w) (make_lookup_table base85_z85) s
              (List.replicate 5 0) eof_idx 0 []).src with
            | c :: _ => ⟨(decode_scan base85_z85 (z85 w) (make_lookup_table base85_z85) s
                (List.replicate 5 0) eof_idx 0 []).binary_result, some (.symbol_error c)⟩
            | [] => ⟨(decode_scan base85_z85 (z85 w) (make_lookup_table base85_z85) s
                (List.replicate 5 0) eof_idx 0 []).binary_result, some .out_of_bounds⟩
          else
            decode_finish base85_z85 (z85 w)
              (decode_scan base85_z85 (z85 w) (make_lookup_table base85_z85) s
                (List.replicate 5 0) eof_idx 0 [])
              (decode_scan base85_z85 (z85 w) (make_lookup_table base85_z85) s
                (List.replicate 5 0) eof_idx 0 []).current_block_index := by
  simp only [stream_codec.decode, z85_is_padding, Bool.false_eq_true, if_false]
  rfl

/-- The last step of a Z85 `decode` call: nothing at a block boundary, the tail decoder
on one to four pending indexes. -/
theorem z85_decode_finish (w : Nat) (st : ScanState) (h : st.current_block_index < 5) :
    decode_finish base85_z85 (z85 w) st st.current_block_index
      = if st.current_block_index = 0 then ⟨st.binary_result, none⟩
        else ⟨(base85_block_decoder.tail w st.binary_result st.alphabet_indexes
                st.current_block_index).1,
              (base85_block_decoder.tail w st.binary_result st.alphabet_indexes
                st.current_block_index).2⟩ := by
  unfold decode_finish
  by_cases h0 : st.current_block_index = 0
  · simp [h0]
  · have h5 : ¬ (5 ≤ st.current_block_index) := by omega
    have hr : base85_z85.requires_padding = false := rfl
    simp [h0, z85_is_padding, z85, base85, base85.decode_tail, h5, hr]

/-- Encoding a whole number of Z85 blocks gives five characters per block, which the scan
loop decodes back, starting and ending at a block boundary. -/
theorem z85_full_blocks (w : Nat) : ∀ (n : Nat) (x : List Byte), x.length = 4 * n →
    ∃ s : List CChar, s.length = 5 * n
      ∧ (∀ fuel enc, n ≤ fuel → encode_blocks (z85 w) fuel enc x = .ok (enc ++ s, []))
      ∧ ∀ (more : List CChar) (idxs : List Nat) (cur : Nat) (out : List Byte),
          idxs.length = 5 → is_invalid cur = false →
          ∃ idxs2 cur2, idxs2.length = 5 ∧ is_invalid cur2 = false
            ∧ decode_scan base85_z85 (z85 w) (make_lookup_table base85_z85)
                (s ++ more) idxs cur 0 out
              = decode_scan base85_z85 (z85 w) (make_lookup_table base85_z85)
                  more idxs2 cur2 0 (out ++ x) := by
  intro n
  induction n with
  | zero =>
    intro x hx
    have hx0 : x = [] := List.length_eq_zero.mp (by omega)
    subst hx0
    refine ⟨[], rfl, ?_, ?_⟩
    · intro fuel enc _
      cases fuel <;> simp [encode_blocks, z85, base85]
    · intro more idxs cur out hl hc
      exact ⟨idxs, cur, hl, hc, by simp⟩
  | succ n ih =>
    intro x hx
    match x, hx with
    | b0 :: b1 :: b2 :: b3 :: rest, hx =>
      have hr : rest.length = 4 * n := by simp at hx; omega
      obtain ⟨s, hs, henc, hdec⟩ := ih rest hr
      obtain ⟨c0, c1, c2, c3, c4, hblk, hscan⟩ := z85_block_scan w b0 b1 b2 b3
      refine ⟨c0 :: c1 :: c2 :: c3 :: c4 :: s, by simp [hs]; omega, ?_, ?_⟩
      · intro fuel enc hf
        match fuel, hf with
        | fuel + 1, hf =>
          have h4 : (z85 w).binary_block_size ≤ (b0 :: b1 :: b2 :: b3 :: rest).length := by
            simp [z85, base85]
          have hb : (z85 w).encode_block enc (b0 :: b1 :: b2 :: b3 :: rest)
              = .ok (enc ++ [c0, c1, c2, c3, c4]) := hblk enc rest
          rw [encode_blocks, if_pos h4, hb]
          have hdrop : (b0 :: b1 :: b2 :: b3 :: rest).drop (z85 w).binary_block_size = rest := rfl
          simp only [hdrop]
          rw [henc fuel _ (by omega)]
          simp
      · intro more idxs cur out hl hc
        obtain ⟨i1, k1, hl1, hk1, e1⟩ := hscan (s ++ more) idxs cur out hl
        obtain ⟨i2, k2, hl2, hk2, e2⟩ := hdec more i1 k1 (out ++ [b0, b1, b2, b3]) hl1 hk1
        refine ⟨i2, k2, hl2, hk2, ?_⟩
        simp only [List.cons_append]
        rw [e1, e2]
        simp

/-! ## Claims about the round trip -/

/-- Claim C2. For every byte sequence `x` whose length is a multiple of 4, Z85 `encode(x)`
succeeds with five symbols per four-byte block and nothing else, and `decode` of those
symbols succeeds and yields exactly `x`; the empty input encodes to the empty output,
which decodes to the empty output. -/
theorem z85_full_block_round_trip (w : Nat) (x : List Byte) (h : x.length % 4 = 0) :
    (∃ s : List CChar, stream_codec.encode (z85 w) [] x = .ok s
        ∧ s.length = 5 * (x.length / 4)
        ∧ stream_codec.decode base85_z85 (z85 w) s = ⟨x, none⟩)
      ∧ stream_codec.encode (z85 w) [] [] = .ok []
      ∧ stream_codec.decode base85_z85 (z85 w) [] = ⟨[], none⟩ := by
  have main : ∀ y : List Byte, y.length % 4 = 0 →
      ∃ s : List CChar, stream_codec.encode (z85 w) [] y = .ok s
        ∧ s.length = 5 * (y.length / 4)
        ∧ stream_codec.decode base85_z85 (z85 w) s = ⟨y, none⟩ := by
    intro y hy
    obtain ⟨s, hs, henc, hdec⟩ := z85_full_blocks w (y.length / 4) y (by omega)
    refine ⟨s, ?_, hs, ?_⟩
    · unfold stream_codec.encode
      rw [henc y.length [] (by omega)]
      simp
    · obtain ⟨i2, k2, _, hk2, e⟩ := hdec [] (List.replicate 5 0) eof_idx [] (by simp)
        (by decide)
      rw [List.append_nil] at e
      rw [z85_decode_unfold, e]
      simp [decode_scan, hk2, decode_finish]
  refine ⟨main x h, ?_, ?_⟩
  · obtain ⟨s, hs, hl, _⟩ := main [] rfl
    have : s = [] := List.length_eq_zero.mp (by simpa using hl)
    rw [hs, this]
  · obtain ⟨s, _, hl, hd⟩ := main [] rfl
    have : s = [] := List.length_eq_zero.mp (by simpa using hl)
    rw [this] at hd
    exact hd

/-- The canonical Z85 test block `86 4F D2 6F` round-trips. -/
theorem z85_full_block_round_trip_witness :
    ([0x86, 0x4F, 0xD2, 0x6F] : List Byte).length % 4 = 0
      ∧ (∃ s : List CChar, stream_codec.encode (z85 32) [] [0x86, 0x4F, 0xD2, 0x6F] = .ok s
          ∧ s.length = 5 * (([0x86, 0x4F, 0xD2, 0x6F] : List Byte).length / 4)
          ∧ stream_codec.decode base85_z85 (z85 32) s = ⟨[0x86, 0x4F, 0xD2, 0x6F], none⟩) :=
  ⟨by decide, (z85_full_block_round_trip 32 [0x86, 0x4F, 0xD2, 0x6F] (by decide)).1⟩

set_option maxRecDepth 100000 in
/-- Claim C1, the code at the failing input. The five bytes `86 4F D2 6F 01` encode to
`Hello0r`, and `Hello0r` decodes, without an error, to `86 4F D2 6F 00`: the one-byte tail
`01` comes back as `00`, for a 32-bit and for a 64-bit `uint_fast32_t`. -/
theorem z85_round_trip_tail_mismatch :
    stream_codec.encode (z85 32) [] [0x86, 0x4F, 0xD2, 0x6F, 0x01] = .ok (c_str "Hello0r")
      ∧ stream_codec.decode base85_z85 (z85 32) (c_str "Hello0r")
          = ⟨[0x86, 0x4F, 0xD2, 0x6F, 0x00], none⟩
      ∧ stream_codec.encode (z85 64) [] [0x86, 0x4F, 0xD2, 0x6F, 0x01] = .ok (c_str "Hello0r")
      ∧ stream_codec.decode base85_z85 (z85 64) (c_str "Hello0r")
          = ⟨[0x86, 0x4F, 0xD2, 0x6F, 0x00], none⟩ := by
  decide

set_option maxRecDepth 100000 in
/-- Claim C8, the code on every one-byte input. For every byte `b`, Z85 `encode([b])` puts
exactly two symbols, and `decode` of them succeeds with one byte, which is `b - 1` for
`b ≥ 1` (and 0 for `b = 0`): only the byte 0 comes back unchanged. -/
theorem z85_one_byte_decodes_to_pred : ∀ b : Byte,
    (stream_codec.encode (z85 32) [] [b]).toOption.map
        (fun s => (s.length, stream_codec.decode base85_z85 (z85 32) s))
      = some (2, ⟨[to_uint8 (b.val - 1)], none⟩) := by
  decide

/-! ## Claims about single blocks and tails -/

set_option maxRecDepth 100000 in
/-- Claim C7, the code at the failing input. For the two-byte tail `00 FF` the tail encoder
puts `00i` (digits 0, 0, 18), while the block encoder puts `0ri30` (digits 0, 27, 18, 3, 0)
for `00 FF 00 00`: the second tail symbol is computed before `src[1]` is or-ed into the
value, so the tail is not a prefix of the block encoding. -/
theorem base85_tail_not_prefix_of_block :
    base85_block_encoder.tail base85_z85 [] [0x00, 0xFF] 3 = .ok (c_str "00i")
      ∧ base85_block_encoder.block base85_z85 [] [0x00, 0xFF, 0x00, 0x00]
          = .ok (c_str "0ri30")
      ∧ (c_str "0ri30").take 3 ≠ c_str "00i" := by
  decide

set_option maxRecDepth 100000 in
/-- Claim C9, counterexample. The five indexes 84, 84, 84, 84, 84 (the Z85 block `#####`)
are valid and have the radix-85 value `85^5 - 1 ≥ 2^32`, yet the block decoder does not
throw: it puts the four bytes `08 78 0E C4` of the value modulo `2^32`, and so does
`decode` on `#####`. -/
theorem base85_block_decode_out_of_range_accepted :
    (84 : Nat) < 85
      ∧ 2 ^ 32 ≤ 84 * 85 ^ 4 + 84 * 85 ^ 3 + 84 * 85 ^ 2 + 84 * 85 + 84
      ∧ base85_block_decoder.block [] [84, 84, 84, 84, 84] = ([0x08, 0x78, 0x0E, 0xC4], none)
      ∧ stream_codec.decode base85_z85 (z85 32) (c_str "#####")
          = ⟨[0x08, 0x78, 0x0E, 0xC4], none⟩ := by
  decide

/-- Claim C9, amended. For every five valid indexes (each below 85) whose radix-85 value
`v` is at least `2^32`, the block decoder does not throw: it puts the four big-endian
bytes of `v - 2^32`, the value reduced modulo `2^32`. -/
theorem base85_block_decode_wraps (decoded : List Byte) (i0 i1 i2 i3 i4 : Nat)
    (rest : List Nat) (h0 : i0 < 85) (h1 : i1 < 85) (h2 : i2 < 85) (h3 : i3 < 85)
    (h4 : i4 < 85)
    (hv : 2 ^ 32 ≤ i0 * 85 ^ 4 + i1 * 85 ^ 3 + i2 * 85 ^ 2 + i3 * 85 + i4) :
    base85_block_decoder.block decoded (i0 :: i1 :: i2 :: i3 :: i4 :: rest)
      = (decoded ++
          [to_uint8 ((i0 * 85 ^ 4 + i1 * 85 ^ 3 + i2 * 85 ^ 2 + i3 * 85 + i4 - 2 ^ 32)
              / 2 ^ 24 % 256),
           to_uint8 ((i0 * 85 ^ 4 + i1 * 85 ^ 3 + i2 * 85 ^ 2 + i3 * 85 + i4 - 2 ^ 32)
              / 2 ^ 16 % 256),
           to_uint8 ((i0 * 85 ^ 4 + i1 * 85 ^ 3 + i2 * 85 ^ 2 + i3 * 85 + i4 - 2 ^ 32)
              / 2 ^ 8 % 256),
           to_uint8 ((i0 * 85 ^ 4 + i1 * 85 ^ 3 + i2 * 85 ^ 2 + i3 * 85 + i4 - 2 ^ 32)
              % 256)], none) := by
  have e : (i0 * 85 ^ 4 + i1 * 85 ^ 3 + i2 * 85 ^ 2 + i3 * 85 + i4) % 2 ^ 32
      = i0 * 85 ^ 4 + i1 * 85 ^ 3 + i2 * 85 ^ 2 + i3 * 85 + i4 - 2 ^ 32 := by
    norm_num at hv ⊢
    omega
  rw [block_decode_spec decoded i0 i1 i2 i3 i4 rest (by omega) (by omega) (by omega)
    (by omega) (by omega), e]

/-- The block `#####` satisfies the hypotheses of the amended claim C9. -/
theorem base85_block_decode_wraps_witness :
    2 ^ 32 ≤ 84 * 85 ^ 4 + 84 * 85 ^ 3 + 84 * 85 ^ 2 + 84 * 85 + 84
      ∧ base85_block_decoder.block [] [84, 84, 84, 84, 84]
        = ([] ++
          [to_uint8 ((84 * 85 ^ 4 + 84 * 85 ^ 3 + 84 * 85 ^ 2 + 84 * 85 + 84 - 2 ^ 32)
              / 2 ^ 24 % 256),
           to_uint8 ((84 * 85 ^ 4 + 84 * 85 ^ 3 + 84 * 85 ^ 2 + 84 * 85 + 84 - 2 ^ 32)
              / 2 ^ 16 % 256),
           to_uint8 ((84 * 85 ^ 4 + 84 * 85 ^ 3 + 84 * 85 ^ 2 + 84 * 85 + 84 - 2 ^ 32)
              / 2 ^ 8 % 256),
           to_uint8 ((84 * 85 ^ 4 + 84 * 85 ^ 3 + 84 * 85 ^ 2 + 84 * 85 + 84 - 2 ^ 32)
              % 256)], none) :=
  ⟨by decide, base85_block_decode_wraps [] 84 84 84 84 84 [] (by decide) (by decide)
    (by decide) (by decide) (by decide) (by decide)⟩

/-! ## Classification of characters by the lookup table -/

/-- A symbol that matches no alphabet position gets the fallback index. -/
theorem index_if_in_alphabet_none (V : CodecVariant) (inv : Nat) (c : CChar)
    (h : ∀ i, i < V.alphabet_size → V.symbol i ≠ .ok c) :
    ∀ I, I ≤ V.alphabet_size → index_if_in_alphabet V inv I c = inv := by
  intro I
  induction I with
  | zero => intro _; rfl
  | succ I ih =>
    intro hI
    rw [index_if_in_alphabet, if_neg (h _ (by omega))]
    exact ih (by omega)

/-- A symbol that matches an alphabet position among the last `I` gets an index below
`alphabet_size`. -/
theorem index_if_in_alphabet_found (V : CodecVariant) (inv : Nat) (c : CChar) :
    ∀ I, I ≤ V.alphabet_size →
      (∃ i, V.alphabet_size - I ≤ i ∧ i < V.alphabet_size ∧ V.symbol i = .ok c) →
      index_if_in_alphabet V inv I c < V.alphabet_size := by
  intro I
  induction I with
  | zero =>
    intro _ h
    obtain ⟨i, h1, h2, _⟩ := h
    omega
  | succ I ih =>
    intro hI h
    rw [index_if_in_alphabet]
    by_cases hm : V.symbol (V.alphabet_size - (I + 1)) = .ok c
    · rw [if_pos hm]
      omega
    · rw [if_neg hm]
      apply ih (by omega)
      obtain ⟨i, h1, h2, h3⟩ := h
      refine ⟨i, ?_, h2, h3⟩
      by_contra hlt
      have : i = V.alphabet_size - (I + 1) := by omega
      rw [this] at h3
      exact hm h3

/-- A character that is in no alphabet position, is no EOF symbol and is no padding symbol
is classified invalid. -/
theorem index_of_invalid (V : CodecVariant) (c : CChar)
    (ha : ∀ i, i < V.alphabet_size → V.symbol i ≠ .ok c)
    (he : V.is_eof_symbol c = false) (hp : V.is_padding_symbol c = false) :
    index_of V c = invalid_idx := by
  simp [index_of, index_if_in_alphabet_none V invalid_idx c ha V.alphabet_size (le_refl _),
    valid_index_or, he, hp]

/-- A character of an alphabet of at most 256 symbols is classified with an index below
`alphabet_size`, which is not a stop character. -/
theorem index_of_valid (V : CodecVariant) (c : CChar) (hA : V.alphabet_size ≤ 256)
    (ha : ∃ i, i < V.alphabet_size ∧ V.symbol i = .ok c) :
    index_of V c < V.alphabet_size ∧ is_stop_character (index_of V c) = false := by
  obtain ⟨i, h1, h2⟩ := ha
  have hlt := index_if_in_alphabet_found V invalid_idx c V.alphabet_size (le_refl _)
    ⟨i, by omega, h1, h2⟩
  have hne : index_if_in_alphabet V invalid_idx V.alphabet_size c ≠ invalid_idx := by
    have : invalid_idx = 512 := rfl
    omega
  have e : index_of V c = index_if_in_alphabet V invalid_idx V.alphabet_size c := by
    simp [index_of, valid_index_or, hne]
  rw [e]
  exact ⟨hlt, (not_stop_of_lt _ (by omega)).1⟩

/-! ## The scan loop, for every variant and codec -/

/-- The scan loop passes over characters that are ignored or are not stop characters,
keeping the index array at its size and the block index inside it, as long as the block
decoder does not throw. -/
theorem scan_prefix (V : CodecVariant) (C : Codec) (table : List Nat)
    (hblk : ∀ out idx, (C.decode_block out idx).2 = none) (t : List CChar) :
    ∀ (u : List CChar),
      (∀ c ∈ u, V.should_ignore c = true ∨ is_stop_character (table_at table c) = false) →
      ∀ (idxs : List Nat) (cur cbi : Nat) (out : List Byte),
        idxs.length = C.encoded_block_size → cbi < C.encoded_block_size →
        ∃ idxs2 cur2 cbi2 out2, idxs2.length = C.encoded_block_size
          ∧ cbi2 < C.encoded_block_size
          ∧ decode_scan V C table (u ++ t) idxs cur cbi out
            = decode_scan V C table t idxs2 cur2 cbi2 out2 := by
  intro u
  induction u with
  | nil =>
    intro _ idxs cur cbi out hl hc
    exact ⟨idxs, cur, cbi, out, hl, hc, rfl⟩
  | cons c u ih =>
    intro hu idxs cur cbi out hl hc
    have hu2 : ∀ c ∈ u, V.should_ignore c = true
        ∨ is_stop_character (table_at table c) = false :=
      fun d hd => hu d (List.mem_cons_of_mem _ hd)
    rw [List.cons_append, decode_scan]
    by_cases hi : V.should_ignore c = true
    · rw [if_pos hi]
      exact ih hu2 idxs cur cbi out hl hc
    · rw [if_neg hi]
      have hs : is_stop_character (table_at table c) = false := by
        rcases hu c (List.mem_cons_self _ _) with h | h
        · exact absurd h hi
        · exact h
      simp only [hs, Bool.false_eq_true, if_false, not_le.mpr (hl ▸ hc)]
      by_cases h5 : cbi + 1 = C.encoded_block_size
      · rw [if_pos h5]
        have h2 := hblk out (idxs.set cbi (table_at table c))
        generalize C.decode_block out (idxs.set cbi (table_at table c)) = r at h2 ⊢
        obtain ⟨r1, r2⟩ := r
        simp only at h2
        subst h2
        exact ih hu2 _ _ 0 r1 (by simp [hl]) (by omega)
      · rw [if_neg h5]
        exact ih hu2 _ _ (cbi + 1) out (by simp [hl]) (by omega)

/-- With in-bounds table reads: if every character before `x` is ignorable or an alphabet
symbol, and `x` is not ignorable, not an alphabet symbol, not an EOF symbol and not a
padding symbol, then `decode` of `u ++ x :: rest` fails with `symbol_error` carrying `x`.
(For a codec with at least one symbol per block whose block decoder does not throw, and an
alphabet of at most 256 symbols.) -/
theorem symbol_error_at_first_stop_in_bounds (V : CodecVariant) (C : Codec)
    (u rest : List CChar) (x : CChar)
    (hE : 1 ≤ C.encoded_block_size)
    (hblk : ∀ out idx, (C.decode_block out idx).2 = none)
    (hA : V.alphabet_size ≤ 256)
    (hu : ∀ c ∈ u, V.should_ignore c = true
      ∨ ∃ i, i < V.alphabet_size ∧ V.symbol i = .ok (V.normalized_symbol c))
    (hx : V.should_ignore x = false)
    (hxa : ∀ i, i < V.alphabet_size → V.symbol i ≠ .ok (V.normalized_symbol x))
    (hxe : V.is_eof_symbol (V.normalized_symbol x) = false)
    (hxp : V.is_padding_symbol (V.normalized_symbol x) = false) :
    (stream_codec.decode V C (u ++ x :: rest)).failure = some (.symbol_error x) := by
  have hu2 : ∀ c ∈ u, V.should_ignore c = true
      ∨ is_stop_character (table_at (make_lookup_table V) c) = false := by
    intro c hc
    rcases hu c hc with h | h
    · exact Or.inl h
    · right
      rw [table_at_make]
      exact (index_of_valid V _ hA h).2
  have hxi : table_at (make_lookup_table V) x = invalid_idx := by
    rw [table_at_make]
    exact index_of_invalid V _ hxa hxe hxp
  obtain ⟨idxs2, cur2, cbi2, out2, _, _, e⟩ := scan_prefix V C (make_lookup_table V) hblk
    (x :: rest) u hu2 (List.replicate C.encoded_block_size 0) eof_idx 0 []
    (by simp) (by omega)
  have e2 : decode_scan V C (make_lookup_table V) (x :: rest) idxs2 cur2 cbi2 out2
      = ⟨x :: rest, idxs2, invalid_idx, cbi2, out2, none⟩ := by
    rw [decode_scan]
    simp only [hx, hxi, Bool.false_eq_true, if_false]
    have : is_stop_character invalid_idx = true := by decide
    simp [this]
  unfold stream_codec.decode
  simp only [e, e2]
  have : is_invalid invalid_idx = true := by decide
  simp [this]

/-! ## The scan loop of the radix-85 codec: counting -/

/-- What the radix-85 tail decoder does for each number of pending indexes. -/
theorem tail_decode_length (w : Nat) (decoded : List Byte) (idx : List Nat) (k : Nat) :
    (k = 1 → base85_block_decoder.tail w decoded idx k = (decoded, some .invalid_input_length))
      ∧ (2 ≤ k → k ≤ 4 →
          (base85_block_decoder.tail w decoded idx k).2 = none
            ∧ (base85_block_decoder.tail w decoded idx k).1.length = decoded.length + (k - 1))
      := by
  constructor
  · intro h
    simp [base85_block_decoder.tail, h]
  · intro h2 h4
    have hk : k = 2 ∨ k = 3 ∨ k = 4 := by omega
    rcases hk with h | h | h <;> subst h <;> simp [base85_block_decoder.tail]

/-- The scan loop of the radix-85 codec never throws, keeps five index slots and a block
index below five, and has put four bytes for every five characters it consumed. -/
theorem scan_bound (w : Nat) (V V2 : CodecVariant) (table : List Nat) :
    ∀ (s : List CChar) (idxs : List Nat) (cur cbi : Nat) (out : List Byte),
      idxs.length = 5 → cbi < 5 →
      (decode_scan V (base85 w V2) table s idxs cur cbi out).thrown = none
        ∧ (decode_scan V (base85 w V2) table s idxs cur cbi out).alphabet_indexes.length = 5
        ∧ (decode_scan V (base85 w V2) table s idxs cur cbi out).current_block_index < 5
        ∧ ∃ q, (decode_scan V (base85 w V2) table s idxs cur cbi out).binary_result.length
              = out.length + 4 * q
            ∧ 5 * q + (decode_scan V (base85 w V2) table s idxs cur cbi out).current_block_index
                + (decode_scan V (base85 w V2) table s idxs cur cbi out).src.length
              ≤ cbi + s.length := by
  intro s
  induction s with
  | nil =>
    intro idxs cur cbi out hl hc
    exact ⟨by simp [decode_scan], by simp [decode_scan, hl], by simp [decode_scan, hc], 0,
      by simp [decode_scan], by simp [decode_scan]⟩
  | cons c s ih =>
    intro idxs cur cbi out hl hc
    by_cases hi : V.should_ignore c = true
    · rw [decode_scan, if_pos hi]
      obtain ⟨h1, h2, h3, q, h4, h5⟩ := ih idxs cur cbi out hl hc
      exact ⟨h1, h2, h3, q, h4, by simp only [List.length_cons]; omega⟩
    · by_cases hs : is_stop_character (table_at table c) = true
      · rw [decode_scan, if_neg hi]
        simp only [hs, if_true]
        exact ⟨trivial, hl, hc, 0, by simp, by simp⟩
      · rw [scan_step_base85 w V V2 table c s idxs cur cbi out (by simpa using hi)
          (by simpa using hs) (by omega)]
        by_cases h5 : cbi + 1 = 5
        · rw [if_pos h5]
          obtain ⟨h1, h2, h3, q, h4, h6⟩ := ih (idxs.set cbi (table_at table c))
            (table_at table c) 0
            (base85_block_decoder.block out (idxs.set cbi (table_at table c))).1
            (by simp [hl]) (by omega)
          refine ⟨h1, h2, h3, q + 1, ?_, ?_⟩
          · rw [h4, (block_decode_length _ _).1]
            omega
          · simp only [List.length_cons]
            omega
        · rw [if_neg h5]
          obtain ⟨h1, h2, h3, q, h4, h6⟩ := ih (idxs.set cbi (table_at table c))
            (table_at table c) (cbi + 1) out (by simp [hl]) (by omega)
          exact ⟨h1, h2, h3, q, h4, by simp only [List.length_cons]; omega⟩

/-- On characters that are all neither ignored nor stop characters, the scan loop of the
radix-85 codec consumes everything and counts blocks and pending indexes. -/
theorem scan_valid_count (w : Nat) (V V2 : CodecVariant) (table : List Nat) :
    ∀ (s : List CChar) (idxs : List Nat) (cur cbi : Nat) (out : List Byte),
      (∀ c ∈ s, V.should_ignore c = false ∧ is_stop_character (table_at table c) = false) →
      idxs.length = 5 → cbi < 5 → is_invalid cur = false →
      (decode_scan V (base85 w V2) table s idxs cur cbi out).thrown = none
        ∧ is_invalid (decode_scan V (base85 w V2) table s idxs cur cbi out).current_alphabet_index
            = false
        ∧ (decode_scan V (base85 w V2) table s idxs cur cbi out).current_block_index
            = (cbi + s.length) % 5
        ∧ (decode_scan V (base85 w V2) table s idxs cur cbi out).binary_result.length
            = out.length + 4 * ((cbi + s.length) / 5) := by
  intro s
  induction s with
  | nil =>
    intro idxs cur cbi out _ hl hc hcur
    exact ⟨by simp [decode_scan], by simp [decode_scan, hcur],
      by simp [decode_scan, Nat.mod_eq_of_lt hc],
      by simp [decode_scan, Nat.div_eq_of_lt hc]⟩
  | cons c s ih =>
    intro idxs cur cbi out hs hl hc hcur
    have hc1 := hs c (List.mem_cons_self _ _)
    have hs2 : ∀ d ∈ s, V.should_ignore d = false
        ∧ is_stop_character (table_at table d) = false :=
      fun d hd => hs d (List.mem_cons_of_mem _ hd)
    have hinv : is_invalid (table_at table c) = false :=
      (not_stop_of_lt _ (lt_of_not_stop _ hc1.2)).2
    rw [scan_step_base85 w V V2 table c s idxs cur cbi out hc1.1 hc1.2 (by omega)]
    by_cases h5 : cbi + 1 = 5
    · rw [if_pos h5]
      obtain ⟨h1, h2, h3, h4⟩ := ih (idxs.set cbi (table_at table c)) (table_at table c) 0
        (base85_block_decoder.block out (idxs.set cbi (table_at table c))).1 hs2
        (by simp [hl]) (by omega) hinv
      refine ⟨h1, h2, ?_, ?_⟩
      · rw [h3]
        simp only [List.length_cons]
        omega
      · rw [h4, (block_decode_length _ _).1]
        simp only [List.length_cons]
        omega
    · rw [if_neg h5]
      obtain ⟨h1, h2, h3, h4⟩ := ih (idxs.set cbi (table_at table c)) (table_at table c)
        (cbi + 1) out hs2 (by simp [hl]) (by omega) hinv
      refine ⟨h1, h2, ?_, ?_⟩
      · rw [h3]
        simp only [List.length_cons]
        omega
      · rw [h4]
        simp only [List.length_cons]
        omega

/-! ## Z85 decode: lengths -/

/-- Every character of the Z85 alphabet is not ignored and has an index below 85. -/
theorem z85_alphabet_facts : ∀ c ∈ base85_z85_alphabet.map char_code,
    base85_z85.should_ignore c = false ∧ index_of base85_z85 c < 85 := by
  set_option maxRecDepth 100000 in decide

/-- The function `decoded_max_size` of the Z85 codec without overflow: for a length that
fits a `size_t` of at least 16 bits no intermediate result wraps. -/
theorem z85_decoded_max_size (w sz n : Nat) (hsz : 16 ≤ sz) (hn : n < 2 ^ sz) :
    stream_codec.decoded_max_size sz base85_z85 (z85 w) n = n / 5 * 4 + (n % 5) * 4 / 5 := by
  have hM : 2 ^ 16 ≤ 2 ^ sz := Nat.pow_le_pow_right (by norm_num) hsz
  have h1 : (n / 5 * 4) % 2 ^ sz = n / 5 * 4 := Nat.mod_eq_of_lt (by omega)
  have h2 : ((n % 5) * 4) % 2 ^ sz = (n % 5) * 4 := Nat.mod_eq_of_lt (by omega)
  have h3 : (n / 5 * 4 + (n % 5) * 4 / 5) % 2 ^ sz = n / 5 * 4 + (n % 5) * 4 / 5 :=
    Nat.mod_eq_of_lt (by omega)
  have hr : base85_z85.requires_padding = false := rfl
  simp only [stream_codec.decoded_max_size, hr, Bool.false_eq_true, if_false, z85, base85, h1,
    h2, h3]

/-- Claim C5. For every encoded input `s` (whose length fits `size_t`), the number of bytes
the Z85 `decode` appends to the sink is at most `decoded_max_size(len(s))`, whether the
call returns or fails. -/
theorem z85_decode_length_le_decoded_max_size (w sz : Nat) (s : List CChar)
    (hsz : 16 ≤ sz) (hlen : s.length < 2 ^ sz) :
    (stream_codec.decode base85_z85 (z85 w) s).binary_result.length
      ≤ stream_codec.decoded_max_size sz base85_z85 (z85 w) s.length := by
  rw [z85_decoded_max_size w sz s.length hsz hlen, z85_decode_unfold]
  obtain ⟨h1, h2, h3, q, h4, h5⟩ := scan_bound w base85_z85 base85_z85
    (make_lookup_table base85_z85) s (List.replicate 5 0) eof_idx 0 [] (by simp) (by omega)
  change (decode_scan base85_z85 (z85 w) _ s _ _ _ _).thrown = none at h1
  change (decode_scan base85_z85 (z85 w) _ s _ _ _ _).alphabet_indexes.length = 5 at h2
  change (decode_scan base85_z85 (z85 w) _ s _ _ _ _).current_block_index < 5 at h3
  change (decode_scan base85_z85 (z85 w) _ s _ _ _ _).binary_result.length = _ at h4
  change 5 * q + (decode_scan base85_z85 (z85 w) _ s _ _ _ _).current_block_index
    + (decode_scan base85_z85 (z85 w) _ s _ _ _ _).src.length ≤ _ at h5
  generalize decode_scan base85_z85 (z85 w) (make_lookup_table base85_z85) s
    (List.replicate 5 0) eof_idx 0 [] = st at h1 h2 h3 h4 h5 ⊢
  simp only [List.length_nil, Nat.zero_add] at h4 h5
  rw [h1]
  simp only
  by_cases hinv : is_invalid st.current_alphabet_index = true
  · rw [if_pos hinv]
    have : st.binary_result.length ≤ s.length / 5 * 4 + (s.length % 5) * 4 / 5 := by omega
    cases st.src <;> exact this
  · rw [if_neg hinv, z85_decode_finish w st h3]
    by_cases h0 : st.current_block_index = 0
    · rw [if_pos h0]
      simp only
      omega
    · rw [if_neg h0]
      simp only
      obtain ⟨t1, t2⟩ := tail_decode_length w st.binary_result st.alphabet_indexes
        st.current_block_index
      by_cases hk1 : st.current_block_index = 1
      · rw [t1 hk1]
        simp only
        omega
      · obtain ⟨_, t3⟩ := t2 (by omega) (by omega)
        rw [t3]
        omega

/-- A 16-bit `size_t` and the input `Hello0r` satisfy the hypotheses of claim C5. -/
theorem z85_decode_length_le_decoded_max_size_witness :
    16 ≤ 16 ∧ (c_str "Hello0r").length < 2 ^ 16
      ∧ (stream_codec.decode base85_z85 (z85 32) (c_str "Hello0r")).binary_result.length
      ≤ stream_codec.decoded_max_size 16 base85_z85 (z85 32) (c_str "Hello0r").length :=
  ⟨by decide, by decide,
    z85_decode_length_le_decoded_max_size 32 16 (c_str "Hello0r") (by decide) (by decide)⟩

/-- Claim C6. For every Z85 input of exactly `5k + r` alphabet symbols and nothing else: if
`r = 1`, `decode` fails with `invalid_input_length`; if `r` is 2, 3 or 4, `decode` succeeds
and has written exactly `4k + (r - 1)` bytes. -/
theorem z85_tail_boundary (w : Nat) (s : List CChar) (k r : Nat)
    (hs : ∀ c ∈ s, c ∈ base85_z85_alphabet.map char_code)
    (hlen : s.length = 5 * k + r) (hr : r < 5) :
    (r = 1 → (stream_codec.decode base85_z85 (z85 w) s).failure
        = some .invalid_input_length)
      ∧ (2 ≤ r → (stream_codec.decode base85_z85 (z85 w) s).failure = none
          ∧ (stream_codec.decode base85_z85 (z85 w) s).binary_result.length
              = 4 * k + (r - 1)) := by
  have hs2 : ∀ c ∈ s, base85_z85.should_ignore c = false
      ∧ is_stop_character (table_at (make_lookup_table base85_z85) c) = false := by
    intro c hc
    obtain ⟨f1, f2⟩ := z85_alphabet_facts c (hs c hc)
    rw [z85_table_at]
    exact ⟨f1, (not_stop_of_lt _ (by omega)).1⟩
  obtain ⟨h1, h2, h3, h4⟩ := scan_valid_count w base85_z85 base85_z85
    (make_lookup_table base85_z85) s (List.replicate 5 0) eof_idx 0 [] hs2 (by simp)
    (by omega) (by decide)
  change (decode_scan base85_z85 (z85 w) _ s _ _ _ _).thrown = none at h1
  change is_invalid (decode_scan base85_z85 (z85 w) _ s _ _ _ _).current_alphabet_index
    = false at h2
  change (decode_scan base85_z85 (z85 w) _ s _ _ _ _).current_block_index = _ at h3
  change (decode_scan base85_z85 (z85 w) _ s _ _ _ _).binary_result.length = _ at h4
  rw [z85_decode_unfold]
  generalize decode_scan base85_z85 (z85 w) (make_lookup_table base85_z85) s
    (List.replicate 5 0) eof_idx 0 [] = st at h1 h2 h3 h4 ⊢
  simp only [List.length_nil, Nat.zero_add] at h3 h4
  have h3r : st.current_block_index = r := by omega
  have h4r : st.binary_result.length = 4 * k := by omega
  rw [h1]
  simp only [h2, Bool.false_eq_true, if_false]
  rw [z85_decode_finish w st (by omega)]
  obtain ⟨t1, t2⟩ := tail_decode_length w st.binary_result st.alphabet_indexes
    st.current_block_index
  constructor
  · intro hr1
    rw [if_neg (by omega), t1 (by omega)]
  · intro hr2
    obtain ⟨t3, t4⟩ := t2 (by omega) (by omega)
    rw [if_neg (by omega)]
    simp only [t3, t4, true_and]
    omega

set_option maxRecDepth 100000 in
/-- The seven Z85 symbols `Hello0r` (`k = 1`, `r = 2`) and the six symbols `Hello0`
(`k = 1`, `r = 1`) satisfy the hypotheses of claim C6. -/
theorem z85_tail_boundary_witness :
    ((stream_codec.decode base85_z85 (z85 32) (c_str "Hello0r")).failure = none
        ∧ (stream_codec.decode base85_z85 (z85 32) (c_str "Hello0r")).binary_result.length
            = 4 * 1 + (2 - 1))
      ∧ (stream_codec.decode base85_z85 (z85 32) (c_str "Hello0")).failure
          = some .invalid_input_length :=
  ⟨(z85_tail_boundary 32 (c_str "Hello0r") 1 2 (by decide) (by decide) (by decide)).2
      (by decide),
    (z85_tail_boundary 32 (c_str "Hello0") 1 1 (by decide) (by decide) (by decide)).1 rfl⟩

/-! ## The radix-85 encoder: lengths -/

/-- The padding loop appends `n` padding symbols. -/
theorem padder_true_eq (V : CodecVariant) : ∀ (n : Nat) (encoded : List CChar),
    padder_true V encoded n = encoded ++ List.replicate n V.padding_symbol := by
  intro n
  induction n with
  | zero => intro encoded; simp [padder_true]
  | succ n ih =>
    intro encoded
    rw [padder_true, ih, List.replicate_succ, List.append_assoc]
    rfl

/-- The padder appends `n` symbols for a padding variant and nothing otherwise. -/
theorem padder_eq (V : CodecVariant) (encoded : List CChar) (n : Nat) :
    padder V encoded n
      = encoded ++ List.replicate (if V.generates_padding then n else 0) V.padding_symbol := by
  unfold padder
  cases V.generates_padding <;> simp [padder_true_eq]

/-- When `symbol` succeeds on every digit, the tail encoder puts one symbol more than
there are bytes, and fills up to five for a padding variant. -/
theorem tail_len (V : CodecVariant) (hsym : ∀ i, i < 85 → ∃ c, V.symbol i = .ok c)
    (encoded : List CChar) (src : List Byte) (h1 : 1 ≤ src.length) (h3 : src.length ≤ 3) :
    ∃ s, base85_block_encoder.tail V encoded src (src.length + 1) = .ok (encoded ++ s)
      ∧ s.length = if V.generates_padding then 5 else src.length + 1 := by
  have hs : ∀ n, ∃ c, V.symbol (n % 85) = .ok c := fun n => hsym _ (Nat.mod_lt _ (by norm_num))
  match src, h1, h3 with
  | [b0], _, _ =>
    simp only [base85_block_encoder.tail, byte_at, List.get?, bind, Except.bind, pure,
      Except.pure]
    obtain ⟨c0, e0⟩ := hs (b0.val <<< 24 / (85 * 85 * 85 * 85))
    obtain ⟨c1, e1⟩ := hs (b0.val <<< 24 / (85 * 85 * 85))
    simp only [e0, e1, padder_eq]
    refine ⟨[c0, c1] ++ List.replicate (if V.generates_padding then 3 else 0)
      V.padding_symbol, by simp, ?_⟩
    cases V.generates_padding <;> simp
  | [b0, b1], _, _ =>
    simp only [base85_block_encoder.tail, byte_at, List.get?, bind, Except.bind, pure,
      Except.pure]
    obtain ⟨c0, e0⟩ := hs (b0.val <<< 24 / (85 * 85 * 85 * 85))
    obtain ⟨c1, e1⟩ := hs (b0.val <<< 24 / (85 * 85 * 85))
    obtain ⟨c2, e2⟩ := hs ((b0.val <<< 24 ||| b1.val <<< 16) / (85 * 85))
    simp only [e0, e1, e2, padder_eq]
    refine ⟨[c0, c1, c2] ++ List.replicate (if V.generates_padding then 2 else 0)
      V.padding_symbol, by simp, ?_⟩
    cases V.generates_padding <;> simp
  | [b0, b1, b2], _, _ =>
    simp only [base85_block_encoder.tail, byte_at, List.get?, bind, Except.bind, pure,
      Except.pure]
    obtain ⟨c0, e0⟩ := hs (b0.val <<< 24 / (85 * 85 * 85 * 85))
    obtain ⟨c1, e1⟩ := hs (b0.val <<< 24 / (85 * 85 * 85))
    obtain ⟨c2, e2⟩ := hs ((b0.val <<< 24 ||| b1.val <<< 16) / (85 * 85))
    obtain ⟨c3, e3⟩ := hs ((b0.val <<< 24 ||| b1.val <<< 16 ||| b2.val <<< 8) / 85)
    simp only [e0, e1, e2, e3, padder_eq]
    refine ⟨[c0, c1, c2, c3] ++ List.replicate (if V.generates_padding then 1 else 0)
      V.padding_symbol, by simp, ?_⟩
    cases V.generates_padding <;> simp

/-- When `symbol` succeeds on every digit, the block encoder puts five symbols. -/
theorem block_len (V : CodecVariant) (hsym : ∀ i, i < 85 → ∃ c, V.symbol i = .ok c)
    (encoded : List CChar) (b0 b1 b2 b3 : Byte) (rest : List Byte) :
    ∃ s, base85_block_encoder.block V encoded (b0 :: b1 :: b2 :: b3 :: rest)
        = .ok (encoded ++ s) ∧ s.length = 5 := by
  have hs : ∀ n, ∃ c, V.symbol (n % 85) = .ok c := fun n => hsym _ (Nat.mod_lt _ (by norm_num))
  obtain ⟨c0, e0⟩ := hs ((b0.val * 2 ^ 24 + b1.val * 2 ^ 16 + b2.val * 2 ^ 8 + b3.val) / 85 ^ 4)
  obtain ⟨c1, e1⟩ := hs ((b0.val * 2 ^ 24 + b1.val * 2 ^ 16 + b2.val * 2 ^ 8 + b3.val) / 85 ^ 3)
  obtain ⟨c2, e2⟩ := hs ((b0.val * 2 ^ 24 + b1.val * 2 ^ 16 + b2.val * 2 ^ 8 + b3.val) / 85 ^ 2)
  obtain ⟨c3, e3⟩ := hs ((b0.val * 2 ^ 24 + b1.val * 2 ^ 16 + b2.val * 2 ^ 8 + b3.val) / 85 ^ 1)
  obtain ⟨c4, e4⟩ := hs ((b0.val * 2 ^ 24 + b1.val * 2 ^ 16 + b2.val * 2 ^ 8 + b3.val) / 85 ^ 0)
  exact ⟨[c0, c1, c2, c3, c4],
    block_ok V encoded b0 b1 b2 b3 rest _ rfl c0 c1 c2 c3 c4 e0 e1 e2 e3 e4, rfl⟩

/-- The block loop of the radix-85 encoder puts five symbols for every complete block and
leaves the bytes after the last complete block. -/
theorem encode_blocks_len (w : Nat) (V : CodecVariant)
    (hsym : ∀ i, i < 85 → ∃ c, V.symbol i = .ok c) :
    ∀ (n : Nat) (x : List Byte) (fuel : Nat) (encoded : List CChar),
      x.length / 4 = n → n ≤ fuel →
      ∃ s, encode_blocks (base85 w V) fuel encoded x = .ok (encoded ++ s, x.drop (4 * n))
        ∧ s.length = 5 * n := by
  intro n
  induction n with
  | zero =>
    intro x fuel encoded hx _
    have h4 : ¬ ((base85 w V).binary_block_size ≤ x.length) := by
      simp only [base85]
      omega
    refine ⟨[], ?_, rfl⟩
    cases fuel <;> simp [encode_blocks, h4]
  | succ n ih =>
    intro x fuel encoded hx hf
    match x, hx, fuel, hf with
    | b0 :: b1 :: b2 :: b3 :: rest, hx, fuel + 1, hf =>
      have hr : rest.length / 4 = n := by
        simp only [List.length_cons] at hx
        omega
      have h4 : (base85 w V).binary_block_size ≤ (b0 :: b1 :: b2 :: b3 :: rest).length := by
        simp [base85]
      obtain ⟨s1, hb, hl1⟩ := block_len V hsym encoded b0 b1 b2 b3 rest
      have hb2 : (base85 w V).encode_block encoded (b0 :: b1 :: b2 :: b3 :: rest)
          = .ok (encoded ++ s1) := hb
      obtain ⟨s2, he, hl2⟩ := ih rest fuel (encoded ++ s1) hr (by omega)
      have hdrop : (b0 :: b1 :: b2 :: b3 :: rest).drop (base85 w V).binary_block_size
          = rest := rfl
      refine ⟨s1 ++ s2, ?_, by simp [hl1, hl2]; omega⟩
      rw [encode_blocks, if_pos h4, hb2]
      simp only [hdrop]
      rw [he]
      have hd2 : (b0 :: b1 :: b2 :: b3 :: rest).drop (4 * (n + 1)) = rest.drop (4 * n) := by
        have : 4 * (n + 1) = 4 * n + 1 + 1 + 1 + 1 := by omega
        rw [this]
        rfl
      rw [hd2, List.append_assoc]
    | [], hx, _, _ => simp only [List.length_nil] at hx; omega
    | [_], hx, _, _ => simp only [List.length_cons, List.length_nil] at hx; omega
    | [_, _], hx, _, _ => simp only [List.length_cons, List.length_nil] at hx; omega
    | [_, _, _], hx, _, _ => simp only [List.length_cons, List.length_nil] at hx; omega
    | _ :: _ :: _ :: _ :: _, _, 0, hf => omega

/-- The radix-85 encoder succeeds when `symbol` succeeds on every digit, and puts five
symbols per complete block and, for `m = 1, 2, 3` remaining bytes, `m + 1` symbols, or
five for a padding variant. -/
theorem encode_len (w : Nat) (V : CodecVariant)
    (hsym : ∀ i, i < 85 → ∃ c, V.symbol i = .ok c) (x : List Byte) :
    ∃ s, stream_codec.encode (base85 w V) [] x = .ok s
      ∧ s.length = 5 * (x.length / 4)
          + (if x.length % 4 = 0 then 0
             else if V.generates_padding then 5 else x.length % 4 + 1) := by
  obtain ⟨s1, he, hl1⟩ := encode_blocks_len w V hsym (x.length / 4) x x.length [] rfl
    (Nat.div_le_self _ _)
  have hdl : (x.drop (4 * (x.length / 4))).length = x.length % 4 := by
    rw [List.length_drop]
    omega
  unfold stream_codec.encode
  rw [he]
  simp only [List.nil_append, hdl]
  by_cases h0 : x.length % 4 = 0
  · simp [h0, hl1]
  · have hpos : 0 < x.length % 4 := by omega
    have hlt : x.length % 4 < 4 := Nat.mod_lt _ (by norm_num)
    have hna : ¬ (x.length % 4 = 0 ∨ (base85 w V).binary_block_size ≤ x.length % 4) := by
      simp only [base85]
      omega
    have hnum : (base85 w V).num_encoded_tail_symbols (x.length % 4 % 256)
        = .ok (x.length % 4 + 1) := by
      have : x.length % 4 = 1 ∨ x.length % 4 = 2 ∨ x.length % 4 = 3 := by omega
      rcases this with h | h | h <;> simp [base85, base85.num_encoded_tail_symbols, h]
    obtain ⟨s2, ht, hl2⟩ := tail_len V hsym s1 (x.drop (4 * (x.length / 4)))
      (by omega) (by omega)
    rw [hdl] at ht hl2
    have ht2 : (base85 w V).encode_tail s1 (x.drop (4 * (x.length / 4))) (x.length % 4 + 1)
        = .ok (s1 ++ s2) := ht
    rw [if_pos hpos, if_neg hna, hnum]
    simp only [ht2]
    refine ⟨s1 ++ s2, rfl, ?_⟩
    simp [hl1, hl2, h0]

/-! ## Encoded length and `encoded_size` -/

/-- The function `encoded_size` of a radix-85 codec without padding, when `5 * n` fits
`size_t`. -/
theorem encoded_size_unpadded (w sz : Nat) (V : CodecVariant) (n : Nat)
    (hp : V.generates_padding = false) (hn : 5 * n < 2 ^ sz) :
    stream_codec.encoded_size sz V (base85 w V) n
      = 5 * (n / 4) + (if n % 4 = 0 then 0 else n % 4 + 1) := by
  have h1 : (n * 5) % 2 ^ sz = n * 5 := Nat.mod_eq_of_lt (by omega)
  have h2 : (n * 5 / 4 + (if (n * 5) % 4 ≠ 0 then 1 else 0)) % 2 ^ sz
      = n * 5 / 4 + (if (n * 5) % 4 ≠ 0 then 1 else 0) := by
    apply Nat.mod_eq_of_lt
    split <;> omega
  simp only [stream_codec.encoded_size, hp, Bool.false_eq_true, if_false, base85, h1, h2]
  split <;> split <;> omega

/-- The function `encoded_size` of a radix-85 codec with padding, when `n + 3` and five
times the rounded-up size fit `size_t`. -/
theorem encoded_size_padded (w sz : Nat) (V : CodecVariant) (n : Nat)
    (hp : V.generates_padding = true) (hn : n + 3 < 2 ^ sz)
    (hn5 : 5 * (4 * ((n + 3) / 4)) < 2 ^ sz) :
    stream_codec.encoded_size sz V (base85 w V) n = 5 * ((n + 3) / 4) := by
  have h1 : (n + (4 - 1)) % 2 ^ sz = n + 3 := Nat.mod_eq_of_lt hn
  have h2 : ((n + 3 - (n + 3) % 4) * 5) % 2 ^ sz = (n + 3 - (n + 3) % 4) * 5 :=
    Nat.mod_eq_of_lt (by omega)
  simp only [stream_codec.encoded_size, hp, if_true, base85, h1, h2]
  omega

/-- Claim C4, amended. For every radix-85 variant whose `symbol` is defined on the 85
digits and every byte sequence of length `n`, `encode` succeeds and writes exactly
`encoded_size(n)` symbols: without padding, when `5 * n` fits `size_t`, this is
`5 * floor(n / 4)` plus `(n mod 4) + 1` when `n mod 4` is nonzero; with padding, when
`n + 3` and five times `n` rounded up to a multiple of 4 fit `size_t`, it is
`5 * ceil(n / 4)`. -/
theorem base85_encode_length_eq_encoded_size (w sz : Nat) (V : CodecVariant)
    (x : List Byte) (hsym : ∀ i, i < 85 → ∃ c, V.symbol i = .ok c)
    (hunp : V.generates_padding = false → 5 * x.length < 2 ^ sz)
    (hpad : V.generates_padding = true →
      x.length + 3 < 2 ^ sz ∧ 5 * (4 * ((x.length + 3) / 4)) < 2 ^ sz) :
    ∃ s, stream_codec.encode (base85 w V) [] x = .ok s
      ∧ s.length = stream_codec.encoded_size sz V (base85 w V) x.length
      ∧ (V.generates_padding = false →
          s.length = 5 * (x.length / 4) + (if x.length % 4 = 0 then 0 else x.length % 4 + 1))
      ∧ (V.generates_padding = true → s.length = 5 * ((x.length + 3) / 4)) := by
  obtain ⟨s, he, hl⟩ := encode_len w V hsym x
  refine ⟨s, he, ?_, ?_, ?_⟩
  · cases hg : V.generates_padding
    · rw [encoded_size_unpadded w sz V x.length hg (hunp hg), hl]
      simp [hg]
    · rw [encoded_size_padded w sz V x.length hg (hpad hg).1 (hpad hg).2, hl]
      simp only [hg, if_true]
      split <;> omega
  · intro hg
    rw [hl]
    simp [hg]
  · intro hg
    rw [hl]
    simp only [hg, if_true]
    split <;> omega

/-- The Z85 alphabet defines `symbol` on the 85 digits. -/
theorem z85_symbol_defined : ∀ i, i < 85 → ∃ c, base85_z85.symbol i = .ok c := by
  intro i hi
  obtain ⟨c, hc, _⟩ := z85_symbol_facts ⟨i, hi⟩
  exact ⟨c, hc⟩

/-- The Z85 variant, a 64-bit `size_t` and a five-byte input satisfy the hypotheses of the
amended claim C4. -/
theorem base85_encode_length_eq_encoded_size_witness :
    ∃ s, stream_codec.encode (base85 32 base85_z85) [] [1, 2, 3, 4, 5] = .ok s
      ∧ s.length = stream_codec.encoded_size 64 base85_z85 (base85 32 base85_z85)
          ([1, 2, 3, 4, 5] : List Byte).length
      ∧ (base85_z85.generates_padding = false →
          s.length = 5 * (([1, 2, 3, 4, 5] : List Byte).length / 4)
            + (if ([1, 2, 3, 4, 5] : List Byte).length % 4 = 0 then 0
               else ([1, 2, 3, 4, 5] : List Byte).length % 4 + 1))
      ∧ (base85_z85.generates_padding = true →
          s.length = 5 * ((([1, 2, 3, 4, 5] : List Byte).length + 3) / 4)) :=
  base85_encode_length_eq_encoded_size 32 64 base85_z85 [1, 2, 3, 4, 5] z85_symbol_defined
    (fun _ => by decide) (fun h => by cases h)

/-- Claim C4, counterexample. With a 32-bit `size_t` and a radix-85 variant that generates
padding, take `n = 858993459` bytes: `5 * n = 2^32 - 1` does not overflow, `encode` writes
`5 * ceil(n / 4) = 1073741825` symbols, but `encoded_size(n)` is 1, because `n` rounded up
to a multiple of 4, times 5, is `2^32 + 4`. -/
theorem padded_encoded_size_overflows :
    5 * (List.replicate 858993459 (0 : Byte)).length < 2 ^ 32
      ∧ (∃ s, stream_codec.encode (base85 32 base85_z85_padded) []
                (List.replicate 858993459 (0 : Byte)) = .ok s
          ∧ s.length = 1073741825)
      ∧ stream_codec.encoded_size 32 base85_z85_padded (base85 32 base85_z85_padded)
          (List.replicate 858993459 (0 : Byte)).length = 1 := by
  have hg : base85_z85_padded.generates_padding = true := rfl
  refine ⟨?_, ?_, ?_⟩
  · rw [List.length_replicate]
    norm_num
  · obtain ⟨s, he, hl⟩ := encode_len 32 base85_z85_padded z85_symbol_defined
      (List.replicate 858993459 (0 : Byte))
    refine ⟨s, he, ?_⟩
    rw [hl, List.length_replicate, hg]
    norm_num
  · rw [List.length_replicate]
    unfold stream_codec.encoded_size
    rw [hg]
    norm_num [base85]

/-! ## The width of `uint_fast32_t` -/

/-- The low 32 bits of a sum computed modulo `2 ^ w`, for `w ≥ 32`. -/
theorem add_mod_low32 (w : Nat) (h : 32 ≤ w) (x y : Nat) :
    ((x % 2 ^ w + y % 2 ^ w) % 2 ^ w) % 2 ^ 32 = (x + y) % 2 ^ 32 := by
  have hd : 2 ^ 32 ∣ 2 ^ w := Nat.pow_dvd_pow 2 h
  rw [Nat.mod_mod_of_dvd _ hd, Nat.add_mod, Nat.mod_mod_of_dvd _ hd, Nat.mod_mod_of_dvd _ hd,
    ← Nat.add_mod]

/-- The bytes the tail decoder extracts depend on the low 32 bits of the value only. -/
theorem byte_of_low32 (x : Nat) :
    to_uint8 ((x >>> 24) &&& 0xFF) = to_uint8 (((x % 2 ^ 32) >>> 24) &&& 0xFF)
      ∧ to_uint8 ((x >>> 16) &&& 0xFF) = to_uint8 (((x % 2 ^ 32) >>> 16) &&& 0xFF)
      ∧ to_uint8 ((x >>> 8) &&& 0xFF) = to_uint8 (((x % 2 ^ 32) >>> 8) &&& 0xFF) := by
  simp only [and_0xFF, Nat.shiftRight_eq_div_pow]
  refine ⟨congrArg _ ?_, congrArg _ ?_, congrArg _ ?_⟩ <;> omega

/-- The radix-85 tail decoder gives the same result for every `uint_fast32_t` of at least
32 bits. -/
theorem tail_decode_width (w : Nat) (h : 32 ≤ w) (decoded : List Byte) (idx : List Nat)
    (idx_len : Nat) :
    base85_block_decoder.tail w decoded idx idx_len
      = base85_block_decoder.tail 32 decoded idx idx_len := by
  have key : ∀ u (hu : 32 ≤ u) (x y : Nat),
      ((x % 2 ^ u + y % 2 ^ u) % 2 ^ u) % 2 ^ 32 = (x + y) % 2 ^ 32 := add_mod_low32
  have k2 : ∀ u (hu : 32 ≤ u) (v y : Nat),
      ((v + y % 2 ^ u) % 2 ^ u) % 2 ^ 32 = (v % 2 ^ 32 + y % 2 ^ 32) % 2 ^ 32 := by
    intro u hu v y
    have hd : 2 ^ 32 ∣ 2 ^ u := Nat.pow_dvd_pow 2 hu
    rw [Nat.mod_mod_of_dvd _ hd, Nat.add_mod, Nat.mod_mod_of_dvd _ hd]
  unfold base85_block_decoder.tail
  generalize idx_at idx 0 * (85 * 85 * 85 * 85) = a
  generalize idx_at idx 1 * (85 * 85 * 85) = b
  generalize idx_at idx 2 * (85 * 85) = c
  generalize idx_at idx 3 * 85 = d
  have e1 : ((a % 2 ^ w + b % 2 ^ w) % 2 ^ w) % 2 ^ 32
      = ((a % 2 ^ 32 + b % 2 ^ 32) % 2 ^ 32) % 2 ^ 32 := by
    rw [key w h, key 32 (le_refl _)]
  have e2 : (((a % 2 ^ w + b % 2 ^ w) % 2 ^ w + c % 2 ^ w) % 2 ^ w) % 2 ^ 32
      = (((a % 2 ^ 32 + b % 2 ^ 32) % 2 ^ 32 + c % 2 ^ 32) % 2 ^ 32) % 2 ^ 32 := by
    rw [k2 w h, k2 32 (le_refl _), e1]
  have e3 : ((((a % 2 ^ w + b % 2 ^ w) % 2 ^ w + c % 2 ^ w) % 2 ^ w + d % 2 ^ w) % 2 ^ w)
        % 2 ^ 32
      = ((((a % 2 ^ 32 + b % 2 ^ 32) % 2 ^ 32 + c % 2 ^ 32) % 2 ^ 32 + d % 2 ^ 32) % 2 ^ 32)
        % 2 ^ 32 := by
    rw [k2 w h, k2 32 (le_refl _), e2]
  have b1 : to_uint8 ((((a % 2 ^ w + b % 2 ^ w) % 2 ^ w) >>> 24) &&& 0xFF)
      = to_uint8 ((((a % 2 ^ 32 + b % 2 ^ 32) % 2 ^ 32) >>> 24) &&& 0xFF) := by
    rw [(byte_of_low32 _).1, e1, ← (byte_of_low32 _).1]
  have b2 : to_uint8 (((((a % 2 ^ w + b % 2 ^ w) % 2 ^ w + c % 2 ^ w) % 2 ^ w) >>> 16)
        &&& 0xFF)
      = to_uint8 (((((a % 2 ^ 32 + b % 2 ^ 32) % 2 ^ 32 + c % 2 ^ 32) % 2 ^ 32) >>> 16)
        &&& 0xFF) := by
    rw [(byte_of_low32 _).2.1, e2, ← (byte_of_low32 _).2.1]
  have b3 : to_uint8 ((((((a % 2 ^ w + b % 2 ^ w) % 2 ^ w + c % 2 ^ w) % 2 ^ w
        + d % 2 ^ w) % 2 ^ w) >>> 8) &&& 0xFF)
      = to_uint8 ((((((a % 2 ^ 32 + b % 2 ^ 32) % 2 ^ 32 + c % 2 ^ 32) % 2 ^ 32
        + d % 2 ^ 32) % 2 ^ 32) >>> 8) &&& 0xFF) := by
    rw [(byte_of_low32 _).2.2, e3, ← (byte_of_low32 _).2.2]
  simp only [b1, b2, b3]

/-- The Z85 `decode` gives the same result for every `uint_fast32_t` of at least 32
bits. -/
theorem z85_decode_width (w : Nat) (h : 32 ≤ w) (s : List CChar) :
    stream_codec.decode base85_z85 (z85 w) s = stream_codec.decode base85_z85 (z85 32) s := by
  have e : z85 w = z85 32 := by
    unfold z85 base85
    have : base85.decode_tail w = base85.decode_tail 32 := by
      funext decoded idx idx_len
      exact tail_decode_width w h decoded idx idx_len
    rw [this]
  rw [e]

/-! ## Claims about totality, the alphabet and the block decoder -/

/-- Claim C13. For every radix-85 variant whose `symbol` is defined on the indexes below
85 (and may fail on every other index) and for every byte sequence, `encode` returns: it
does not end with `domain_error` (the tail length passed to `num_encoded_tail_symbols` is
1, 2 or 3), not with `aborted` (neither `abort()` is reached), and not with
`out_of_bounds` (every index passed to `symbol` is below 85). This holds in particular for
Z85. -/
theorem base85_encode_total (w : Nat) (V : CodecVariant) (x : List Byte)
    (hsym : ∀ i, i < 85 → ∃ c, V.symbol i = .ok c) :
    (∃ s, stream_codec.encode (base85 w V) [] x = .ok s)
      ∧ ∃ s, stream_codec.encode (z85 w) [] x = .ok s := by
  obtain ⟨s, hs, _⟩ := encode_len w V hsym x
  obtain ⟨s2, hs2, _⟩ := encode_len w base85_z85 z85_symbol_defined x
  exact ⟨⟨s, hs⟩, ⟨s2, hs2⟩⟩

/-- The Z85 variant and the seven bytes `01 .. 07` satisfy the hypothesis of claim C13. -/
theorem base85_encode_total_witness :
    (∃ s, stream_codec.encode (base85 32 base85_z85) [] [1, 2, 3, 4, 5, 6, 7] = .ok s)
      ∧ ∃ s, stream_codec.encode (z85 32) [] [1, 2, 3, 4, 5, 6, 7] = .ok s :=
  base85_encode_total 32 base85_z85 [1, 2, 3, 4, 5, 6, 7] z85_symbol_defined

set_option maxRecDepth 100000 in
/-- Claim C14. The Z85 alphabet has exactly 85 pairwise distinct symbols; for every index
`i < 85`, `index_of(symbol(i)) = i`; and for every character `c` for which `index_of(c)`
returns a value `i < 85`, `symbol(i) = c`. -/
theorem z85_symbol_index_of_inverse :
    base85_z85_alphabet.length = 85
      ∧ (base85_z85_alphabet.map char_code).Nodup
      ∧ (∀ i : Fin 85, ∃ c, base85_z85.symbol i.val = .ok c
          ∧ base85_z85.index_of c = .ok i.val)
      ∧ (∀ c : CChar, ∀ i : Fin 85, base85_z85.index_of c = .ok i.val →
          base85_z85.symbol i.val = .ok c) := by
  refine ⟨by decide, by decide, ?_, ?_⟩
  · intro i
    refine ⟨char_code (base85_z85_alphabet.getD i.val '0'), ?_⟩
    revert i
    decide
  · have h : ∀ c : CChar, (match base85_z85.index_of c with
        | .ok i => decide (i < 85 → base85_z85.symbol i = .ok c)
        | .error _ => true) = true := by
      decide
    intro c i hi
    have hc := h c
    rw [hi] at hc
    exact (of_decide_eq_true hc) i.isLt

/-- Claim C16. For every five indexes `idx[0..4]`, each below 85, with
`v = idx0*85^4 + idx1*85^3 + idx2*85^2 + idx3*85 + idx4 < 2^32`, the block decoder puts
exactly the four bytes `(v / 2^24) mod 256`, `(v / 2^16) mod 256`, `(v / 2^8) mod 256`,
`v mod 256`, in that order, and does not throw. -/
theorem base85_block_decode_big_endian (decoded : List Byte) (i0 i1 i2 i3 i4 : Nat)
    (rest : List Nat) (h0 : i0 < 85) (h1 : i1 < 85) (h2 : i2 < 85) (h3 : i3 < 85)
    (h4 : i4 < 85)
    (hv : i0 * 85 ^ 4 + i1 * 85 ^ 3 + i2 * 85 ^ 2 + i3 * 85 + i4 < 2 ^ 32) :
    ∃ c0 c1 c2 c3 : Byte,
      base85_block_decoder.block decoded (i0 :: i1 :: i2 :: i3 :: i4 :: rest)
          = (decoded ++ [c0, c1, c2, c3], none)
        ∧ c0.val = (i0 * 85 ^ 4 + i1 * 85 ^ 3 + i2 * 85 ^ 2 + i3 * 85 + i4) / 2 ^ 24 % 256
        ∧ c1.val = (i0 * 85 ^ 4 + i1 * 85 ^ 3 + i2 * 85 ^ 2 + i3 * 85 + i4) / 2 ^ 16 % 256
        ∧ c2.val = (i0 * 85 ^ 4 + i1 * 85 ^ 3 + i2 * 85 ^ 2 + i3 * 85 + i4) / 2 ^ 8 % 256
        ∧ c3.val = (i0 * 85 ^ 4 + i1 * 85 ^ 3 + i2 * 85 ^ 2 + i3 * 85 + i4) % 256 := by
  refine ⟨to_uint8 ((i0 * 85 ^ 4 + i1 * 85 ^ 3 + i2 * 85 ^ 2 + i3 * 85 + i4) / 2 ^ 24 % 256),
    to_uint8 ((i0 * 85 ^ 4 + i1 * 85 ^ 3 + i2 * 85 ^ 2 + i3 * 85 + i4) / 2 ^ 16 % 256),
    to_uint8 ((i0 * 85 ^ 4 + i1 * 85 ^ 3 + i2 * 85 ^ 2 + i3 * 85 + i4) / 2 ^ 8 % 256),
    to_uint8 ((i0 * 85 ^ 4 + i1 * 85 ^ 3 + i2 * 85 ^ 2 + i3 * 85 + i4) % 256),
    ?_, ?_, ?_, ?_, ?_⟩
  · rw [block_decode_spec decoded i0 i1 i2 i3 i4 rest (by omega) (by omega) (by omega)
      (by omega) (by omega), Nat.mod_eq_of_lt hv]
  · simp [to_uint8, Fin.ofNat]
  · simp [to_uint8, Fin.ofNat]
  · simp [to_uint8, Fin.ofNat]
  · simp [to_uint8, Fin.ofNat]

/-- The indexes 43, 14, 21, 21, 24 of `Hello` satisfy the hypotheses of claim C16, and
decode to `86 4F D2 6F`. -/
theorem base85_block_decode_big_endian_witness :
    43 * 85 ^ 4 + 14 * 85 ^ 3 + 21 * 85 ^ 2 + 21 * 85 + 24 < 2 ^ 32
      ∧ ∃ c0 c1 c2 c3 : Byte,
        base85_block_decoder.block [] [43, 14, 21, 21, 24] = ([] ++ [c0, c1, c2, c3], none)
          ∧ c0.val = (43 * 85 ^ 4 + 14 * 85 ^ 3 + 21 * 85 ^ 2 + 21 * 85 + 24) / 2 ^ 24 % 256
          ∧ c1.val = (43 * 85 ^ 4 + 14 * 85 ^ 3 + 21 * 85 ^ 2 + 21 * 85 + 24) / 2 ^ 16 % 256
          ∧ c2.val = (43 * 85 ^ 4 + 14 * 85 ^ 3 + 21 * 85 ^ 2 + 21 * 85 + 24) / 2 ^ 8 % 256
          ∧ c3.val = (43 * 85 ^ 4 + 14 * 85 ^ 3 + 21 * 85 ^ 2 + 21 * 85 + 24) % 256 :=
  ⟨by decide, base85_block_decode_big_endian [] 43 14 21 21 24 [] (by decide) (by decide)
    (by decide) (by decide) (by decide) (by decide)⟩

/-! ## Closed form of `encoded_size` -/

/-- Claim C15. For every block geometry with `binary_block_size B ≥ 1` and
`encoded_block_size E ≥ 1` and every `n` for which no intermediate result overflows
`size_t`, the padded branch of `encoded_size(n)` is `ceil(n / B) * E` and the unpadded
branch is `floor(n * E / B)`, plus 1 exactly when `n * E mod B` is nonzero. (The bound
`E ≥ 1` is not needed.) -/
theorem encoded_size_closed_form (sz : Nat) (V : CodecVariant) (C : Codec) (n : Nat)
    (hB : 1 ≤ C.binary_block_size)
    (hpad : V.generates_padding = true →
      n + (C.binary_block_size - 1) < 2 ^ sz
        ∧ (n + (C.binary_block_size - 1)) / C.binary_block_size * C.binary_block_size
            * C.encoded_block_size < 2 ^ sz)
    (hunp : V.generates_padding = false → n * C.encoded_block_size < 2 ^ sz) :
    (V.generates_padding = true →
        stream_codec.encoded_size sz V C n
          = (n + (C.binary_block_size - 1)) / C.binary_block_size * C.encoded_block_size)
      ∧ (V.generates_padding = false →
        stream_codec.encoded_size sz V C n
          = n * C.encoded_block_size / C.binary_block_size
            + (if n * C.encoded_block_size % C.binary_block_size ≠ 0 then 1 else 0)) := by
  constructor
  · intro hg
    obtain ⟨h1, h2⟩ := hpad hg
    simp only [stream_codec.encoded_size, hg, if_true]
    generalize C.binary_block_size = B at *
    generalize C.encoded_block_size = E at *
    have e1 : (n + (B - 1)) % 2 ^ sz = n + (B - 1) := Nat.mod_eq_of_lt h1
    have e2 : n + (B - 1) - (n + (B - 1)) % B = (n + (B - 1)) / B * B := by
      have := Nat.div_add_mod (n + (B - 1)) B
      rw [Nat.mul_comm] at this
      omega
    have e3 : ((n + (B - 1)) / B * B * E) % 2 ^ sz = (n + (B - 1)) / B * B * E :=
      Nat.mod_eq_of_lt h2
    simp only [e1, e2, e3]
    rw [Nat.mul_assoc, Nat.mul_comm B E, ← Nat.mul_assoc]
    exact Nat.mul_div_cancel _ (by omega)
  · intro hg
    have h1 := hunp hg
    simp only [stream_codec.encoded_size, hg, Bool.false_eq_true, if_false]
    generalize C.binary_block_size = B at *
    generalize C.encoded_block_size = E at *
    have e1 : (n * E) % 2 ^ sz = n * E := Nat.mod_eq_of_lt h1
    have hdiv : n * E / B ≤ n * E := Nat.div_le_self _ _
    have e2 : (n * E / B + (if n * E % B ≠ 0 then 1 else 0)) % 2 ^ sz
        = n * E / B + (if n * E % B ≠ 0 then 1 else 0) := by
      apply Nat.mod_eq_of_lt
      by_cases hr : n * E % B = 0
      · simp only [hr, ne_eq, not_true_eq_false, if_false]
        omega
      · simp only [hr, ne_eq, not_false_eq_true, if_true]
        have hlt : n * E / B < n * E := by
          apply Nat.div_lt_self
          · rcases Nat.eq_zero_or_pos (n * E) with h0 | h0
            · rw [h0] at hr
              exact absurd (Nat.zero_mod B) hr
            · exact h0
          · rcases Nat.lt_or_ge 1 B with hb | hb
            · exact hb
            · have : B = 1 := by omega
              rw [this] at hr
              exact absurd (Nat.mod_one _) hr
        omega
    simp only [e1, e2]

/-- The Z85 variant and codec, a 32-bit `size_t` and `n = 7` satisfy the hypotheses of
claim C15. -/
theorem encoded_size_closed_form_witness :
    (base85_z85.generates_padding = true →
        stream_codec.encoded_size 32 base85_z85 (z85 32) 7
          = (7 + ((z85 32).binary_block_size - 1)) / (z85 32).binary_block_size
              * (z85 32).encoded_block_size)
      ∧ (base85_z85.generates_padding = false →
        stream_codec.encoded_size 32 base85_z85 (z85 32) 7
          = 7 * (z85 32).encoded_block_size / (z85 32).binary_block_size
            + (if 7 * (z85 32).encoded_block_size % (z85 32).binary_block_size ≠ 0 then 1
               else 0)) :=
  encoded_size_closed_form 32 base85_z85 (z85 32) 7 (by decide)
    (fun h => by cases h) (fun _ => by decide)

/-! ## The lookup table: classification -/

/-- A symbol that matches an alphabet position among the last `I` gets the smallest such
position. -/
theorem index_if_in_alphabet_min (V : CodecVariant) (inv : Nat) (c : CChar) :
    ∀ I, I ≤ V.alphabet_size →
      (∃ i, V.alphabet_size - I ≤ i ∧ i < V.alphabet_size ∧ V.symbol i = .ok c) →
      V.alphabet_size - I ≤ index_if_in_alphabet V inv I c
        ∧ index_if_in_alphabet V inv I c < V.alphabet_size
        ∧ V.symbol (index_if_in_alphabet V inv I c) = .ok c
        ∧ ∀ j, V.alphabet_size - I ≤ j → j < index_if_in_alphabet V inv I c →
            V.symbol j ≠ .ok c := by
  intro I
  induction I with
  | zero =>
    intro _ h
    obtain ⟨i, h1, h2, _⟩ := h
    omega
  | succ I ih =>
    intro hI h
    rw [index_if_in_alphabet]
    by_cases hm : V.symbol (V.alphabet_size - (I + 1)) = .ok c
    · rw [if_pos hm]
      exact ⟨le_refl _, by omega, hm, fun j h1 h2 => by omega⟩
    · rw [if_neg hm]
      have hex : ∃ i, V.alphabet_size - I ≤ i ∧ i < V.alphabet_size ∧ V.symbol i = .ok c := by
        obtain ⟨i, h1, h2, h3⟩ := h
        refine ⟨i, ?_, h2, h3⟩
        by_contra hlt
        have : i = V.alphabet_size - (I + 1) := by omega
        rw [this] at h3
        exact hm h3
      obtain ⟨g1, g2, g3, g4⟩ := ih (by omega) hex
      refine ⟨by omega, g2, g3, ?_⟩
      intro j h1 h2
      by_cases hj : j = V.alphabet_size - (I + 1)
      · rw [hj]
        exact hm
      · exact g4 j (by omega) h2

/-- The three sentinels are 256, 512 and 1024. -/
theorem sentinel_values : padding_idx = 256 ∧ invalid_idx = 512 ∧ eof_idx = 1024 :=
  ⟨rfl, rfl, rfl⟩

/-- Claim C18. For every character `c`, with `n = normalized_symbol(c)`, the table entry
for `c` is the smallest index `i < alphabet_size` with `symbol(i) = n` if there is one;
otherwise `eof_idx` if `is_eof_symbol(n)`; otherwise `padding_idx` if
`is_padding_symbol(n)`; otherwise `invalid_idx`. So every entry is a valid index below
`alphabet_size` or one of the three distinct sentinels, `is_stop_character` holds exactly
for the sentinels, two characters with the same normalized symbol get the same entry, the
table has 256 entries, and building it again gives the same table. (For an alphabet of at
most 256 symbols.) -/
theorem lookup_table_classification (V : CodecVariant) (c : CChar)
    (hA : V.alphabet_size ≤ 256) :
    ((∃ i, i < V.alphabet_size ∧ V.symbol i = .ok (V.normalized_symbol c)) →
        table_at (make_lookup_table V) c < V.alphabet_size
          ∧ V.symbol (table_at (make_lookup_table V) c) = .ok (V.normalized_symbol c)
          ∧ ∀ j, j < table_at (make_lookup_table V) c →
              V.symbol j ≠ .ok (V.normalized_symbol c))
      ∧ ((∀ i, i < V.alphabet_size → V.symbol i ≠ .ok (V.normalized_symbol c)) →
          table_at (make_lookup_table V) c
            = if V.is_eof_symbol (V.normalized_symbol c) then eof_idx
              else if V.is_padding_symbol (V.normalized_symbol c) then padding_idx
              else invalid_idx)
      ∧ (table_at (make_lookup_table V) c < V.alphabet_size
          ∨ table_at (make_lookup_table V) c = eof_idx
          ∨ table_at (make_lookup_table V) c = padding_idx
          ∨ table_at (make_lookup_table V) c = invalid_idx)
      ∧ (eof_idx ≠ padding_idx ∧ padding_idx ≠ invalid_idx ∧ eof_idx ≠ invalid_idx
          ∧ V.alphabet_size ≤ padding_idx ∧ V.alphabet_size ≤ invalid_idx
          ∧ V.alphabet_size ≤ eof_idx)
      ∧ (is_stop_character (table_at (make_lookup_table V) c) = true ↔
          (table_at (make_lookup_table V) c = eof_idx
            ∨ table_at (make_lookup_table V) c = padding_idx
            ∨ table_at (make_lookup_table V) c = invalid_idx))
      ∧ (∀ c2, V.normalized_symbol c2 = V.normalized_symbol c →
          table_at (make_lookup_table V) c2 = table_at (make_lookup_table V) c)
      ∧ (make_lookup_table V).length = 256
      ∧ make_lookup_table V = make_lookup_table V := by
  obtain ⟨sp, si, se⟩ := sentinel_values
  have hfound : (∃ i, i < V.alphabet_size ∧ V.symbol i = .ok (V.normalized_symbol c)) →
      index_of V (V.normalized_symbol c) < V.alphabet_size
        ∧ V.symbol (index_of V (V.normalized_symbol c)) = .ok (V.normalized_symbol c)
        ∧ ∀ j, j < index_of V (V.normalized_symbol c) →
            V.symbol j ≠ .ok (V.normalized_symbol c) := by
    intro h
    obtain ⟨i, h1, h2⟩ := h
    obtain ⟨_, g2, g3, g4⟩ := index_if_in_alphabet_min V invalid_idx (V.normalized_symbol c)
      V.alphabet_size (le_refl _) ⟨i, by omega, h1, h2⟩
    have hne : index_if_in_alphabet V invalid_idx V.alphabet_size (V.normalized_symbol c)
        ≠ invalid_idx := by omega
    have e : index_of V (V.normalized_symbol c)
        = index_if_in_alphabet V invalid_idx V.alphabet_size (V.normalized_symbol c) := by
      simp [index_of, valid_index_or, hne]
    rw [e]
    exact ⟨g2, g3, fun j hj => g4 j (by omega) hj⟩
  have hnone : (∀ i, i < V.alphabet_size → V.symbol i ≠ .ok (V.normalized_symbol c)) →
      index_of V (V.normalized_symbol c)
        = if V.is_eof_symbol (V.normalized_symbol c) then eof_idx
          else if V.is_padding_symbol (V.normalized_symbol c) then padding_idx
          else invalid_idx := by
    intro h
    simp only [index_of, index_if_in_alphabet_none V invalid_idx _ h V.alphabet_size
      (le_refl _), valid_index_or, if_true]
  have hcases : index_of V (V.normalized_symbol c) < V.alphabet_size
      ∨ index_of V (V.normalized_symbol c) = eof_idx
      ∨ index_of V (V.normalized_symbol c) = padding_idx
      ∨ index_of V (V.normalized_symbol c) = invalid_idx := by
    by_cases h : ∃ i, i < V.alphabet_size ∧ V.symbol i = .ok (V.normalized_symbol c)
    · exact Or.inl (hfound h).1
    · right
      have h2 : ∀ i, i < V.alphabet_size → V.symbol i ≠ .ok (V.normalized_symbol c) :=
        fun i hi hs => h ⟨i, hi, hs⟩
      rw [hnone h2]
      split
      · exact Or.inl rfl
      · split
        · exact Or.inr (Or.inl rfl)
        · exact Or.inr (Or.inr rfl)
  rw [table_at_make]
  refine ⟨hfound, hnone, hcases, ⟨by omega, by omega, by omega, by omega, by omega, by omega⟩,
    ?_, ?_, ?_, rfl⟩
  · constructor
    · intro hs
      rcases hcases with h | h | h | h
      · have := (not_stop_of_lt _ (show index_of V (V.normalized_symbol c) < 256 by omega)).1
        rw [this] at hs
        cases hs
      · exact Or.inl h
      · exact Or.inr (Or.inl h)
      · exact Or.inr (Or.inr h)
    · intro h
      rcases h with h | h | h <;> rw [h] <;> decide
  · intro c2 h2
    rw [table_at_make, h2]
  · unfold make_lookup_table
    exact List.length_ofFn _

/-- The Z85 variant, with 85 symbols, satisfies the hypothesis of claim C18; its entry for
`H` is a valid index or a sentinel. -/
theorem lookup_table_classification_witness :
    base85_z85.alphabet_size ≤ 256
      ∧ (table_at (make_lookup_table base85_z85) (char_code 'H') < base85_z85.alphabet_size
          ∨ table_at (make_lookup_table base85_z85) (char_code 'H') = eof_idx
          ∨ table_at (make_lookup_table base85_z85) (char_code 'H') = padding_idx
          ∨ table_at (make_lookup_table base85_z85) (char_code 'H') = invalid_idx) :=
  ⟨by decide, (lookup_table_classification base85_z85 (char_code 'H') (by decide)).2.2.1⟩

/-! ## Ignored characters -/

/-- The padding loop stops at the latest at a character that is not a stop character, so
what follows such a character does not matter. -/
theorem decode_padding_stops (V : CodecVariant) (C : Codec) (table : List Nat) (a : CChar)
    (ha : is_stop_character (table_at table a) = false) (r1 r2 : List CChar) :
    ∀ (t : List CChar) (n : Nat),
      decode_padding V C table (t ++ a :: r1) n = decode_padding V C table (t ++ a :: r2) n := by
  have hlt := lt_of_not_stop _ ha
  have he : is_eof (table_at table a) = false := by
    have : table_at table a ≠ eof_idx := by
      have := sentinel_values.2.2
      omega
    simp [is_eof, this]
  have hp : is_padding V (table_at table a) = false := by
    have : table_at table a ≠ padding_idx := by
      have := sentinel_values.1
      omega
    unfold is_padding
    split <;> simp [this]
  intro t
  induction t with
  | nil =>
    intro n
    simp [decode_padding, he, hp]
  | cons b t ih =>
    intro n
    simp only [List.cons_append, decode_padding]
    split
    · rfl
    · split
      · rfl
      · split
        · rfl
        · exact ih _

/-- Inserting an ignored character into the input of the scan loop changes nothing, or
only the rest of the input that the loop leaves behind when it throws or stops before
the insertion point. -/
theorem scan_ignored_insert (V : CodecVariant) (C : Codec) (table : List Nat) (c : CChar)
    (hc : V.should_ignore c = true) (v : List CChar) :
    ∀ (u : List CChar) (idxs : List Nat) (cur cbi : Nat) (out : List Byte),
      decode_scan V C table (u ++ c :: v) idxs cur cbi out
          = decode_scan V C table (u ++ v) idxs cur cbi out
        ∨ (∃ f r1 r2 I K B O,
            decode_scan V C table (u ++ c :: v) idxs cur cbi out = ⟨r1, I, K, B, O, some f⟩
              ∧ decode_scan V C table (u ++ v) idxs cur cbi out = ⟨r2, I, K, B, O, some f⟩)
        ∨ (∃ x t pre I B O, u = pre ++ x :: t
            ∧ is_stop_character (table_at table x) = true
            ∧ decode_scan V C table (u ++ c :: v) idxs cur cbi out
                = ⟨x :: (t ++ c :: v), I, table_at table x, B, O, none⟩
            ∧ decode_scan V C table (u ++ v) idxs cur cbi out
                = ⟨x :: (t ++ v), I, table_at table x, B, O, none⟩) := by
  intro u
  induction u with
  | nil =>
    intro idxs cur cbi out
    left
    simp only [List.nil_append]
    rw [decode_scan, if_pos hc]
  | cons a u ih =>
    intro idxs cur cbi out
    simp only [List.cons_append]
    rw [decode_scan, decode_scan.eq_def V C table (a :: (u ++ v))]
    simp only
    have lift : ∀ (i2 : List Nat) (k2 b2 : Nat) (o2 : List Byte),
        (decode_scan V C table (u ++ c :: v) i2 k2 b2 o2
            = decode_scan V C table (u ++ v) i2 k2 b2 o2
          ∨ (∃ f r1 r2 I K B O,
              decode_scan V C table (u ++ c :: v) i2 k2 b2 o2 = ⟨r1, I, K, B, O, some f⟩
                ∧ decode_scan V C table (u ++ v) i2 k2 b2 o2 = ⟨r2, I, K, B, O, some f⟩)
          ∨ (∃ x t pre I B O, a :: u = pre ++ x :: t
              ∧ is_stop_character (table_at table x) = true
              ∧ decode_scan V C table (u ++ c :: v) i2 k2 b2 o2
                  = ⟨x :: (t ++ c :: v), I, table_at table x, B, O, none⟩
              ∧ decode_scan V C table (u ++ v) i2 k2 b2 o2
                  = ⟨x :: (t ++ v), I, table_at table x, B, O, none⟩)) := by
      intro i2 k2 b2 o2
      rcases ih i2 k2 b2 o2 with h | h | ⟨x, t, pre, I, B, O, h1, h2, h3, h4⟩
      · exact Or.inl h
      · exact Or.inr (Or.inl h)
      · exact Or.inr (Or.inr ⟨x, t, a :: pre, I, B, O, by rw [h1]; rfl, h2, h3, h4⟩)
    by_cases hi : V.should_ignore a = true
    · simp only [hi, if_true]
      exact lift idxs cur cbi out
    · simp only [hi, Bool.false_eq_true, if_false]
      by_cases hs : is_stop_character (table_at table a) = true
      · simp only [hs, if_true]
        exact Or.inr (Or.inr ⟨a, u, [], idxs, cbi, out, rfl, hs, rfl, rfl⟩)
      · simp only [hs, Bool.false_eq_true, if_false]
        by_cases hb : idxs.length ≤ cbi
        · simp only [hb, if_true]
          exact Or.inr (Or.inl ⟨_, _, _, _, _, _, _, rfl, rfl⟩)
        · simp only [hb, if_false]
          by_cases h5 : cbi + 1 = C.encoded_block_size
          · simp only [h5, if_true]
            generalize C.decode_block out (idxs.set cbi (table_at table a)) = r
            obtain ⟨r1, r2⟩ := r
            cases r2 with
            | none => exact lift _ _ _ _
            | some f => exact Or.inr (Or.inl ⟨_, _, _, _, _, _, _, rfl, rfl⟩)
          · simp only [h5, if_false]
            exact lift _ _ _ _

/-- The function `stream_codec::decode` in terms of the state in which the scan loop is
left. -/
theorem decode_of_scan (V : CodecVariant) (C : Codec) (s : List CChar) (st : ScanState)
    (h : decode_scan V C (make_lookup_table V) s (List.replicate C.encoded_block_size 0)
      eof_idx 0 [] = st) :
    stream_codec.decode V C s
      = match st.thrown with
        | some f => ⟨st.binary_result, some f⟩
        | none =>
          if is_invalid st.current_alphabet_index then
            match st.src with
            | c :: _ => ⟨st.binary_result, some (.symbol_error c)⟩
            | [] => ⟨st.binary_result, some .out_of_bounds⟩
          else if is_padding V st.current_alphabet_index then
            if st.current_block_index = 0 then ⟨st.binary_result, some .padding_error⟩
            else
              match decode_padding V C (make_lookup_table V) st.src.tail
                  (st.current_block_index + 1) with
              | .error f => ⟨st.binary_result, some f⟩
              | .ok last_block_index => decode_finish V C st last_block_index
          else decode_finish V C st st.current_block_index := by
  subst h
  rfl

/-- Claim C11. For every variant (with at most 256 alphabet symbols) and codec, every
input `u ++ v` in which the last character of `u` is a valid alphabet symbol, and every
character `c` with `should_ignore(c)` true, `decode(u ++ [c] ++ v)` has the same outcome
as `decode(u ++ v)`: the same bytes in the sink and the same success or error. (The
condition on the first character of `v` is not needed.) -/
theorem decode_ignored_character_transparent (V : CodecVariant) (C : Codec)
    (u : List CChar) (a c : CChar) (v : List CChar)
    (hA : V.alphabet_size ≤ 256)
    (ha : ∃ i, i < V.alphabet_size ∧ V.symbol i = .ok (V.normalized_symbol a))
    (hc : V.should_ignore c = true) :
    stream_codec.decode V C ((u ++ [a]) ++ c :: v) = stream_codec.decode V C ((u ++ [a]) ++ v)
      := by
  have han : is_stop_character (table_at (make_lookup_table V) a) = false := by
    rw [table_at_make]
    exact (index_of_valid V _ hA ha).2
  rcases scan_ignored_insert V C (make_lookup_table V) c hc v (u ++ [a])
      (List.replicate C.encoded_block_size 0) eof_idx 0 [] with
    h | ⟨f, r1, r2, I, K, B, O, h1, h2⟩ | ⟨x, t, pre, I, B, O, hu, hstop, h3, h4⟩
  · rw [decode_of_scan V C _ _ rfl, decode_of_scan V C (u ++ [a] ++ v) _ rfl, h]
  · rw [decode_of_scan V C _ _ h1, decode_of_scan V C _ _ h2]
  · have ht : ∃ t2, t = t2 ++ [a] := by
      rcases List.eq_nil_or_concat t with h0 | ⟨L, b, hb⟩
      · subst h0
        have hx := List.append_inj_right' hu rfl
        have hxa : a = x := by simpa using hx
        rw [← hxa, han] at hstop
        cases hstop
      · rw [List.concat_eq_append] at hb
        subst hb
        have hu2 : u ++ [a] = (pre ++ x :: L) ++ [b] := by simpa using hu
        have hab := List.append_inj_right' hu2 rfl
        have : a = b := by simpa using hab
        exact ⟨L, by rw [this]⟩
    obtain ⟨t2, rfl⟩ := ht
    rw [decode_of_scan V C _ _ h3, decode_of_scan V C _ _ h4]
    dsimp only
    have e1 : (x :: (t2 ++ [a] ++ c :: v)).tail = t2 ++ a :: (c :: v) := by simp
    have e2 : (x :: (t2 ++ [a] ++ v)).tail = t2 ++ a :: v := by simp
    have e3 : ∀ n, decode_finish V C ⟨x :: (t2 ++ [a] ++ c :: v), I,
        table_at (make_lookup_table V) x, B, O, none⟩ n
        = decode_finish V C ⟨x :: (t2 ++ [a] ++ v), I,
        table_at (make_lookup_table V) x, B, O, none⟩ n := fun _ => rfl
    rw [e1, e2, e3 B]
    rw [decode_padding_stops V C (make_lookup_table V) a han (c :: v) v t2 (B + 1)]
    rfl

set_option maxRecDepth 100000 in
/-- The Z85 variant, whose ignored character is the byte `FD`, and the input `Hel`, `FD`,
`lo` satisfy the hypotheses of claim C11. -/
theorem decode_ignored_character_transparent_witness :
    stream_codec.decode base85_z85 (z85 32) ((c_str "He" ++ [char_code 'l']) ++ 253 :: c_str "lo")
      = stream_codec.decode base85_z85 (z85 32) ((c_str "He" ++ [char_code 'l']) ++ c_str "lo") :=
  decode_ignored_character_transparent base85_z85 (z85 32) (c_str "He") (char_code 'l') 253
    (c_str "lo") (by decide) (by decide) (by decide)

/-! ## The scan loop: what it leaves behind -/

/-- Writing slot `n` of an array and taking the first `n + 1` slots. -/
theorem take_set_succ {α : Type} (a : α) : ∀ (l : List α) (n : Nat), n < l.length →
    (l.set n a).take (n + 1) = l.take n ++ [a] := by
  intro l
  induction l with
  | nil => intro n h; simp at h
  | cons b l ih =>
    intro n h
    cases n with
    | zero => simp
    | succ n =>
      simp only [List.set_cons_succ, List.take_succ_cons, List.cons_append]
      rw [ih n (by simpa using h)]

/-- The scan loop over characters that are ignored or are not stop characters, for a
codec whose block decoder does not throw: it consumes them all, the block index counts
the characters that were not ignored modulo the block size, the first slots of the index
array hold the indexes of the incomplete last block, and the scan of a longer input goes
on from this state. -/
theorem scan_pass (V : CodecVariant) (C : Codec) (table : List Nat)
    (hblk : ∀ out idx, (C.decode_block out idx).2 = none) :
    ∀ (u : List CChar),
      (∀ c ∈ u, V.should_ignore c = true ∨ is_stop_character (table_at table c) = false) →
      ∀ (idxs : List Nat) (cur cbi : Nat) (out : List Byte),
        idxs.length = C.encoded_block_size → cbi < C.encoded_block_size →
        ∃ (I : List Nat) (K : Nat) (O : List Byte),
          decode_scan V C table u idxs cur cbi out
              = ⟨[], I, K,
                  (cbi + (u.filter (fun c => !V.should_ignore c)).length)
                    % C.encoded_block_size, O, none⟩
            ∧ I.length = C.encoded_block_size
            ∧ I.take ((cbi + (u.filter (fun c => !V.should_ignore c)).length)
                  % C.encoded_block_size)
                = (idxs.take cbi
                    ++ (u.filter (fun c => !V.should_ignore c)).map (table_at table)).drop
                  (C.encoded_block_size
                    * ((cbi + (u.filter (fun c => !V.should_ignore c)).length)
                        / C.encoded_block_size))
            ∧ (K = cur ∨ is_stop_character K = false)
            ∧ ∀ t, decode_scan V C table (u ++ t) idxs cur cbi out
                = decode_scan V C table t I K
                    ((cbi + (u.filter (fun c => !V.should_ignore c)).length)
                      % C.encoded_block_size) O := by
  intro u
  induction u with
  | nil =>
    intro _ idxs cur cbi out hl hc
    refine ⟨idxs, cur, out, ?_, hl, ?_, Or.inl rfl, ?_⟩
    · simp [decode_scan, Nat.mod_eq_of_lt hc]
    · simp [Nat.mod_eq_of_lt hc, Nat.div_eq_of_lt hc]
    · intro t
      simp [Nat.mod_eq_of_lt hc]
  | cons a u ih =>
    intro hu idxs cur cbi out hl hc
    have hu2 : ∀ c ∈ u, V.should_ignore c = true
        ∨ is_stop_character (table_at table c) = false :=
      fun d hd => hu d (List.mem_cons_of_mem _ hd)
    by_cases hi : V.should_ignore a = true
    · obtain ⟨I, K, O, h1, h2, h3, h4, h5⟩ := ih hu2 idxs cur cbi out hl hc
      have hf : (a :: u).filter (fun c => !V.should_ignore c)
          = u.filter (fun c => !V.should_ignore c) := by
        simp [List.filter_cons, hi]
      rw [hf]
      refine ⟨I, K, O, ?_, h2, h3, h4, ?_⟩
      · rw [decode_scan, if_pos hi]
        exact h1
      · intro t
        rw [List.cons_append, decode_scan, if_pos hi]
        exact h5 t
    · have hs : is_stop_character (table_at table a) = false := by
        rcases hu a (List.mem_cons_self _ _) with h | h
        · exact absurd h hi
        · exact h
      have hf : (a :: u).filter (fun c => !V.should_ignore c)
          = a :: u.filter (fun c => !V.should_ignore c) := by
        simp [List.filter_cons, hi]
      rw [hf]
      simp only [List.length_cons, List.map_cons]
      have hstep : ∀ t, decode_scan V C table (a :: t) idxs cur cbi out
          = if cbi + 1 = C.encoded_block_size then
              decode_scan V C table t (idxs.set cbi (table_at table a)) (table_at table a) 0
                (C.decode_block out (idxs.set cbi (table_at table a))).1
            else
              decode_scan V C table t (idxs.set cbi (table_at table a)) (table_at table a)
                (cbi + 1) out := by
        intro t
        rw [decode_scan]
        simp only [hi, hs, Bool.false_eq_true, if_false, not_le.mpr (hl ▸ hc)]
        by_cases h5 : cbi + 1 = C.encoded_block_size
        · simp only [h5, if_true]
          have h2 := hblk out (idxs.set cbi (table_at table a))
          generalize C.decode_block out (idxs.set cbi (table_at table a)) = r at h2 ⊢
          obtain ⟨r1, r2⟩ := r
          simp only at h2
          subst h2
          rfl
        · simp only [h5, if_false]
      have htake : (idxs.set cbi (table_at table a)).take (cbi + 1)
          = idxs.take cbi ++ [table_at table a] := take_set_succ _ idxs cbi (by omega)
      by_cases h5 : cbi + 1 = C.encoded_block_size
      · obtain ⟨I, K, O, h1, h2, h3, h4, h5b⟩ := ih hu2 (idxs.set cbi (table_at table a))
          (table_at table a) 0 (C.decode_block out (idxs.set cbi (table_at table a))).1
          (by simp [hl]) (by omega)
        have hk : (cbi + ((u.filter (fun c => !V.should_ignore c)).length + 1))
            = C.encoded_block_size + (u.filter (fun c => !V.should_ignore c)).length := by
          omega
        have hmod : (cbi + ((u.filter (fun c => !V.should_ignore c)).length + 1))
              % C.encoded_block_size
            = (0 + (u.filter (fun c => !V.should_ignore c)).length)
              % C.encoded_block_size := by
          rw [hk, Nat.add_mod_left, Nat.zero_add]
        have hdiv : (cbi + ((u.filter (fun c => !V.should_ignore c)).length + 1))
              / C.encoded_block_size
            = (0 + (u.filter (fun c => !V.should_ignore c)).length)
              / C.encoded_block_size + 1 := by
          rw [hk, Nat.add_div_left _ (by omega), Nat.zero_add]
        rw [hmod, hdiv]
        refine ⟨I, K, O, ?_, h2, ?_, Or.inr ?_, ?_⟩
        · rw [hstep, if_pos h5]
          exact h1
        · rw [h3]
          simp only [List.take_zero, List.nil_append, Nat.mul_add, Nat.mul_one]
          have hA : idxs.take cbi ++ table_at table a
                :: (u.filter (fun c => !V.should_ignore c)).map (table_at table)
              = (idxs.take cbi ++ [table_at table a])
                ++ (u.filter (fun c => !V.should_ignore c)).map (table_at table) := by
            simp
          have hlen : (idxs.take cbi ++ [table_at table a]).length = C.encoded_block_size := by
            simp [List.length_take]
            omega
          rw [hA, Nat.add_comm (C.encoded_block_size * _) C.encoded_block_size,
            ← List.drop_drop, ← hlen, List.drop_left]
        · rcases h4 with h | h
          · rw [h]
            exact hs
          · exact h
        · intro t
          rw [List.cons_append, hstep, if_pos h5]
          exact h5b t
      · obtain ⟨I, K, O, h1, h2, h3, h4, h5b⟩ := ih hu2 (idxs.set cbi (table_at table a))
          (table_at table a) (cbi + 1) out (by simp [hl]) (by omega)
        have hk : (cbi + ((u.filter (fun c => !V.should_ignore c)).length + 1))
            = cbi + 1 + (u.filter (fun c => !V.should_ignore c)).length := by
          omega
        rw [hk]
        refine ⟨I, K, O, ?_, h2, ?_, Or.inr ?_, ?_⟩
        · rw [hstep, if_neg h5]
          exact h1
        · rw [h3, htake]
          simp
        · rcases h4 with h | h
          · rw [h]
            exact hs
          · exact h
        · intro t
          rw [List.cons_append, hstep, if_neg h5]
          exact h5b t

/-! ## Padding -/

/-- An index classified as padding is `padding_idx`: a stop character that is neither
invalid nor EOF. -/
theorem is_padding_true (V : CodecVariant) (i : Nat) (h : is_padding V i = true) :
    i = padding_idx ∧ is_stop_character i = true ∧ is_invalid i = false
      ∧ is_eof i = false := by
  have hi : i = padding_idx := by
    unfold is_padding at h
    split at h
    · simpa using h
    · cases h
  subst hi
  exact ⟨rfl, by decide, by decide, by decide⟩

/-- The scan loop stops at a character that is not ignored and is a stop character. -/
theorem scan_stop (V : CodecVariant) (C : Codec) (table : List Nat) (x : CChar)
    (rest : List CChar) (idxs : List Nat) (cur cbi : Nat) (out : List Byte)
    (hx : V.should_ignore x = false) (hs : is_stop_character (table_at table x) = true) :
    decode_scan V C table (x :: rest) idxs cur cbi out
      = ⟨x :: rest, idxs, table_at table x, cbi, out, none⟩ := by
  rw [decode_scan]
  simp only [hx, hs, Bool.false_eq_true, if_false, if_true]

/-- Claim C12. For every variant and codec (whose block decoder does not throw) and
every input in which the scan reaches a padding character while zero indexes are pending
(after ignored characters and a whole number of complete blocks of valid characters),
`decode` fails with `padding_error`. A padding character is one that is not ignored and
that the engine classifies as padding (`is_padding` of its table entry). -/
theorem decode_leading_padding_rejected (V : CodecVariant) (C : Codec)
    (u rest : List CChar) (x : CChar)
    (hE : 1 ≤ C.encoded_block_size)
    (hblk : ∀ out idx, (C.decode_block out idx).2 = none)
    (hu : ∀ c ∈ u, V.should_ignore c = true
      ∨ is_stop_character (table_at (make_lookup_table V) c) = false)
    (hcount : (u.filter (fun c => !V.should_ignore c)).length % C.encoded_block_size = 0)
    (hx : V.should_ignore x = false)
    (hpad : is_padding V (table_at (make_lookup_table V) x) = true) :
    (stream_codec.decode V C (u ++ x :: rest)).failure = some .padding_error := by
  obtain ⟨_, hstop, hinv, _⟩ := is_padding_true V _ hpad
  obtain ⟨I, K, O, _, _, _, _, h5⟩ := scan_pass V C (make_lookup_table V) hblk u hu
    (List.replicate C.encoded_block_size 0) eof_idx 0 [] (by simp) (by omega)
  have hscan := h5 (x :: rest)
  rw [Nat.zero_add, hcount, scan_stop V C _ x rest I K 0 O hx hstop] at hscan
  rw [decode_of_scan V C _ _ hscan]
  dsimp only
  rw [hinv, hpad, if_neg Bool.false_ne_true, if_pos rfl, if_pos rfl]

set_option maxRecDepth 100000 in
/-- The padding variant of Z85, whose padding character is `~`, and the input `Hello~`
satisfy the hypotheses of claim C12. -/
theorem decode_leading_padding_rejected_witness :
    (stream_codec.decode base85_z85_padded (base85 32 base85_z85_padded)
        (c_str "Hello" ++ char_code '~' :: c_str "~~~~")).failure = some .padding_error :=
  decode_leading_padding_rejected base85_z85_padded (base85 32 base85_z85_padded)
    (c_str "Hello") (c_str "~~~~") (char_code '~') (by decide)
    (fun out idx => (block_decode_length out idx).2) (by decide) (by decide) (by decide)
    (by decide)

/-- The padding loop over padding characters followed by EOF or the end of the input: it
counts them, and throws when the count passes the block size. -/
theorem decode_padding_run (V : CodecVariant) (C : Codec) (table : List Nat)
    (term : List CChar)
    (hterm : term = [] ∨ ∃ e rest, term = e :: rest ∧ is_eof (table_at table e) = true) :
    ∀ (ps : List CChar) (n : Nat), (∀ c ∈ ps, is_padding V (table_at table c) = true) →
      n ≤ C.encoded_block_size →
      decode_padding V C table (ps ++ term) n
        = if n + ps.length ≤ C.encoded_block_size then .ok (n + ps.length)
          else .error .padding_error := by
  intro ps
  induction ps with
  | nil =>
    intro n _ hn
    simp only [List.nil_append, List.length_nil, Nat.add_zero, if_pos hn]
    rcases hterm with h | ⟨e, rest, h, he⟩
    · rw [h, decode_padding]
    · rw [h, decode_padding]
      simp only [he, if_true]
  | cons x ps ih =>
    intro n hps hn
    have hx := hps x (List.mem_cons_self _ _)
    obtain ⟨_, _, _, hxe⟩ := is_padding_true V _ hx
    rw [List.cons_append, decode_padding]
    simp only [hxe, hx, Bool.false_eq_true, if_false, Bool.not_true, List.length_cons]
    by_cases hgt : n + 1 > C.encoded_block_size
    · rw [if_pos hgt, if_neg (by omega)]
    · rw [if_neg hgt, ih (n + 1) (fun c hc => hps c (List.mem_cons_of_mem _ hc)) (by omega)]
      have : n + 1 + ps.length = n + (ps.length + 1) := by omega
      rw [this]

/-- Claim C17. For every variant and codec (whose block decoder does not throw) and every
input in which the scan ends with `p` pending indexes (`1 ≤ p < encoded_block_size`)
followed by `q ≥ 0` padding characters and then EOF or the end of the input: the scan
leaves `p` as block index and the `p` pending indexes in the first `p` slots of the index
array; if the variant requires padding or `q ≥ 1`, `decode` fails with `padding_error`
unless `p + q = encoded_block_size`; when the check passes or does not apply, the result
is that of the tail decoder called with the sink, that index array and `p`. -/
theorem decode_final_padding_validation (V : CodecVariant) (C : Codec)
    (u pads term : List CChar) (p : Nat)
    (hblk : ∀ out idx, (C.decode_block out idx).2 = none)
    (hu : ∀ c ∈ u, V.should_ignore c = true
      ∨ is_stop_character (table_at (make_lookup_table V) c) = false)
    (hp1 : 1 ≤ p) (hpE : p < C.encoded_block_size)
    (hcount : (u.filter (fun c => !V.should_ignore c)).length % C.encoded_block_size = p)
    (hpads : ∀ c ∈ pads, is_padding V (table_at (make_lookup_table V) c) = true)
    (hfirst : ∀ c, pads.head? = some c → V.should_ignore c = false)
    (hterm : term = [] ∨ ∃ e rest, term = e :: rest
      ∧ is_eof (table_at (make_lookup_table V) e) = true
      ∧ (pads = [] → V.should_ignore e = false)) :
    ∃ (I : List Nat) (K : Nat) (O : List Byte),
      decode_scan V C (make_lookup_table V) u (List.replicate C.encoded_block_size 0)
          eof_idx 0 [] = ⟨[], I, K, p, O, none⟩
        ∧ I.take p
            = ((u.filter (fun c => !V.should_ignore c)).map
                (table_at (make_lookup_table V))).drop
              (C.encoded_block_size
                * ((u.filter (fun c => !V.should_ignore c)).length / C.encoded_block_size))
        ∧ ((V.requires_padding = true ∨ 1 ≤ pads.length) →
            p + pads.length ≠ C.encoded_block_size →
            stream_codec.decode V C (u ++ pads ++ term) = ⟨O, some .padding_error⟩)
        ∧ (((V.requires_padding = false ∧ pads = [])
              ∨ p + pads.length = C.encoded_block_size) →
            stream_codec.decode V C (u ++ pads ++ term)
              = ⟨(C.decode_tail O I p).1, (C.decode_tail O I p).2⟩) := by
  obtain ⟨I, K, O, h1, _, h3, h4, h5⟩ := scan_pass V C (make_lookup_table V) hblk u hu
    (List.replicate C.encoded_block_size 0) eof_idx 0 [] (by simp) (by omega)
  rw [Nat.zero_add, hcount] at h1 h3 h5
  simp only [Nat.zero_add, List.take_zero, List.nil_append] at h3
  refine ⟨I, K, O, h1, h3, ?_⟩
  have hp0 : p ≠ 0 := by omega
  have hnE : ¬ (C.encoded_block_size ≤ p) := by omega
  -- the last step on a state with `p` pending indexes
  have hfin : ∀ (src : List CChar) (K2 lbi : Nat), lbi ≠ 0 →
      decode_finish V C ⟨src, I, K2, p, O, none⟩ lbi
        = if (V.requires_padding || is_padding V K2) && lbi != C.encoded_block_size then
            ⟨O, some .padding_error⟩
          else ⟨(C.decode_tail O I p).1, (C.decode_tail O I p).2⟩ := by
    intro src K2 lbi hl
    unfold decode_finish
    simp only [hl, ne_eq, not_false_eq_true, if_true, hnE, if_false]
  rw [List.append_assoc]
  -- an index that is EOF or valid is neither invalid nor padding
  have hK : ∀ K2, (K2 = eof_idx ∨ is_stop_character K2 = false) →
      is_invalid K2 = false ∧ is_padding V K2 = false := by
    intro K2 h
    have hlt : K2 = eof_idx ∨ K2 < 256 := by
      rcases h with h | h
      · exact Or.inl h
      · exact Or.inr (lt_of_not_stop _ h)
    obtain ⟨sp, si, se⟩ := sentinel_values
    have n1 : K2 ≠ invalid_idx := by omega
    have n2 : K2 ≠ padding_idx := by omega
    constructor
    · simp [is_invalid, n1]
    · unfold is_padding
      split <;> simp [n2]
  cases pads with
  | nil =>
    simp only [List.nil_append, List.length_nil, Nat.add_zero]
    have hstate : ∃ src K2, decode_scan V C (make_lookup_table V) (u ++ term)
          (List.replicate C.encoded_block_size 0) eof_idx 0 [] = ⟨src, I, K2, p, O, none⟩
        ∧ is_invalid K2 = false ∧ is_padding V K2 = false := by
      rcases hterm with ht | ⟨e, rest, ht, he, hi⟩
      · subst ht
        refine ⟨[], K, ?_, hK K h4⟩
        rw [List.append_nil]
        exact h1
      · subst ht
        have hee : table_at (make_lookup_table V) e = eof_idx := by
          unfold is_eof at he
          exact of_decide_eq_true he
        have hes : is_stop_character (table_at (make_lookup_table V) e) = true := by
          rw [hee]
          decide
        refine ⟨e :: rest, table_at (make_lookup_table V) e, ?_, hK _ (Or.inl hee)⟩
        rw [h5, scan_stop V C _ e rest I K p O (hi rfl) hes]
    obtain ⟨src, K2, hsc, hinv, hpd⟩ := hstate
    have hdec := decode_of_scan V C (u ++ term) _ hsc
    dsimp only at hdec
    rw [hinv, hpd, if_neg Bool.false_ne_true, if_neg Bool.false_ne_true, hfin src K2 p hp0,
      hpd] at hdec
    rw [hdec]
    constructor
    · intro hreq hne
      rcases hreq with hr | hr
      · simp [hr, hne]
      · simp at hr
    · intro h
      rcases h with ⟨hr, _⟩ | h
      · simp [hr]
      · omega
  | cons x ps =>
    have hx := hpads x (List.mem_cons_self _ _)
    obtain ⟨hxp, hxs, hxi, _⟩ := is_padding_true V _ hx
    have hsc : decode_scan V C (make_lookup_table V) (u ++ (x :: ps ++ term))
        (List.replicate C.encoded_block_size 0) eof_idx 0 []
        = ⟨x :: (ps ++ term), I, table_at (make_lookup_table V) x, p, O, none⟩ := by
      rw [h5, List.cons_append, scan_stop V C _ x (ps ++ term) I K p O (hfirst x rfl) hxs]
    have hterm2 : term = [] ∨ ∃ e rest, term = e :: rest
        ∧ is_eof (table_at (make_lookup_table V) e) = true := by
      rcases hterm with h | ⟨e, rest, h, he, _⟩
      · exact Or.inl h
      · exact Or.inr ⟨e, rest, h, he⟩
    have hrun := decode_padding_run V C (make_lookup_table V) term hterm2 ps (p + 1)
      (fun c hc => hpads c (List.mem_cons_of_mem _ hc)) (by omega)
    have hdec := decode_of_scan V C (u ++ (x :: ps ++ term)) _ hsc
    dsimp only at hdec
    rw [hxi, hx, if_neg Bool.false_ne_true, if_pos rfl, if_neg hp0, List.tail_cons, hrun]
      at hdec
    rw [hdec]
    simp only [List.length_cons]
    have hq : p + 1 + ps.length = p + (ps.length + 1) := by omega
    constructor
    · intro _ hne
      by_cases hle : p + 1 + ps.length ≤ C.encoded_block_size
      · rw [if_pos hle]
        dsimp only
        rw [hfin _ _ _ (by omega), hx]
        have : (p + 1 + ps.length != C.encoded_block_size) = true := by
          simp only [bne_iff_ne, ne_eq]
          omega
        simp [this]
      · rw [if_neg hle]
    · intro h
      have hEq : p + (ps.length + 1) = C.encoded_block_size := by
        rcases h with ⟨_, h⟩ | h
        · cases h
        · exact h
      rw [if_pos (by omega)]
      dsimp only
      rw [hfin _ _ _ (by omega), hx]
      have : (p + 1 + ps.length != C.encoded_block_size) = false := by
        simp only [bne_eq_false_iff_eq]
        omega
      simp [this]

set_option maxRecDepth 100000 in
/-- The padding variant of Z85 and the input `Hell~` (`p = 4`, `q = 1`) satisfy the
hypotheses of claim C17: the padding check passes and the result is that of the tail
decoder on four pending indexes. -/
theorem decode_final_padding_validation_witness :
    ∃ (I : List Nat) (O : List Byte),
      stream_codec.decode base85_z85_padded (base85 32 base85_z85_padded)
          (c_str "Hell" ++ c_str "~" ++ [])
        = ⟨((base85 32 base85_z85_padded).decode_tail O I 4).1,
            ((base85 32 base85_z85_padded).decode_tail O I 4).2⟩ := by
  obtain ⟨I, K, O, _, _, _, h⟩ := decode_final_padding_validation base85_z85_padded
    (base85 32 base85_z85_padded) (c_str "Hell") (c_str "~") [] 4
    (fun out idx => (block_decode_length out idx).2) (by decide) (by decide) (by decide)
    (by decide) (by decide) (by decide) (Or.inl rfl)
  exact ⟨I, O, h (Or.inr (by decide))⟩

/-! ## The encoder: sink and chunks -/

/-- The block encoder appends to the sink what it puts into an empty sink, and reads only
the first four bytes. -/
theorem block_sink (V : CodecVariant) (encoded : List CChar) (b0 b1 b2 b3 : Byte)
    (rest : List Byte) :
    base85_block_encoder.block V encoded (b0 :: b1 :: b2 :: b3 :: rest)
      = (fun s => encoded ++ s) <$> base85_block_encoder.block V [] [b0, b1, b2, b3] := by
  rw [block_spec, block_spec]
  cases List.mapM V.symbol _ <;> simp [Functor.map, Except.map]

/-- The tail encoder appends to the sink what it puts into an empty sink. -/
theorem tail_sink (V : CodecVariant) (encoded : List CChar) (src : List Byte) (n : Nat) :
    base85_block_encoder.tail V encoded src n
      = (fun s => encoded ++ s) <$> base85_block_encoder.tail V [] src n := by
  simp only [base85_block_encoder.tail, bind, Except.bind, pure, Except.pure, Functor.map,
    Except.map, padder_eq, throw, throwThe, MonadExceptOf.throw, List.nil_append]
  cases byte_at src 0 with
  | error e => rfl
  | ok v0 =>
    simp only
    cases V.symbol (v0 <<< 24 / (85 * 85 * 85 * 85) % 85) with
    | error e => rfl
    | ok s0 =>
      simp only
      cases V.symbol (v0 <<< 24 / (85 * 85 * 85) % 85) with
      | error e => rfl
      | ok s1 =>
        simp only
        by_cases h2 : n = 2
        · simp [h2]
        · simp only [h2, if_false]
          cases byte_at src 1 with
          | error e => rfl
          | ok v1 =>
            simp only
            cases V.symbol ((v0 <<< 24 ||| v1 <<< 16) / (85 * 85) % 85) with
            | error e => rfl
            | ok s2 =>
              simp only
              by_cases h3 : n = 3
              · simp [h3]
              · simp only [h3, if_false]
                cases byte_at src 2 with
                | error e => rfl
                | ok v2 =>
                  simp only
                  cases V.symbol ((v0 <<< 24 ||| v1 <<< 16 ||| v2 <<< 8) / 85 % 85) with
                  | error e => rfl
                  | ok s3 =>
                    simp only
                    by_cases h4 : n = 4
                    · simp [h4]
                    · simp only [h4, if_false]

/-- The block loop of the radix-85 encoder appends to the sink what it puts into an empty
sink. -/
theorem encode_blocks_sink (w : Nat) (V : CodecVariant) :
    ∀ (fuel : Nat) (src : List Byte) (encoded : List CChar),
      encode_blocks (base85 w V) fuel encoded src
        = (fun r => (encoded ++ r.1, r.2)) <$> encode_blocks (base85 w V) fuel [] src := by
  intro fuel
  induction fuel with
  | zero =>
    intro src encoded
    simp only [encode_blocks]
    split <;> simp [Functor.map, Except.map]
  | succ fuel ih =>
    intro src encoded
    by_cases h4 : (base85 w V).binary_block_size ≤ src.length
    · match src, h4 with
      | b0 :: b1 :: b2 :: b3 :: rest, h4 =>
        rw [encode_blocks, encode_blocks, if_pos h4, if_pos h4]
        have e1 : (base85 w V).encode_block encoded (b0 :: b1 :: b2 :: b3 :: rest)
            = (fun s => encoded ++ s) <$> base85_block_encoder.block V [] [b0, b1, b2, b3] :=
          block_sink V encoded b0 b1 b2 b3 rest
        have e2 : (base85 w V).encode_block [] (b0 :: b1 :: b2 :: b3 :: rest)
            = (fun s => [] ++ s) <$> base85_block_encoder.block V [] [b0, b1, b2, b3] :=
          block_sink V [] b0 b1 b2 b3 rest
        rw [e1, e2]
        cases base85_block_encoder.block V [] [b0, b1, b2, b3] with
        | error e => rfl
        | ok s =>
          simp only [Functor.map, Except.map, List.nil_append]
          rw [ih _ (encoded ++ s), ih _ s]
          cases encode_blocks (base85 w V) fuel [] _ with
          | error e => rfl
          | ok r => simp [Functor.map, Except.map]
      | [], h4 => simp [base85] at h4
      | [_], h4 => simp [base85] at h4
      | [_, _], h4 => simp [base85] at h4
      | [_, _, _], h4 => simp [base85] at h4
    · rw [encode_blocks, encode_blocks, if_neg h4, if_neg h4]
      simp [Functor.map, Except.map]

/-- The block loop of the radix-85 encoder does not depend on the bound on its number of
iterations, once the bound is at least the number of complete blocks. -/
theorem encode_blocks_fuel (w : Nat) (V : CodecVariant) :
    ∀ (fuel1 fuel2 : Nat) (src : List Byte) (encoded : List CChar),
      src.length / 4 ≤ fuel1 → src.length / 4 ≤ fuel2 →
      encode_blocks (base85 w V) fuel1 encoded src
        = encode_blocks (base85 w V) fuel2 encoded src := by
  intro fuel1
  induction fuel1 with
  | zero =>
    intro fuel2 src encoded h1 _
    have h4 : ¬ ((base85 w V).binary_block_size ≤ src.length) := by
      simp only [base85]
      omega
    cases fuel2 <;> simp [encode_blocks, h4]
  | succ fuel1 ih =>
    intro fuel2 src encoded h1 h2
    by_cases h4 : (base85 w V).binary_block_size ≤ src.length
    · have h4b : 4 ≤ src.length := h4
      match fuel2, h2 with
      | fuel2 + 1, h2 =>
        rw [encode_blocks, encode_blocks, if_pos h4, if_pos h4]
        cases (base85 w V).encode_block encoded src with
        | error e => rfl
        | ok s =>
          simp only
          have hd : (src.drop (base85 w V).binary_block_size).length = src.length - 4 := by
            simp [base85]
          exact ih fuel2 _ _ (by rw [hd]; omega) (by rw [hd]; omega)
      | 0, h2 => omega
    · cases fuel2 <;> simp [encode_blocks, h4]

/-- The radix-85 encoder appends to the sink what it puts into an empty sink. -/
theorem encode_sink (w : Nat) (V : CodecVariant) (encoded : List CChar) (x : List Byte) :
    stream_codec.encode (base85 w V) encoded x
      = (fun s => encoded ++ s) <$> stream_codec.encode (base85 w V) [] x := by
  unfold stream_codec.encode
  rw [encode_blocks_sink w V x.length x encoded]
  cases encode_blocks (base85 w V) x.length [] x with
  | error e => rfl
  | ok r =>
    obtain ⟨e, r⟩ := r
    simp only [Functor.map, Except.map, List.nil_append]
    by_cases h0 : 0 < r.length
    · simp only [h0, if_true]
      by_cases ha : r.length = 0 ∨ (base85 w V).binary_block_size ≤ r.length
      · simp only [ha, if_true]
      · simp only [ha, if_false]
        cases (base85 w V).num_encoded_tail_symbols (r.length % 256) with
        | error f => rfl
        | ok n =>
          simp only
          have e1 : (base85 w V).encode_tail (encoded ++ e) r n
              = (fun s => (encoded ++ e) ++ s) <$> base85_block_encoder.tail V [] r n :=
            tail_sink V (encoded ++ e) r n
          have e2 : (base85 w V).encode_tail e r n
              = (fun s => e ++ s) <$> base85_block_encoder.tail V [] r n :=
            tail_sink V e r n
          rw [e1, e2]
          cases base85_block_encoder.tail V [] r n <;> simp [Functor.map, Except.map]
    · simp only [h0, if_false]

/-- Encoding an input that starts with a complete block: the block, then the rest. -/
theorem encode_cons4 (w : Nat) (V : CodecVariant) (b0 b1 b2 b3 : Byte) (rest : List Byte) :
    stream_codec.encode (base85 w V) [] (b0 :: b1 :: b2 :: b3 :: rest)
      = (base85_block_encoder.block V [] [b0, b1, b2, b3] >>= fun s =>
          stream_codec.encode (base85 w V) [] rest >>= fun r => pure (s ++ r)) := by
  have hs := encode_sink w V
  have h4 : (base85 w V).binary_block_size ≤ (b0 :: b1 :: b2 :: b3 :: rest).length := by
    simp [base85]
  have hb : (base85 w V).encode_block [] (b0 :: b1 :: b2 :: b3 :: rest)
      = (fun s => [] ++ s) <$> base85_block_encoder.block V [] [b0, b1, b2, b3] :=
    block_sink V [] b0 b1 b2 b3 rest
  have hdrop : (b0 :: b1 :: b2 :: b3 :: rest).drop (base85 w V).binary_block_size = rest := rfl
  have hlen : (b0 :: b1 :: b2 :: b3 :: rest).length = rest.length + 3 + 1 := by simp
  -- the encoder on `rest`, started with the sink `s`
  have hrest : ∀ s, stream_codec.encode (base85 w V) s rest
      = match encode_blocks (base85 w V) (rest.length + 3) s rest with
        | .error f => .error f
        | .ok (encoded, src) =>
            if 0 < src.length then
              if src.length = 0 ∨ (base85 w V).binary_block_size ≤ src.length then
                .error .aborted
              else
                match (base85 w V).num_encoded_tail_symbols (src.length % 256) with
                | .error f => .error f
                | .ok num_symbols => (base85 w V).encode_tail encoded src num_symbols
            else .ok encoded := by
    intro s
    rw [encode_blocks_fuel w V (rest.length + 3) rest.length rest s
      (by have := Nat.div_le_self rest.length 4; omega) (Nat.div_le_self _ _)]
    rfl
  conv_lhs => unfold stream_codec.encode
  rw [hlen, encode_blocks, if_pos h4, hb, hdrop]
  cases hblk : base85_block_encoder.block V [] [b0, b1, b2, b3] with
  | error e => rfl
  | ok s =>
    simp only [Functor.map, Except.map, List.nil_append, bind, Except.bind]
    refine (hrest s).symm.trans ?_
    rw [hs s rest]
    cases stream_codec.encode (base85 w V) [] rest <;> rfl

/-- Claim C19. For every byte sequence, the radix-85 `encode` is the block encoding of
each consecutive four-byte chunk, in input order, followed by exactly one tail encoding of
the remaining one to three bytes when the length is not a multiple of 4, and by nothing
otherwise; and for all `x`, `y` with the length of `x` a multiple of 4,
`encode(x ++ y) = encode(x) ++ encode(y)`. (Where `symbol` fails, so do both sides.) -/
theorem base85_encode_chunking (w : Nat) (V : CodecVariant) :
    stream_codec.encode (base85 w V) [] [] = .ok []
      ∧ (∀ (b0 b1 b2 b3 : Byte) (rest : List Byte),
          stream_codec.encode (base85 w V) [] (b0 :: b1 :: b2 :: b3 :: rest)
            = (base85_block_encoder.block V [] [b0, b1, b2, b3] >>= fun s =>
                stream_codec.encode (base85 w V) [] rest >>= fun r => pure (s ++ r)))
      ∧ (∀ x : List Byte, 1 ≤ x.length → x.length ≤ 3 →
          stream_codec.encode (base85 w V) [] x
            = base85_block_encoder.tail V [] x (x.length + 1))
      ∧ (∀ x y : List Byte, x.length % 4 = 0 →
          stream_codec.encode (base85 w V) [] (x ++ y)
            = (stream_codec.encode (base85 w V) [] x >>= fun sx =>
                stream_codec.encode (base85 w V) [] y >>= fun sy => pure (sx ++ sy))) := by
  have h0 : stream_codec.encode (base85 w V) [] [] = .ok [] := by
    simp [stream_codec.encode, encode_blocks, base85]
  refine ⟨h0, encode_cons4 w V, ?_, ?_⟩
  · intro x h1 h3
    match x, h1, h3 with
    | [a], _, _ =>
      simp [stream_codec.encode, encode_blocks, base85, base85.num_encoded_tail_symbols,
        base85.encode_tail]
    | [a, b], _, _ =>
      simp [stream_codec.encode, encode_blocks, base85, base85.num_encoded_tail_symbols,
        base85.encode_tail]
    | [a, b, c], _, _ =>
      simp [stream_codec.encode, encode_blocks, base85, base85.num_encoded_tail_symbols,
        base85.encode_tail]
  · have main : ∀ (n : Nat) (x y : List Byte), x.length = 4 * n →
        stream_codec.encode (base85 w V) [] (x ++ y)
          = (stream_codec.encode (base85 w V) [] x >>= fun sx =>
              stream_codec.encode (base85 w V) [] y >>= fun sy => pure (sx ++ sy)) := by
      intro n
      induction n with
      | zero =>
        intro x y hx
        have hx0 : x = [] := List.length_eq_zero.mp (by omega)
        subst hx0
        rw [h0, List.nil_append]
        cases stream_codec.encode (base85 w V) [] y <;> rfl
      | succ n ih =>
        intro x y hx
        match x, hx with
        | b0 :: b1 :: b2 :: b3 :: rest, hx =>
          have hr : rest.length = 4 * n := by
            simp only [List.length_cons] at hx
            omega
          simp only [List.cons_append]
          rw [encode_cons4, encode_cons4, ih rest y hr]
          cases base85_block_encoder.block V [] [b0, b1, b2, b3] with
          | error e => rfl
          | ok s =>
            simp only [bind, Except.bind]
            cases stream_codec.encode (base85 w V) [] rest with
            | error e => rfl
            | ok r =>
              simp only
              cases stream_codec.encode (base85 w V) [] y with
              | error e => rfl
              | ok t => simp [pure, Except.pure]
    intro x y hx
    exact main (x.length / 4) x y (by omega)

/-! ## Blocks decoded before an error -/

/-- The block decoder appends to the sink what it puts into an empty sink, and reads only
the first five indexes. -/
theorem block_decode_sink (decoded : List Byte) (i0 i1 i2 i3 i4 : Nat) (rest : List Nat) :
    (base85_block_decoder.block decoded (i0 :: i1 :: i2 :: i3 :: i4 :: rest)).1
      = decoded ++ (base85_block_decoder.block [] [i0, i1, i2, i3, i4]).1 := by
  simp [base85_block_decoder.block, idx_at]

/-- Fewer than five indexes contain no complete block. -/
theorem decode_complete_blocks_short (l : List Nat) (h : l.length < 5) :
    decode_complete_blocks l = [] := by
  match l, h with
  | [], _ => rfl
  | [_], _ => rfl
  | [_, _], _ => rfl
  | [_, _, _], _ => rfl
  | [_, _, _, _], _ => rfl
  | _ :: _ :: _ :: _ :: _ :: _, h => simp only [List.length_cons] at h; omega

/-- Four bytes come out of every complete block. -/
theorem decode_complete_blocks_length : ∀ (n : Nat) (l : List Nat), l.length / 5 = n →
    (decode_complete_blocks l).length = 4 * n := by
  intro n
  induction n with
  | zero =>
    intro l h
    rw [decode_complete_blocks_short l (by omega)]
    rfl
  | succ n ih =>
    intro l h
    match l, h with
    | i0 :: i1 :: i2 :: i3 :: i4 :: rest, h =>
      have hr : rest.length / 5 = n := by
        simp only [List.length_cons] at h
        omega
      rw [decode_complete_blocks, List.length_append, ih rest hr,
        (block_decode_length [] _).1]
      simp
      omega
    | [], h => simp only [List.length_cons, List.length_nil] at h; omega
    | [_], h => simp only [List.length_cons, List.length_nil] at h; omega
    | [_, _], h => simp only [List.length_cons, List.length_nil] at h; omega
    | [_, _, _], h => simp only [List.length_cons, List.length_nil] at h; omega
    | [_, _, _, _], h => simp only [List.length_cons, List.length_nil] at h; omega

/-- Fewer valid characters than are missing for a complete block: the scan loop of the
radix-85 codec stores their indexes and writes nothing. -/
theorem scan_short (w : Nat) (V V2 : CodecVariant) (table : List Nat) :
    ∀ (s : List CChar),
      (∀ c ∈ s, V.should_ignore c = false ∧ is_stop_character (table_at table c) = false) →
      ∀ (idxs : List Nat) (cur cbi : Nat) (out : List Byte),
        idxs.length = 5 → cbi + s.length < 5 →
        ∃ I K, I.length = 5 ∧ ∀ t,
          decode_scan V (base85 w V2) table (s ++ t) idxs cur cbi out
            = decode_scan V (base85 w V2) table t I K (cbi + s.length) out := by
  intro s
  induction s with
  | nil =>
    intro _ idxs cur cbi out hl _
    exact ⟨idxs, cur, hl, fun t => rfl⟩
  | cons c s ih =>
    intro hs idxs cur cbi out hl hc
    have hc1 := hs c (List.mem_cons_self _ _)
    simp only [List.length_cons] at hc
    obtain ⟨I, K, h1, h2⟩ := ih (fun d hd => hs d (List.mem_cons_of_mem _ hd))
      (idxs.set cbi (table_at table c)) (table_at table c) (cbi + 1) out (by simp [hl])
      (by omega)
    refine ⟨I, K, h1, ?_⟩
    intro t
    rw [List.cons_append, scan_step_base85 w V V2 table c _ idxs cur cbi out hc1.1 hc1.2
      (by omega), if_neg (by omega), h2 t]
    simp only [List.length_cons]
    have : cbi + 1 + s.length = cbi + (s.length + 1) := by omega
    rw [this]

/-- On valid characters, starting at a block boundary, the scan loop of the radix-85 codec
appends the bytes of the complete blocks and keeps the rest pending. -/
theorem scan_blocks (w : Nat) (V V2 : CodecVariant) (table : List Nat) :
    ∀ (n : Nat) (ws : List CChar), ws.length / 5 = n →
      (∀ c ∈ ws, V.should_ignore c = false ∧ is_stop_character (table_at table c) = false) →
      ∀ (idxs : List Nat) (cur : Nat) (out : List Byte), idxs.length = 5 →
        ∃ I K, I.length = 5 ∧ ∀ t,
          decode_scan V (base85 w V2) table (ws ++ t) idxs cur 0 out
            = decode_scan V (base85 w V2) table t I K (ws.length % 5)
                (out ++ decode_complete_blocks (ws.map (table_at table))) := by
  intro n
  induction n with
  | zero =>
    intro ws hn hws idxs cur out hl
    have hlt : ws.length < 5 := by omega
    obtain ⟨I, K, h1, h2⟩ := scan_short w V V2 table ws hws idxs cur 0 out hl (by omega)
    refine ⟨I, K, h1, ?_⟩
    intro t
    rw [h2 t, decode_complete_blocks_short _ (by simpa using hlt), List.append_nil,
      Nat.zero_add, Nat.mod_eq_of_lt hlt]
  | succ n ih =>
    intro ws hn hws idxs cur out hl
    match ws, hn, hws with
    | c0 :: c1 :: c2 :: c3 :: c4 :: ws2, hn, hws =>
      have hr : ws2.length / 5 = n := by
        simp only [List.length_cons] at hn
        omega
      have g0 := hws c0 (by simp)
      have g1 := hws c1 (by simp)
      have g2 := hws c2 (by simp)
      have g3 := hws c3 (by simp)
      have g4 := hws c4 (by simp)
      obtain ⟨a0, a1, a2, a3, a4, rfl⟩ := list_length_five idxs hl
      obtain ⟨I, K, h1, h2⟩ := ih ws2 hr (fun d hd => hws d (by simp [hd]))
        [table_at table c0, table_at table c1, table_at table c2, table_at table c3,
          table_at table c4] (table_at table c4)
        (out ++ (base85_block_decoder.block []
          [table_at table c0, table_at table c1, table_at table c2, table_at table c3,
            table_at table c4]).1) rfl
      refine ⟨I, K, h1, ?_⟩
      intro t
      simp only [List.cons_append]
      rw [scan_step_base85 w _ _ _ c0 _ _ _ _ _ g0.1 g0.2 (by simp), if_neg (by omega),
        scan_step_base85 w _ _ _ c1 _ _ _ _ _ g1.1 g1.2 (by simp), if_neg (by omega),
        scan_step_base85 w _ _ _ c2 _ _ _ _ _ g2.1 g2.2 (by simp), if_neg (by omega),
        scan_step_base85 w _ _ _ c3 _ _ _ _ _ g3.1 g3.2 (by simp), if_neg (by omega),
        scan_step_base85 w _ _ _ c4 _ _ _ _ _ g4.1 g4.2 (by simp), if_pos (by omega)]
      simp only [List.set_cons_zero, List.set_cons_succ]
      rw [block_decode_sink, h2 t]
      simp only [List.map_cons, decode_complete_blocks, List.length_cons, List.append_assoc]
      have : (ws2.length + 1 + 1 + 1 + 1 + 1) % 5 = ws2.length % 5 := by omega
      rw [this]
    | [], hn, _ => simp only [List.length_cons, List.length_nil] at hn; omega
    | [_], hn, _ => simp only [List.length_cons, List.length_nil] at hn; omega
    | [_, _], hn, _ => simp only [List.length_cons, List.length_nil] at hn; omega
    | [_, _, _], hn, _ => simp only [List.length_cons, List.length_nil] at hn; omega
    | [_, _, _, _], hn, _ => simp only [List.length_cons, List.length_nil] at hn; omega

/-- With in-bounds table reads: for every Z85 input `ws ++ [x] ++ rest`, where `ws`
consists of `k` valid alphabet symbols, `x` is not ignored and the table entry of `x` is
`invalid_idx`, `decode` fails with `symbol_error` carrying `x`, and the sink then holds
exactly the `4 * floor(k / 5)` bytes obtained by block-decoding the first `floor(k / 5)`
complete five-symbol blocks of `ws`: nothing is written for the `k mod 5` pending symbols
or for `rest`. -/
theorem z85_blocks_committed_in_bounds (w : Nat) (ws rest : List CChar)
    (x : CChar)
    (hws : ∀ c ∈ ws, c ∈ base85_z85_alphabet.map char_code)
    (hx : base85_z85.should_ignore x = false)
    (hxi : is_invalid (table_at (make_lookup_table base85_z85) x) = true) :
    stream_codec.decode base85_z85 (z85 w) (ws ++ x :: rest)
        = ⟨decode_complete_blocks (ws.map (table_at (make_lookup_table base85_z85))),
            some (.symbol_error x)⟩
      ∧ (decode_complete_blocks
          (ws.map (table_at (make_lookup_table base85_z85)))).length = 4 * (ws.length / 5)
      := by
  have hs2 : ∀ c ∈ ws, base85_z85.should_ignore c = false
      ∧ is_stop_character (table_at (make_lookup_table base85_z85) c) = false := by
    intro c hc
    obtain ⟨f1, f2⟩ := z85_alphabet_facts c (hws c hc)
    rw [z85_table_at]
    exact ⟨f1, (not_stop_of_lt _ (by omega)).1⟩
  have hxe : table_at (make_lookup_table base85_z85) x = invalid_idx := by
    unfold is_invalid at hxi
    exact of_decide_eq_true hxi
  have hxs : is_stop_character (table_at (make_lookup_table base85_z85) x) = true := by
    rw [hxe]
    decide
  obtain ⟨I, K, _, h2⟩ := scan_blocks w base85_z85 base85_z85 (make_lookup_table base85_z85)
    (ws.length / 5) ws rfl hs2 (List.replicate 5 0) eof_idx [] (by simp)
  have hscan : decode_scan base85_z85 (z85 w) (make_lookup_table base85_z85)
      (ws ++ x :: rest) (List.replicate (z85 w).encoded_block_size 0) eof_idx 0 []
      = ⟨x :: rest, I, table_at (make_lookup_table base85_z85) x, ws.length % 5,
          [] ++ decode_complete_blocks (ws.map (table_at (make_lookup_table base85_z85))),
          none⟩ := by
    have := h2 (x :: rest)
    rw [scan_stop base85_z85 _ _ x rest I K _ _ hx hxs] at this
    exact this
  constructor
  · rw [decode_of_scan base85_z85 (z85 w) _ _ hscan]
    dsimp only
    rw [hxi, if_pos rfl, List.nil_append]
  · exact decode_complete_blocks_length (ws.length / 5) _ (by simp)

/-! ## Claims about injectivity, the two size functions and canonical blocks -/

set_option maxRecDepth 100000 in
/-- Claim C23, the code at the failing input. The two-byte inputs `00 00` and `00 4B` are
different and both encode to `000` with Z85: the tail encoder takes the third digit from
`(src[0] << 24 | src[1] << 16) / 85^2 mod 85` after the first two digits were taken from
`src[0] << 24` alone, so the 256 values of `src[1]` share 85 digits. -/
theorem z85_encode_collision :
    ([0x00, 0x00] : List Byte) ≠ [0x00, 0x4B]
      ∧ stream_codec.encode (z85 32) [] [0x00, 0x00] = .ok (c_str "000")
      ∧ stream_codec.encode (z85 32) [] [0x00, 0x4B] = .ok (c_str "000") := by
  decide

/-- Claim C25. For a radix-85 variant that neither generates nor requires padding, on a
`size_t` of at least 16 bits, and for every `n` with `5 * n` not overflowing `size_t`,
`decoded_max_size(encoded_size(n)) = n`. -/
theorem base85_decoded_max_size_encoded_size (w sz : Nat) (V : CodecVariant) (n : Nat)
    (hg : V.generates_padding = false) (hr : V.requires_padding = false)
    (hsz : 16 ≤ sz) (hn : 5 * n < 2 ^ sz) :
    stream_codec.decoded_max_size sz V (base85 w V)
      (stream_codec.encoded_size sz V (base85 w V) n) = n := by
  rw [encoded_size_unpadded w sz V n hg hn]
  have hM : 2 ^ 16 ≤ 2 ^ sz := Nat.pow_le_pow_right (by norm_num) hsz
  generalize hm : 5 * (n / 4) + (if n % 4 = 0 then 0 else n % 4 + 1) = m
  have hmn : m ≤ 5 * n := by
    rw [← hm]
    split <;> omega
  have h1 : (m / 5 * 4) % 2 ^ sz = m / 5 * 4 := Nat.mod_eq_of_lt (by omega)
  have h2 : ((m % 5) * 4) % 2 ^ sz = (m % 5) * 4 := Nat.mod_eq_of_lt (by omega)
  have h3 : (m / 5 * 4 + (m % 5) * 4 / 5) % 2 ^ sz = m / 5 * 4 + (m % 5) * 4 / 5 :=
    Nat.mod_eq_of_lt (by omega)
  simp only [stream_codec.decoded_max_size, hr, Bool.false_eq_true, if_false, base85, h1, h2,
    h3]
  rw [← hm]
  split <;> omega

/-- The Z85 variant, a 32-bit `size_t` and `n = 7` satisfy the hypotheses of claim C25. -/
theorem base85_decoded_max_size_encoded_size_witness :
    5 * 7 < 2 ^ 32
      ∧ stream_codec.decoded_max_size 32 base85_z85 (base85 32 base85_z85)
          (stream_codec.encoded_size 32 base85_z85 (base85 32 base85_z85) 7) = 7 :=
  ⟨by decide, base85_decoded_max_size_encoded_size 32 32 base85_z85 7 rfl rfl (by decide)
    (by decide)⟩

/-- The radix-85 digits of a value given by five digits below 85. -/
theorem digits_of_sum (i0 i1 i2 i3 i4 : Nat) (h0 : i0 < 85) (h1 : i1 < 85) (h2 : i2 < 85)
    (h3 : i3 < 85) (h4 : i4 < 85) :
    (i0 * 85 ^ 4 + i1 * 85 ^ 3 + i2 * 85 ^ 2 + i3 * 85 + i4) / 85 ^ 4 % 85 = i0
      ∧ (i0 * 85 ^ 4 + i1 * 85 ^ 3 + i2 * 85 ^ 2 + i3 * 85 + i4) / 85 ^ 3 % 85 = i1
      ∧ (i0 * 85 ^ 4 + i1 * 85 ^ 3 + i2 * 85 ^ 2 + i3 * 85 + i4) / 85 ^ 2 % 85 = i2
      ∧ (i0 * 85 ^ 4 + i1 * 85 ^ 3 + i2 * 85 ^ 2 + i3 * 85 + i4) / 85 ^ 1 % 85 = i3
      ∧ (i0 * 85 ^ 4 + i1 * 85 ^ 3 + i2 * 85 ^ 2 + i3 * 85 + i4) / 85 ^ 0 % 85 = i4 := by
  norm_num
  refine ⟨?_, ?_, ?_, ?_, ?_⟩ <;> omega

/-- The four big-endian bytes of a value below `2 ^ 32` pack to the value. -/
theorem pack_of_bytes (v : Nat) (hv : v < 2 ^ 32) :
    (to_uint8 (v / 2 ^ 24 % 256)).val * 2 ^ 24 + (to_uint8 (v / 2 ^ 16 % 256)).val * 2 ^ 16
      + (to_uint8 (v / 2 ^ 8 % 256)).val * 2 ^ 8 + (to_uint8 (v % 256)).val = v := by
  simp only [to_uint8, Fin.ofNat, Nat.mod_mod]
  norm_num at hv ⊢
  omega

/-- Claim C26. For every five indexes `idx[0..4]`, each below 85, whose radix-85 value is
below `2^32`, the block decoder puts four bytes, and block-encoding those four bytes puts
exactly `symbol(idx[0]) .. symbol(idx[4])` (and fails exactly where `symbol` does). -/
theorem base85_block_encode_of_decode (V : CodecVariant) (encoded : List CChar)
    (decoded : List Byte) (i0 i1 i2 i3 i4 : Nat) (rest : List Nat)
    (h0 : i0 < 85) (h1 : i1 < 85) (h2 : i2 < 85) (h3 : i3 < 85) (h4 : i4 < 85)
    (hv : i0 * 85 ^ 4 + i1 * 85 ^ 3 + i2 * 85 ^ 2 + i3 * 85 + i4 < 2 ^ 32) :
    ∃ c0 c1 c2 c3 : Byte,
      base85_block_decoder.block decoded (i0 :: i1 :: i2 :: i3 :: i4 :: rest)
          = (decoded ++ [c0, c1, c2, c3], none)
        ∧ base85_block_encoder.block V encoded [c0, c1, c2, c3]
          = (fun s => encoded ++ s) <$> List.mapM V.symbol [i0, i1, i2, i3, i4] := by
  have hd := digits_of_sum i0 i1 i2 i3 i4 h0 h1 h2 h3 h4
  have hspec := block_decode_spec decoded i0 i1 i2 i3 i4 rest (by omega) (by omega)
    (by omega) (by omega) (by omega)
  rw [Nat.mod_eq_of_lt hv] at hspec
  generalize i0 * 85 ^ 4 + i1 * 85 ^ 3 + i2 * 85 ^ 2 + i3 * 85 + i4 = v at hv hd hspec
  refine ⟨_, _, _, _, hspec, ?_⟩
  rw [block_spec, pack_of_bytes v hv, hd.1, hd.2.1, hd.2.2.1, hd.2.2.2.1, hd.2.2.2.2]


/-- The indexes 43, 14, 21, 21, 24 of `Hello` and the Z85 variant satisfy the hypotheses
of claim C26. -/
theorem base85_block_encode_of_decode_witness :
    43 * 85 ^ 4 + 14 * 85 ^ 3 + 21 * 85 ^ 2 + 21 * 85 + 24 < 2 ^ 32
      ∧ ∃ c0 c1 c2 c3 : Byte,
        base85_block_decoder.block [] [43, 14, 21, 21, 24] = ([] ++ [c0, c1, c2, c3], none)
          ∧ base85_block_encoder.block base85_z85 [] [c0, c1, c2, c3]
            = (fun s => [] ++ s) <$> List.mapM base85_z85.symbol [43, 14, 21, 21, 24] :=
  ⟨by decide, base85_block_encode_of_decode base85_z85 [] [] 43 14 21 21 24 [] (by decide)
    (by decide) (by decide) (by decide) (by decide) (by decide)⟩

/-! ## The decoder on an arbitrary input, for every variant and codec -/

/-- An index that is the initial `eof_idx` or is not a stop character is neither invalid
nor padding. -/
theorem not_invalid_not_padding (V : CodecVariant) (K : Nat)
    (h : K = eof_idx ∨ is_stop_character K = false) :
    is_invalid K = false ∧ is_padding V K = false := by
  have hlt : K = eof_idx ∨ K < 256 := by
    rcases h with h | h
    · exact Or.inl h
    · exact Or.inr (lt_of_not_stop _ h)
  obtain ⟨sp, si, se⟩ := sentinel_values
  have n1 : K ≠ invalid_idx := by omega
  have n2 : K ≠ padding_idx := by omega
  constructor
  · simp [is_invalid, n1]
  · unfold is_padding
    split <;> simp [n2]

/-- The scan loop over characters that are ignored or not stop characters, with any block
decoder: either it runs to the end of them and carries on with what follows, or the block
decoder throws, and what follows changes nothing but the cursor. -/
theorem scan_through (V : CodecVariant) (C : Codec) (table : List Nat) :
    ∀ (u : List CChar),
      (∀ c ∈ u, V.should_ignore c = true ∨ is_stop_character (table_at table c) = false) →
      ∀ (idxs : List Nat) (cur cbi : Nat) (out : List Byte),
      (∃ I K B O, (K = cur ∨ is_stop_character K = false)
          ∧ ∀ t, decode_scan V C table (u ++ t) idxs cur cbi out
            = decode_scan V C table t I K B O)
        ∨ (∃ I K B O f, ∀ t, ∃ r, decode_scan V C table (u ++ t) idxs cur cbi out
            = ⟨r, I, K, B, O, some f⟩) := by
  intro u
  induction u with
  | nil =>
    intro _ idxs cur cbi out
    exact Or.inl ⟨idxs, cur, cbi, out, Or.inl rfl, fun t => rfl⟩
  | cons a u ih =>
    intro hu idxs cur cbi out
    have hu2 : ∀ c ∈ u, V.should_ignore c = true
        ∨ is_stop_character (table_at table c) = false :=
      fun c hc => hu c (List.mem_cons_of_mem a hc)
    by_cases hi : V.should_ignore a = true
    · rcases ih hu2 idxs cur cbi out with ⟨I, K, B, O, hK, h⟩ | ⟨I, K, B, O, f, h⟩
      · refine Or.inl ⟨I, K, B, O, hK, fun t => ?_⟩
        rw [List.cons_append, decode_scan]
        simp only [hi, if_true]
        exact h t
      · refine Or.inr ⟨I, K, B, O, f, fun t => ?_⟩
        rw [List.cons_append, decode_scan]
        simp only [hi, if_true]
        exact h t
    · have hs : is_stop_character (table_at table a) = false := by
        rcases hu a (List.mem_cons_self a u) with h | h
        · exact absurd h hi
        · exact h
      have lift : ∀ (i2 : List Nat) (b2 : Nat) (o2 : List Byte),
          (∃ I K B O, (K = cur ∨ is_stop_character K = false)
              ∧ ∀ t, decode_scan V C table (u ++ t) i2 (table_at table a) b2 o2
                = decode_scan V C table t I K B O)
            ∨ (∃ I K B O f, ∀ t, ∃ r,
                decode_scan V C table (u ++ t) i2 (table_at table a) b2 o2
                  = ⟨r, I, K, B, O, some f⟩) := by
        intro i2 b2 o2
        rcases ih hu2 i2 (table_at table a) b2 o2 with ⟨I, K, B, O, hK, h⟩ | h
        · refine Or.inl ⟨I, K, B, O, ?_, h⟩
          rcases hK with g | g
          · exact Or.inr (by rw [g]; exact hs)
          · exact Or.inr g
        · exact Or.inr h
      by_cases h0 : idxs.length ≤ cbi
      · refine Or.inr ⟨idxs, table_at table a, cbi, out, .out_of_bounds, fun t => ?_⟩
        rw [List.cons_append, decode_scan]
        simp only [hi, hs, h0, Bool.false_eq_true, if_false, if_true]
        exact ⟨_, rfl⟩
      · by_cases h5 : cbi + 1 = C.encoded_block_size
        · cases hr : C.decode_block out (idxs.set cbi (table_at table a)) with
          | mk r1 r2 =>
            cases r2 with
            | none =>
              rcases lift (idxs.set cbi (table_at table a)) 0 r1 with
                ⟨I, K, B, O, hK, h⟩ | ⟨I, K, B, O, f, h⟩
              · refine Or.inl ⟨I, K, B, O, hK, fun t => ?_⟩
                rw [List.cons_append, decode_scan]
                simp only [hi, hs, h0, h5, hr, Bool.false_eq_true, if_false, if_true]
                exact h t
              · refine Or.inr ⟨I, K, B, O, f, fun t => ?_⟩
                rw [List.cons_append, decode_scan]
                simp only [hi, hs, h0, h5, hr, Bool.false_eq_true, if_false, if_true]
                exact h t
            | some f =>
              refine Or.inr ⟨idxs.set cbi (table_at table a), table_at table a, cbi + 1, r1, f,
                fun t => ?_⟩
              rw [List.cons_append, decode_scan]
              simp only [hi, hs, h0, h5, hr, Bool.false_eq_true, if_false, if_true]
              exact ⟨_, rfl⟩
        · rcases lift (idxs.set cbi (table_at table a)) (cbi + 1) out with
            ⟨I, K, B, O, hK, h⟩ | ⟨I, K, B, O, f, h⟩
          · refine Or.inl ⟨I, K, B, O, hK, fun t => ?_⟩
            rw [List.cons_append, decode_scan]
            simp only [hi, hs, h0, h5, Bool.false_eq_true, if_false, if_true]
            exact h t
          · refine Or.inr ⟨I, K, B, O, f, fun t => ?_⟩
            rw [List.cons_append, decode_scan]
            simp only [hi, hs, h0, h5, Bool.false_eq_true, if_false, if_true]
            exact h t

/-- The steps of `decode` after the scan loop, on two states that differ only in the
cursor and in a current index that is neither invalid nor padding on both sides. -/
theorem decode_after_scan_eof (V : CodecVariant) (C : Codec) (s1 s2 : List CChar)
    (src1 src2 : List CChar) (I : List Nat) (K1 K2 B : Nat) (O : List Byte)
    (h1 : decode_scan V C (make_lookup_table V) s1 (List.replicate C.encoded_block_size 0)
      eof_idx 0 [] = ⟨src1, I, K1, B, O, none⟩)
    (h2 : decode_scan V C (make_lookup_table V) s2 (List.replicate C.encoded_block_size 0)
      eof_idx 0 [] = ⟨src2, I, K2, B, O, none⟩)
    (g1 : is_invalid K1 = false ∧ is_padding V K1 = false)
    (g2 : is_invalid K2 = false ∧ is_padding V K2 = false) :
    stream_codec.decode V C s1 = stream_codec.decode V C s2 := by
  rw [decode_of_scan V C s1 _ h1, decode_of_scan V C s2 _ h2]
  dsimp only
  rw [g1.1, g1.2, g2.1, g2.2, if_neg Bool.false_ne_true, if_neg Bool.false_ne_true,
    if_neg Bool.false_ne_true, if_neg Bool.false_ne_true]
  unfold decode_finish
  dsimp only
  rw [g1.2, g2.2]

/-- Claim C21. For every variant and codec, every input `s` whose characters are ignored
or valid alphabet symbols (none is classified as padding, invalid or EOF), every character
`e` that is not ignored and is classified as EOF, and every `t`, `decode(s ++ [e] ++ t)`
has the same outcome as `decode(s)`: the same bytes in the sink and the same success or
error. The variant need not be one without required padding. -/
theorem decode_eof_ends_stream (V : CodecVariant) (C : Codec) (s t : List CChar) (e : CChar)
    (hs : ∀ c ∈ s, V.should_ignore c = true
      ∨ is_stop_character (table_at (make_lookup_table V) c) = false)
    (he : V.should_ignore e = false)
    (heof : is_eof (table_at (make_lookup_table V) e) = true) :
    stream_codec.decode V C (s ++ e :: t) = stream_codec.decode V C s := by
  have hidx : table_at (make_lookup_table V) e = eof_idx := by
    simpa [is_eof] using heof
  have hstop : is_stop_character (table_at (make_lookup_table V) e) = true := by
    rw [hidx]
    decide
  rcases scan_through V C (make_lookup_table V) s hs
      (List.replicate C.encoded_block_size 0) eof_idx 0 [] with
    ⟨I, K, B, O, hK, h⟩ | ⟨I, K, B, O, f, h⟩
  · have h1 := h (e :: t)
    rw [scan_stop V C _ e t I K B O he hstop, hidx] at h1
    have h2 := h []
    rw [List.append_nil, decode_scan] at h2
    exact decode_after_scan_eof V C _ _ _ _ I _ _ B O h1 h2
      (not_invalid_not_padding V _ (Or.inl rfl)) (not_invalid_not_padding V _ hK)
  · obtain ⟨r1, h1⟩ := h (e :: t)
    obtain ⟨r2, h2⟩ := h []
    rw [List.append_nil] at h2
    rw [decode_of_scan V C _ _ h1, decode_of_scan V C _ _ h2]

set_option maxRecDepth 100000 in
/-- An instance of C21: in Z85, what follows a NUL after "HelloWorld" is not read. -/
theorem decode_eof_ends_stream_witness :
    stream_codec.decode base85_z85 (z85 32) (c_str "HelloWorld" ++ 0 :: c_str "~ \x7f")
      = stream_codec.decode base85_z85 (z85 32) (c_str "HelloWorld") :=
  decode_eof_ends_stream base85_z85 (z85 32) (c_str "HelloWorld") (c_str "~ \x7f") 0
    (by decide) (by decide) (by decide)

set_option maxRecDepth 100000 in
/-- Every character is in the Z85 alphabet, or it is classified as EOF or as invalid. -/
theorem z85_classification : ∀ c : CChar,
    c ∈ base85_z85_alphabet.map char_code
      ∨ index_of base85_z85 c = eof_idx ∨ index_of base85_z85 c = invalid_idx := by
  decide

/-- The failure of the last step of a Z85 `decode` call with `B` pending indexes. -/
theorem z85_finish_failure (w : Nat) (src : List CChar) (I : List Nat) (K B : Nat)
    (O : List Byte) (hB : B < 5) :
    (decode_finish base85_z85 (z85 w) ⟨src, I, K, B, O, none⟩ B).failure
      = if B = 1 then some .invalid_input_length else none := by
  have h := z85_decode_finish w ⟨src, I, K, B, O, none⟩ hB
  dsimp only at h
  rw [h]
  obtain ⟨t1, t2⟩ := tail_decode_length w O I B
  by_cases h0 : B = 0
  · rw [if_pos h0, if_neg (by omega)]
  · rw [if_neg h0]
    by_cases h1 : B = 1
    · rw [if_pos h1, t1 h1]
    · rw [if_neg h1]
      exact (t2 (by omega) (by omega)).1

/-- The failure of Z85 `decode` on an input split at its first character that is neither
ignored nor in the alphabet. -/
theorem z85_decode_failure (w : Nat) (p rest : List CChar)
    (hp : ∀ c ∈ p, base85_z85.should_ignore c = true ∨ c ∈ base85_z85_alphabet.map char_code)
    (hrest : ∀ x r, rest = x :: r →
      base85_z85.should_ignore x = false ∧ x ∉ base85_z85_alphabet.map char_code) :
    (stream_codec.decode base85_z85 (z85 w) (p ++ rest)).failure
      = match rest with
        | x :: _ =>
          if is_invalid (table_at (make_lookup_table base85_z85) x) = true then
            some (.symbol_error x)
          else if p.countP (fun c => decide (c ∈ base85_z85_alphabet.map char_code)) % 5 = 1
            then some .invalid_input_length
          else none
        | [] =>
          if p.countP (fun c => decide (c ∈ base85_z85_alphabet.map char_code)) % 5 = 1
            then some .invalid_input_length
          else none := by
  have hcount : (p.filter (fun c => !CodecVariant.should_ignore base85_z85 c)).length
      = p.countP (fun c => decide (c ∈ base85_z85_alphabet.map char_code)) := by
    rw [List.countP_eq_length_filter]
    congr 1
    apply List.filter_congr
    intro c hc
    rcases hp c hc with h | h
    · have h2 : c ∉ base85_z85_alphabet.map char_code := by
        intro hm
        rw [(z85_alphabet_facts c hm).1] at h
        cases h
      have h3 : CodecVariant.should_ignore base85_z85 c = true := h
      rw [h3, decide_eq_false h2]
      rfl
    · have h3 : CodecVariant.should_ignore base85_z85 c = false := (z85_alphabet_facts c h).1
      rw [h3, decide_eq_true h]
      rfl
  have hu : ∀ c ∈ p, base85_z85.should_ignore c = true
      ∨ is_stop_character (table_at (make_lookup_table base85_z85) c) = false := by
    intro c hc
    rcases hp c hc with h | h
    · exact Or.inl h
    · right
      rw [z85_table_at]
      exact (not_stop_of_lt _ (by have := (z85_alphabet_facts c h).2; omega)).1
  obtain ⟨I, K, O, _, _, _, hK, hgo⟩ := scan_pass base85_z85 (z85 w)
    (make_lookup_table base85_z85) (fun out idx => (block_decode_length out idx).2) p hu
    (List.replicate (z85 w).encoded_block_size 0) eof_idx 0 []
    (List.length_replicate _ _) (by
      show 0 < 5
      omega)
  have hB : p.countP (fun c => decide (c ∈ base85_z85_alphabet.map char_code)) % 5 < 5 :=
    Nat.mod_lt _ (by omega)
  have hBk : (0 + (p.filter (fun c => !CodecVariant.should_ignore base85_z85 c)).length)
      % (z85 w).encoded_block_size
      = p.countP (fun c => decide (c ∈ base85_z85_alphabet.map char_code)) % 5 := by
    rw [Nat.zero_add, hcount]
    rfl
  rw [hBk] at hgo
  cases rest with
  | nil =>
    have e := hgo []
    rw [decode_scan] at e
    rw [decode_of_scan base85_z85 (z85 w) _ _ e]
    dsimp only
    obtain ⟨g1, g2⟩ := not_invalid_not_padding base85_z85 K hK
    rw [g1, g2, if_neg Bool.false_ne_true, if_neg Bool.false_ne_true]
    exact z85_finish_failure w _ _ _ _ _ hB
  | cons x r =>
    obtain ⟨hx1, hx2⟩ := hrest x r rfl
    have hcls : index_of base85_z85 x = eof_idx ∨ index_of base85_z85 x = invalid_idx := by
      rcases z85_classification x with h | h
      · exact absurd h hx2
      · exact h
    have hstop : is_stop_character (table_at (make_lookup_table base85_z85) x) = true := by
      rw [z85_table_at]
      rcases hcls with h | h <;> rw [h] <;> decide
    have e := hgo (x :: r)
    rw [scan_stop base85_z85 (z85 w) _ x r I K _ O hx1 hstop] at e
    rw [decode_of_scan base85_z85 (z85 w) _ _ e]
    dsimp only
    by_cases hinv : is_invalid (table_at (make_lookup_table base85_z85) x) = true
    · rw [if_pos hinv, if_pos hinv]
    · rw [if_neg hinv, if_neg hinv, z85_is_padding, if_neg Bool.false_ne_true]
      exact z85_finish_failure w _ _ _ _ _ hB

/-- Every input splits at its first character that is neither ignored nor in the Z85
alphabet. -/
theorem z85_input_split (s : List CChar) :
    ∃ p rest, s = p ++ rest
      ∧ (∀ c ∈ p, base85_z85.should_ignore c = true
          ∨ c ∈ base85_z85_alphabet.map char_code)
      ∧ (∀ x r, rest = x :: r →
          base85_z85.should_ignore x = false ∧ x ∉ base85_z85_alphabet.map char_code) := by
  induction s with
  | nil => exact ⟨[], [], rfl, fun _ h => absurd h (List.not_mem_nil _), fun _ _ h => by cases h⟩
  | cons a s ih =>
    by_cases ha : base85_z85.should_ignore a = true ∨ a ∈ base85_z85_alphabet.map char_code
    · obtain ⟨p, rest, h1, h2, h3⟩ := ih
      refine ⟨a :: p, rest, by rw [h1, List.cons_append], ?_, h3⟩
      intro c hc
      rcases List.mem_cons.mp hc with h | h
      · rw [h]
        exact ha
      · exact h2 c h
    · refine ⟨[], a :: s, rfl, fun _ h => absurd h (List.not_mem_nil _), ?_⟩
      intro x r h
      cases h
      constructor
      · cases hi : base85_z85.should_ignore a
        · rfl
        · exact absurd (Or.inl hi) ha
      · exact fun hm => ha (Or.inr hm)

/-- The four statements about the failure of a Z85 `decode` call, from its value by cases
on what follows the characters `p` that are ignored or alphabet symbols, `k` of them
alphabet symbols. -/
theorem z85_failure_condition_of_cases (F : Option Failure) (k : Nat) (rest : List CChar)
    (h : F = match rest with
        | x :: _ =>
          if is_invalid (table_at (make_lookup_table base85_z85) x) = true then
            some (.symbol_error x)
          else if k % 5 = 1 then some .invalid_input_length
          else none
        | [] => if k % 5 = 1 then some .invalid_input_length else none) :
    F ≠ some .padding_error
      ∧ (∀ c, F = some (.symbol_error c)
          ↔ ∃ r, rest = c :: r
              ∧ is_invalid (table_at (make_lookup_table base85_z85) c) = true)
      ∧ ((¬ ∃ c r, rest = c :: r
              ∧ is_invalid (table_at (make_lookup_table base85_z85) c) = true) →
          (F = some .invalid_input_length ↔ k % 5 = 1))
      ∧ ((¬ ∃ c r, rest = c :: r
              ∧ is_invalid (table_at (make_lookup_table base85_z85) c) = true) →
          k % 5 ≠ 1 → F = none) := by
  cases rest with
  | nil =>
    dsimp only at h
    by_cases hk : k % 5 = 1
    · rw [if_pos hk] at h
      subst h
      simp [hk]
    · rw [if_neg hk] at h
      subst h
      simp [hk]
  | cons x r =>
    dsimp only at h
    by_cases hinv : is_invalid (table_at (make_lookup_table base85_z85) x) = true
    · rw [if_pos hinv] at h
      subst h
      refine ⟨by simp, ?_, ?_, ?_⟩
      · intro c
        constructor
        · intro hc
          cases hc
          exact ⟨r, rfl, hinv⟩
        · rintro ⟨r2, h2, _⟩
          cases h2
          rfl
      · intro hn
        exact absurd ⟨x, r, rfl, hinv⟩ hn
      · intro hn
        exact absurd ⟨x, r, rfl, hinv⟩ hn
    · rw [if_neg hinv] at h
      have hno : ∀ c, ¬ ∃ r2, x :: r = c :: r2
          ∧ is_invalid (table_at (make_lookup_table base85_z85) c) = true := by
        rintro c ⟨r2, h2, h3⟩
        cases h2
        exact hinv h3
      by_cases hk : k % 5 = 1
      · rw [if_pos hk] at h
        subst h
        refine ⟨by simp, ?_, ?_, ?_⟩
        · intro c
          constructor
          · intro hc
            cases hc
          · intro hc
            exact absurd hc (hno c)
        · intro _
          exact ⟨fun _ => hk, fun _ => rfl⟩
        · intro _ hk2
          exact absurd hk hk2
      · rw [if_neg hk] at h
        subst h
        refine ⟨by simp, ?_, ?_, ?_⟩
        · intro c
          constructor
          · intro hc
            cases hc
          · intro hc
            exact absurd hc (hno c)
        · intro _
          constructor
          · intro hc
            cases hc
          · intro hc
            exact absurd hc hk
        · intro _ _
          rfl

/-! ## The table subscripted by a plain `char` -/

/-- Where `char` is unsigned, or the byte is below `0x80`, the read of a 256-entry table
is in bounds and yields the entry for the byte value. -/
theorem table_read_in_bounds (char_signed : Bool) (table : List Nat) (c : CChar)
    (hl : table.length = 256) (hc : char_signed = false ∨ c.val < 128) :
    table_read char_signed table c = .ok (table_at table c) := by
  have hs : char_subscript char_signed c = (c.val : Int) := by
    unfold char_subscript
    rcases hc with h | h
    · simp [h]
    · simp [not_le.mpr h]
  have hlt : c.val < 256 := c.isLt
  unfold table_read table_at
  rw [hs, hl, if_pos ⟨by omega, by omega⟩]
  rfl

/-- Where `char` is signed, the read of the table for a byte from `0x80` on is outside the
table. -/
theorem table_read_out_of_bounds (table : List Nat) (c : CChar) (hc : 128 ≤ c.val) :
    table_read true table c = .error .out_of_bounds := by
  have hlt : c.val < 256 := c.isLt
  have hs : char_subscript true c = (c.val : Int) - 256 := by
    unfold char_subscript
    simp [hc]
  unfold table_read
  rw [hs, if_neg (by omega)]

/-- The generated table has 256 entries. -/
theorem make_lookup_table_length (V : CodecVariant) : (make_lookup_table V).length = 256 :=
  List.length_ofFn _

/-- The scan loop with the plain subscript, over characters that are ignored or are read
in bounds: either it ends among them in the state of the scan with in-bounds reads, or
both scans carry on from the same state with what follows. -/
theorem scan_plain_pass (char_signed : Bool) (V : CodecVariant) (C : Codec)
    (table : List Nat) (t : List CChar) :
    ∀ (p : List CChar),
      (∀ c ∈ p, V.should_ignore c = true
        ∨ table_read char_signed table c = .ok (table_at table c)) →
      ∀ (idxs : List Nat) (cur cbi : Nat) (out : List Byte),
        decode_scan_plain char_signed V C table (p ++ t) idxs cur cbi out
            = decode_scan V C table (p ++ t) idxs cur cbi out
          ∨ ∃ I K B O,
              decode_scan V C table (p ++ t) idxs cur cbi out = decode_scan V C table t I K B O
                ∧ decode_scan_plain char_signed V C table (p ++ t) idxs cur cbi out
                  = decode_scan_plain char_signed V C table t I K B O := by
  intro p
  induction p with
  | nil =>
    intro _ idxs cur cbi out
    exact Or.inr ⟨idxs, cur, cbi, out, rfl, rfl⟩
  | cons a p ih =>
    intro hp idxs cur cbi out
    have hp2 : ∀ c ∈ p, V.should_ignore c = true
        ∨ table_read char_signed table c = .ok (table_at table c) :=
      fun c hc => hp c (List.mem_cons_of_mem a hc)
    rw [List.cons_append, decode_scan, decode_scan_plain]
    by_cases hi : V.should_ignore a = true
    · simp only [hi, if_true]
      exact ih hp2 idxs cur cbi out
    · have hr : table_read char_signed table a = .ok (table_at table a) := by
        rcases hp a (List.mem_cons_self a p) with h | h
        · exact absurd h hi
        · exact h
      simp only [hi, hr, Bool.false_eq_true, if_false]
      by_cases hs : is_stop_character (table_at table a) = true
      · simp only [hs, if_true]
        exact Or.inl trivial
      · simp only [hs, Bool.false_eq_true, if_false]
        by_cases h0 : idxs.length ≤ cbi
        · simp only [h0, if_true]
          exact Or.inl trivial
        · simp only [h0, if_false]
          by_cases h5 : cbi + 1 = C.encoded_block_size
          · simp only [h5, if_true]
            cases hb : C.decode_block out (idxs.set cbi (table_at table a)) with
            | mk r1 r2 =>
              cases r2 with
              | none => exact ih hp2 _ _ 0 r1
              | some f => exact Or.inl rfl
          · simp only [h5, if_false]
            exact ih hp2 _ _ (cbi + 1) out

/-- On an input whose characters are all ignored or read in bounds, the scan loop with the
plain subscript is the scan loop with in-bounds reads. -/
theorem scan_plain_eq (char_signed : Bool) (V : CodecVariant) (C : Codec)
    (table : List Nat) (p : List CChar)
    (hp : ∀ c ∈ p, V.should_ignore c = true
      ∨ table_read char_signed table c = .ok (table_at table c))
    (idxs : List Nat) (cur cbi : Nat) (out : List Byte) :
    decode_scan_plain char_signed V C table p idxs cur cbi out
      = decode_scan V C table p idxs cur cbi out := by
  rcases scan_plain_pass char_signed V C table [] p hp idxs cur cbi out with
    h | ⟨I, K, B, O, h1, h2⟩
  · rw [List.append_nil] at h
    exact h
  · rw [List.append_nil] at h1 h2
    rw [h1, h2, decode_scan, decode_scan_plain]

/-- The same up to the first stop character, when it is read in bounds; what follows it is
not read by the scan loop. -/
theorem scan_plain_stop (char_signed : Bool) (V : CodecVariant) (C : Codec)
    (table : List Nat) (p : List CChar) (x : CChar) (r : List CChar)
    (hp : ∀ c ∈ p, V.should_ignore c = true
      ∨ table_read char_signed table c = .ok (table_at table c))
    (hx : V.should_ignore x = false)
    (hxr : table_read char_signed table x = .ok (table_at table x))
    (hxs : is_stop_character (table_at table x) = true)
    (idxs : List Nat) (cur cbi : Nat) (out : List Byte) :
    decode_scan_plain char_signed V C table (p ++ x :: r) idxs cur cbi out
      = decode_scan V C table (p ++ x :: r) idxs cur cbi out := by
  rcases scan_plain_pass char_signed V C table (x :: r) p hp idxs cur cbi out with
    h | ⟨I, K, B, O, h1, h2⟩
  · exact h
  · rw [h1, h2, decode_scan, decode_scan_plain]
    simp only [hx, hxr, hxs, Bool.false_eq_true, if_false, if_true]

/-- The characters the scan loop leaves unread are characters of the input. -/
theorem scan_src_mem (V : CodecVariant) (C : Codec) (table : List Nat) :
    ∀ (s : List CChar) (idxs : List Nat) (cur cbi : Nat) (out : List Byte),
      ∀ c ∈ (decode_scan V C table s idxs cur cbi out).src, c ∈ s := by
  intro s
  induction s with
  | nil =>
    intro idxs cur cbi out c hc
    rw [decode_scan] at hc
    exact hc
  | cons a s ih =>
    intro idxs cur cbi out c
    rw [decode_scan]
    split
    · exact fun hc => List.mem_cons_of_mem a (ih _ _ _ _ c hc)
    · dsimp only
      split
      · exact fun hc => hc
      · split
        · exact fun hc => List.mem_cons_of_mem a hc
        · split
          · split
            · exact fun hc => List.mem_cons_of_mem a hc
            · exact fun hc => List.mem_cons_of_mem a (ih _ _ _ _ c hc)
          · exact fun hc => List.mem_cons_of_mem a (ih _ _ _ _ c hc)

/-- On characters that are all read in bounds, the padding loop with the plain subscript
is the padding loop with in-bounds reads. -/
theorem padding_plain_eq (char_signed : Bool) (V : CodecVariant) (C : Codec)
    (table : List Nat) :
    ∀ (s : List CChar),
      (∀ c ∈ s, table_read char_signed table c = .ok (table_at table c)) →
      ∀ n, decode_padding_plain char_signed V C table s n = decode_padding V C table s n := by
  intro s
  induction s with
  | nil =>
    intro _ n
    rw [decode_padding, decode_padding_plain]
  | cons a s ih =>
    intro hs n
    rw [decode_padding, decode_padding_plain, hs a (List.mem_cons_self a s)]
    dsimp only
    rw [ih (fun c hc => hs c (List.mem_cons_of_mem a hc))]

/-- The function `decode` with the plain subscript, when its scan loop is the one with
in-bounds reads and the scan does not end at a padding character: the padding loop is not
entered and the call is `decode` with in-bounds reads. -/
theorem decode_plain_no_padding (char_signed : Bool) (V : CodecVariant) (C : Codec)
    (s : List CChar) (st : ScanState)
    (h1 : decode_scan V C (make_lookup_table V) s (List.replicate C.encoded_block_size 0)
      eof_idx 0 [] = st)
    (h2 : decode_scan_plain char_signed V C (make_lookup_table V) s
      (List.replicate C.encoded_block_size 0) eof_idx 0 [] = st)
    (hnp : is_invalid st.current_alphabet_index = true
      ∨ is_padding V st.current_alphabet_index = false) :
    stream_codec.decode_plain char_signed V C s = stream_codec.decode V C s := by
  rw [decode_of_scan V C s st h1]
  unfold stream_codec.decode_plain
  dsimp only
  rw [h2]
  cases st.thrown with
  | some f => rfl
  | none =>
    dsimp only
    rcases hnp with h | h
    · rw [if_pos h, if_pos h]
    · by_cases hinv : is_invalid st.current_alphabet_index = true
      · rw [if_pos hinv, if_pos hinv]
      · rw [if_neg hinv, if_neg hinv, h, if_neg Bool.false_ne_true,
          if_neg Bool.false_ne_true]

/-- On an input whose characters are all read in bounds (`char` is unsigned, or every byte
is below `0x80`), `decode` with the plain subscript is `decode` with in-bounds reads. -/
theorem decode_plain_in_bounds (char_signed : Bool) (V : CodecVariant) (C : Codec)
    (s : List CChar) (hs : ∀ c ∈ s, char_signed = false ∨ c.val < 128) :
    stream_codec.decode_plain char_signed V C s = stream_codec.decode V C s := by
  have hr : ∀ c ∈ s, table_read char_signed (make_lookup_table V) c
      = .ok (table_at (make_lookup_table V) c) :=
    fun c hc => table_read_in_bounds char_signed _ c (make_lookup_table_length V) (hs c hc)
  have h2 := scan_plain_eq char_signed V C (make_lookup_table V) s
    (fun c hc => Or.inr (hr c hc)) (List.replicate C.encoded_block_size 0) eof_idx 0 []
  have hsrc := scan_src_mem V C (make_lookup_table V) s
    (List.replicate C.encoded_block_size 0) eof_idx 0 []
  rw [decode_of_scan V C s _ rfl]
  unfold stream_codec.decode_plain
  dsimp only
  rw [h2]
  rw [padding_plain_eq char_signed V C (make_lookup_table V) _
    (fun c hc => hr c (hsrc c (List.mem_of_mem_tail hc)))]
/-! ## Claims about `symbol_error`, on the decoder with the subscript of the source -/

/-- Claim C10, amended. If every character before `x` is ignorable or an alphabet symbol,
`x` is not ignorable, not an alphabet symbol, not an EOF symbol and not a padding symbol,
and `x` and the characters before it that are not ignorable are read in bounds (`char` is
unsigned, or their byte value is below `0x80`), then `decode` of `u ++ x :: rest` fails
with `symbol_error` carrying `x`. (For a codec with at least one symbol per block whose
block decoder does not throw, and an alphabet of at most 256 symbols.) -/
theorem decode_symbol_error_at_first_stop (char_signed : Bool) (V : CodecVariant)
    (C : Codec) (u rest : List CChar) (x : CChar)
    (hE : 1 ≤ C.encoded_block_size)
    (hblk : ∀ out idx, (C.decode_block out idx).2 = none)
    (hA : V.alphabet_size ≤ 256)
    (hu : ∀ c ∈ u, V.should_ignore c = true
      ∨ ∃ i, i < V.alphabet_size ∧ V.symbol i = .ok (V.normalized_symbol c))
    (hx : V.should_ignore x = false)
    (hxa : ∀ i, i < V.alphabet_size → V.symbol i ≠ .ok (V.normalized_symbol x))
    (hxe : V.is_eof_symbol (V.normalized_symbol x) = false)
    (hxp : V.is_padding_symbol (V.normalized_symbol x) = false)
    (hub : ∀ c ∈ u, V.should_ignore c = true ∨ char_signed = false ∨ c.val < 128)
    (hxb : char_signed = false ∨ x.val < 128) :
    (stream_codec.decode_plain char_signed V C (u ++ x :: rest)).failure
      = some (.symbol_error x) := by
  have hxi : table_at (make_lookup_table V) x = invalid_idx := by
    rw [table_at_make]
    exact index_of_invalid V _ hxa hxe hxp
  have hxs : is_stop_character (table_at (make_lookup_table V) x) = true := by
    rw [hxi]
    decide
  have hur : ∀ c ∈ u, V.should_ignore c = true
      ∨ table_read char_signed (make_lookup_table V) c
        = .ok (table_at (make_lookup_table V) c) := by
    intro c hc
    rcases hub c hc with h | h
    · exact Or.inl h
    · exact Or.inr (table_read_in_bounds char_signed _ c (make_lookup_table_length V) h)
  have hplain := scan_plain_stop char_signed V C (make_lookup_table V) u x rest hur hx
    (table_read_in_bounds char_signed _ x (make_lookup_table_length V) hxb) hxs
    (List.replicate C.encoded_block_size 0) eof_idx 0 []
  have hu2 : ∀ c ∈ u, V.should_ignore c = true
      ∨ is_stop_character (table_at (make_lookup_table V) c) = false := by
    intro c hc
    rcases hu c hc with h | h
    · exact Or.inl h
    · right
      rw [table_at_make]
      exact (index_of_valid V _ hA h).2
  obtain ⟨idxs2, cur2, cbi2, out2, _, _, e⟩ := scan_prefix V C (make_lookup_table V) hblk
    (x :: rest) u hu2 (List.replicate C.encoded_block_size 0) eof_idx 0 []
    (List.length_replicate _ _) (by omega)
  rw [scan_stop V C _ x rest idxs2 cur2 cbi2 out2 hx hxs] at e
  rw [hxi] at e
  have h2 := hplain.trans e
  have hinv : is_invalid invalid_idx = true := by decide
  rw [decode_plain_no_padding char_signed V C (u ++ x :: rest)
    ⟨x :: rest, idxs2, invalid_idx, cbi2, out2, none⟩ e h2 (Or.inl hinv)]
  exact symbol_error_at_first_stop_in_bounds V C u rest x hE hblk hA hu hx hxa hxe hxp

set_option maxRecDepth 100000 in
/-- Claim C10, counterexample. In the Z85 input `00 20` the space `20` is not ignorable, not
an alphabet symbol, not an EOF symbol and not a padding symbol, yet `decode` succeeds,
whether `char` is signed or not: the scan stops at the EOF character `00` before it. -/
theorem z85_invalid_after_eof_not_reported :
    base85_z85.should_ignore 0x20 = false
      ∧ (∀ i : Fin 85, base85_z85.symbol i.val ≠ .ok (base85_z85.normalized_symbol 0x20))
      ∧ base85_z85.is_eof_symbol (base85_z85.normalized_symbol 0x20) = false
      ∧ base85_z85.is_padding_symbol (base85_z85.normalized_symbol 0x20) = false
      ∧ stream_codec.decode_plain true base85_z85 (z85 32) [0x00, 0x20] = ⟨[], none⟩
      ∧ stream_codec.decode_plain false base85_z85 (z85 32) [0x00, 0x20] = ⟨[], none⟩ := by
  decide

set_option maxRecDepth 100000 in
/-- The Z85 input `Hello`, a space, then the byte `FC`, with a signed `char`, satisfies the
hypotheses of the amended claim C10: the byte after the space is not read. -/
theorem decode_symbol_error_at_first_stop_witness :
    (stream_codec.decode_plain true base85_z85 (z85 32)
        (c_str "Hello" ++ 0x20 :: [0xFC])).failure = some (.symbol_error 0x20) :=
  decode_symbol_error_at_first_stop true base85_z85 (z85 32) (c_str "Hello") [0xFC] 0x20
    (by decide) (fun out idx => (block_decode_length out idx).2) (by decide)
    (by decide) (by decide) (by decide) (by decide) (by decide) (by decide) (by decide)

set_option maxRecDepth 100000 in
/-- Every character of the Z85 alphabet has a byte value below `0x80`. -/
theorem z85_alphabet_ascii : ∀ c ∈ base85_z85_alphabet.map char_code, c.val < 128 := by
  decide

/-- Z85 `decode` with the plain subscript is `decode` with in-bounds reads on an input
split at its first character that is neither ignored nor in the alphabet, when that
character is read in bounds: the characters before it that are read are below `0x80`, and
what follows it is not read. -/
theorem z85_decode_plain_eq (char_signed : Bool) (w : Nat) (p rest : List CChar)
    (hp : ∀ c ∈ p, base85_z85.should_ignore c = true ∨ c ∈ base85_z85_alphabet.map char_code)
    (hrest : ∀ x r, rest = x :: r →
      base85_z85.should_ignore x = false ∧ x ∉ base85_z85_alphabet.map char_code)
    (hb : ∀ x r, rest = x :: r → char_signed = false ∨ x.val < 128) :
    stream_codec.decode_plain char_signed base85_z85 (z85 w) (p ++ rest)
      = stream_codec.decode base85_z85 (z85 w) (p ++ rest) := by
  have hpr : ∀ c ∈ p, CodecVariant.should_ignore base85_z85 c = true
      ∨ table_read char_signed (make_lookup_table base85_z85) c
        = .ok (table_at (make_lookup_table base85_z85) c) := by
    intro c hc
    rcases hp c hc with h | h
    · exact Or.inl h
    · exact Or.inr (table_read_in_bounds char_signed _ c
        (make_lookup_table_length base85_z85) (Or.inr (z85_alphabet_ascii c h)))
  have hscan : decode_scan_plain char_signed base85_z85 (z85 w)
      (make_lookup_table base85_z85) (p ++ rest)
      (List.replicate (z85 w).encoded_block_size 0) eof_idx 0 []
      = decode_scan base85_z85 (z85 w) (make_lookup_table base85_z85) (p ++ rest)
        (List.replicate (z85 w).encoded_block_size 0) eof_idx 0 [] := by
    cases rest with
    | nil =>
      rw [List.append_nil]
      exact scan_plain_eq char_signed base85_z85 (z85 w) _ p hpr _ _ _ _
    | cons x r =>
      obtain ⟨hx1, hx2⟩ := hrest x r rfl
      have hstop : is_stop_character (table_at (make_lookup_table base85_z85) x) = true := by
        rw [z85_table_at]
        rcases z85_classification x with h | h | h
        · exact absurd h hx2
        · rw [h]
          decide
        · rw [h]
          decide
      exact scan_plain_stop char_signed base85_z85 (z85 w) _ p x r hpr hx1
        (table_read_in_bounds char_signed _ x (make_lookup_table_length base85_z85)
          (hb x r rfl)) hstop _ _ _ _
  exact decode_plain_no_padding char_signed base85_z85 (z85 w) _ _ rfl hscan
    (Or.inr (z85_is_padding _))

/-- The statement of claim C20 where the invalid character is read in bounds (`char` is
unsigned, or its byte value is below `0x80`): `decode` fails with `symbol_error` carrying
`x` and the sink holds the bytes of the complete blocks of `ws`. -/
theorem z85_blocks_committed_plain (char_signed : Bool) (w : Nat) (ws rest : List CChar)
    (x : CChar)
    (hws : ∀ c ∈ ws, c ∈ base85_z85_alphabet.map char_code)
    (hx : base85_z85.should_ignore x = false)
    (hxi : is_invalid (table_at (make_lookup_table base85_z85) x) = true)
    (hxb : char_signed = false ∨ x.val < 128) :
    stream_codec.decode_plain char_signed base85_z85 (z85 w) (ws ++ x :: rest)
        = ⟨decode_complete_blocks (ws.map (table_at (make_lookup_table base85_z85))),
            some (.symbol_error x)⟩
      ∧ (decode_complete_blocks
          (ws.map (table_at (make_lookup_table base85_z85)))).length = 4 * (ws.length / 5)
      := by
  have hxn : x ∉ base85_z85_alphabet.map char_code := by
    intro hm
    have h1 := (z85_alphabet_facts x hm).2
    rw [z85_table_at, (not_stop_of_lt _ (by omega)).2] at hxi
    cases hxi
  rw [z85_decode_plain_eq char_signed w ws (x :: rest) (fun c hc => Or.inr (hws c hc))
    (fun y r h => by
      cases h
      exact ⟨hx, hxn⟩)
    (fun y r h => by
      cases h
      exact hxb)]
  exact z85_blocks_committed_in_bounds w ws rest x hws hx hxi

/-- The statement of claim C24 where the first character that is neither ignored nor in
the alphabet, if there is one, is read in bounds (`char` is unsigned, or its byte value is
below `0x80`). -/
theorem z85_decode_failure_condition_plain (char_signed : Bool) (w : Nat)
    (p rest : List CChar)
    (hp : ∀ c ∈ p, base85_z85.should_ignore c = true ∨ c ∈ base85_z85_alphabet.map char_code)
    (hrest : ∀ x r, rest = x :: r →
      base85_z85.should_ignore x = false ∧ x ∉ base85_z85_alphabet.map char_code)
    (hb : ∀ x r, rest = x :: r → char_signed = false ∨ x.val < 128) :
    (stream_codec.decode_plain char_signed base85_z85 (z85 w) (p ++ rest)).failure
        ≠ some .padding_error
      ∧ (∀ c, (stream_codec.decode_plain char_signed base85_z85 (z85 w) (p ++ rest)).failure
            = some (.symbol_error c)
          ↔ ∃ r, rest = c :: r
              ∧ is_invalid (table_at (make_lookup_table base85_z85) c) = true)
      ∧ ((¬ ∃ c r, rest = c :: r
              ∧ is_invalid (table_at (make_lookup_table base85_z85) c) = true) →
          ((stream_codec.decode_plain char_signed base85_z85 (z85 w) (p ++ rest)).failure
              = some .invalid_input_length
            ↔ p.countP (fun c => decide (c ∈ base85_z85_alphabet.map char_code)) % 5 = 1))
      ∧ ((¬ ∃ c r, rest = c :: r
              ∧ is_invalid (table_at (make_lookup_table base85_z85) c) = true) →
          p.countP (fun c => decide (c ∈ base85_z85_alphabet.map char_code)) % 5 ≠ 1 →
          (stream_codec.decode_plain char_signed base85_z85 (z85 w) (p ++ rest)).failure
            = none) := by
  have h := z85_decode_failure w p rest hp hrest
  rw [← z85_decode_plain_eq char_signed w p rest hp hrest hb] at h
  cases rest with
  | nil => exact z85_failure_condition_of_cases _ _ [] h
  | cons x r => exact z85_failure_condition_of_cases _ _ (x :: r) h

set_option maxRecDepth 100000 in
/-- Claim C20, the code at the failing input. In the Z85 input `Hello` followed by the byte
`FC`, the five symbols are valid and `FC` is classified invalid: it is not ignored and its
table entry is `invalid_idx`. With a signed `char` the scan subscripts the table with
`*src = -4`: the read is outside the table, and the call does not end with `symbol_error`
carrying `FC`, which is what it does where the subscript is in bounds. -/
theorem z85_high_byte_after_block_out_of_bounds :
    (∀ c ∈ c_str "Hello", c ∈ base85_z85_alphabet.map char_code)
      ∧ base85_z85.should_ignore 0xFC = false
      ∧ is_invalid (table_at (make_lookup_table base85_z85) 0xFC) = true
      ∧ char_subscript true 0xFC = -4
      ∧ stream_codec.decode_plain true base85_z85 (z85 32) (c_str "Hello" ++ [0xFC])
        = ⟨[0x86, 0x4F, 0xD2, 0x6F], some .out_of_bounds⟩
      ∧ stream_codec.decode_plain false base85_z85 (z85 32) (c_str "Hello" ++ [0xFC])
        = ⟨[0x86, 0x4F, 0xD2, 0x6F], some (.symbol_error 0xFC)⟩ := by
  decide

set_option maxRecDepth 100000 in
/-- Claim C24, the code at the failing input. The Z85 input of the one byte `FC` has no
ignored character and no alphabet symbol before its first character `FC`, which is neither
ignored nor in the alphabet and is classified invalid, not EOF. With a signed `char` the
scan subscripts the table with `*src = -4`: the read is outside the table and the call
does not fail with `symbol_error`. -/
theorem z85_high_byte_alone_out_of_bounds :
    base85_z85.should_ignore 0xFC = false
      ∧ (0xFC : CChar) ∉ base85_z85_alphabet.map char_code
      ∧ is_invalid (table_at (make_lookup_table base85_z85) 0xFC) = true
      ∧ is_eof (table_at (make_lookup_table base85_z85) 0xFC) = false
      ∧ table_read true (make_lookup_table base85_z85) 0xFC = .error .out_of_bounds
      ∧ (stream_codec.decode_plain true base85_z85 (z85 32) [0xFC]).failure
        = some .out_of_bounds
      ∧ (stream_codec.decode_plain true base85_z85 (z85 32) [0xFC]).failure
        ≠ some (.symbol_error 0xFC) := by
  decide

end cppcodec
